import Mathlib

/-!
Project-Drone: server connectivity, routing, nearest server, landing spots and the agent

A shallow embedding of the algorithmic core of `src/canvas.cpp` and `src/drone.cpp`, and of
the sub-step count of `MainWindow::update` in `src/mainwindow.cpp`.

* `QString` is `String`; `QString::isEmpty` is equality with `""`.
* `QMap<QString, QSet<QString>>` (`Canvas::serverConnections`) is an association list
  `List (String × List String)`; the list stored under a key is the neighbour set in the
  order in which the set is iterated. Lookup takes the first binding of a key.
* `QQueue<QString>` is a list (enqueue appends, dequeue takes the head), `QSet<QString>`
  (`visited`) is a list used through membership only, `QMap<QString, QString>`
  (`predecessors`) is an association list whose newest binding of a key wins.
* `while` loops that have no structural bound carry a fuel argument; running out of fuel is
  the result `none`, and the theorems show that the fuel handed over by the entry points is
  always enough.
* `int` coordinates are integers; the subtraction of two coordinates is reduced to 32 bits.
* real-valued quantities (`double`) are embedded twice. For the simulation of the agent, the
  routing and the spacing of the landing spots they live in an arbitrary linearly ordered
  field `K`: arithmetic is exact, and Euclidean distances are compared through their squares,
  which is the same comparison in exact arithmetic. For the nearest server and for the place
  of a landing spot, where the results depend on rounding, the type `Double` carries the
  values of IEEE 754 binary64 (finite values as rational numbers, the infinities and NaN)
  with every operation rounded to nearest, ties to even; the functions over it are in the
  namespace `Binary64` under the names they have in the source.
* `rand()` reads from an explicit stream of natural numbers, `cos`, `sin`, `sqrt`, `atan2`
  and `M_PI` are parameters, and the static vector `usedLandingSpots` is passed in and
  handed back.
* `drone.h` and `vector2d.h` are not among the sources: the numeric constants of `drone.h`
  are parameters, and the phases, the start command and the vector operations follow the
  specification.
-/

namespace ProjectDrone

/-! ## Connectivity graph (`Canvas::serverConnections`) -/

/-- The adjacency map `QMap<QString, QSet<QString>> serverConnections`. -/
abbrev Graph := List (String × List String)

/-- The test `serverConnections.contains(k)`. -/
def contains (g : Graph) (k : String) : Bool :=
  match g with
  | [] => false
  | (k', _) :: rest => if k' = k then true else contains rest k

/-- The neighbour set read by `serverConnections[k]`. On an absent key `operator[]` yields a
default constructed (empty) set; that it also stores this set under the key changes no result
of the call that does it and is not recorded. -/
def neighbours (g : Graph) (k : String) : List String :=
  match g with
  | [] => []
  | (k', ns) :: rest => if k' = k then ns else neighbours rest k

/-- The statement `serverConnections[a].insert(b)`: the set under `a`, created when absent,
gains `b`. -/
def insertConnection (g : Graph) (a b : String) : Graph :=
  match g with
  | [] => [(a, [b])]
  | (k, ns) :: rest =>
    if k = a then (k, if b ∈ ns then ns else ns ++ [b]) :: rest
    else (k, ns) :: insertConnection rest a b

/-! ## Building the graph (`Canvas::parseServerConnections`) -/

/-- One element of the JSON array `servers` as `parseServerConnections` reads it: the `name`
string and the `position` string, the latter given by its comma separated fields after
`QString::toInt` (a 32-bit `int` each). -/
structure ServerEntry where
  name : String
  position : List Int
deriving DecidableEq, Repr

/-- The function `Canvas::parsePosition`: a `QPoint` from exactly two fields, the null point
otherwise. -/
def parsePosition (coords : List Int) : Int × Int :=
  match coords with
  | [x, y] => (x, y)
  | _ => (0, 0)

/-- Two's complement reduction of the result of an `int` operation to 32 bits. -/
def wrapInt32 (z : Int) : Int := (z + 2147483648) % 4294967296 - 2147483648

/-- The test `std::hypot(dx, dy) < 500` on integer arguments, in exact arithmetic. -/
def hypotLt500 (dx dy : Int) : Bool := decide (dx * dx + dy * dy < 250000)

/-- The test `distance < 500` of `parseServerConnections` for two entries. -/
def closeEnough (a b : ServerEntry) : Bool :=
  let pa := parsePosition a.position
  let pb := parsePosition b.position
  hypotLt500 (wrapInt32 (pa.1 - pb.1)) (wrapInt32 (pa.2 - pb.2))

/-- The inner loop `for (j = i + 1; ...)` of `parseServerConnections` for a fixed `serverA`. -/
def connectInner (a : ServerEntry) : List ServerEntry → Graph → Graph
  | [], g => g
  | b :: rest, g =>
    if closeEnough a b then
      connectInner a rest (insertConnection (insertConnection g a.name b.name) b.name a.name)
    else connectInner a rest g

/-- The outer loop `for (i = 0; ...)` of `parseServerConnections`. -/
def connectOuter : List ServerEntry → Graph → Graph
  | [], g => g
  | a :: rest, g => connectOuter rest (connectInner a rest g)

/-- The function `Canvas::parseServerConnections`: the map is cleared and rebuilt from the
server list. -/
def parseServerConnections (serverList : List ServerEntry) : Graph :=
  connectOuter serverList []

/-! ## Breadth-first search (`Canvas::findPathBasedOnConnections`) -/

/-- The lookup `predecessors.value(k, "")`. -/
def predValue (preds : List (String × String)) (k : String) : String :=
  match preds with
  | [] => ""
  | (k', v) :: rest => if k' = k then v else predValue rest k

/-- The loop `while (!step.isEmpty())` that prepends `step` to `path` and goes on with
`predecessors.value(step, "")`. -/
def reconstruct (preds : List (String × String)) :
    Nat → String → List String → Option (List String)
  | 0, _, _ => none
  | fuel + 1, step, path =>
    if step = "" then some path
    else reconstruct preds fuel (predValue preds step) (step :: path)

/-- The local variables of the search loop. -/
structure BfsState where
  queue : List String
  visited : List String
  predecessors : List (String × String)
deriving DecidableEq, Repr

/-- What the body of the `for` loop over the neighbours of `current` leaves behind: either the
function returned (`done`, with the returned list) or the loop ran to its end (`next`). -/
inductive Visit where
  | done (path : Option (List String))
  | next (st : BfsState)
deriving DecidableEq, Repr

/-- The loop `for (const QString &neighbor : serverConnections[current])`. -/
def visitNeighbours (start goal current : String) : List String → BfsState → Visit
  | [], st => Visit.next st
  | neighbor :: rest, st =>
    if neighbor ∈ st.visited then visitNeighbours start goal current rest st
    else
      let preds := (neighbor, current) :: st.predecessors
      if neighbor = goal then
        Visit.done
          ((reconstruct preds (preds.length + 2) neighbor []).map (fun path => start :: path))
      else
        visitNeighbours start goal current rest
          { queue := st.queue ++ [neighbor], visited := neighbor :: st.visited,
            predecessors := preds }

/-- The loop `while (!queue.isEmpty())`, followed by the final `return {}`. -/
def bfsLoop (g : Graph) (start goal : String) : Nat → BfsState → Option (List String)
  | 0, _ => none
  | fuel + 1, st =>
    match st.queue with
    | [] => some []
    | current :: queue =>
      match visitNeighbours start goal current (neighbours g current)
          { st with queue := queue } with
      | Visit.done path => path
      | Visit.next st' => bfsLoop g start goal fuel st'

/-- Every name that occurs in some neighbour set. -/
def allNeighbours (g : Graph) : List String :=
  match g with
  | [] => []
  | (_, ns) :: rest => ns ++ allNeighbours rest

/-- The function `Canvas::findPathBasedOnConnections`. The result `none` stands for a search
that does not finish within the fuel `(allNeighbours g).length + 2`. -/
def findPathBasedOnConnections (g : Graph) (start goal : String) : Option (List String) :=
  if start = goal then some [start]
  else if !contains g start || !contains g goal then some []
  else bfsLoop g start goal ((allNeighbours g).length + 2)
    { queue := [start], visited := [start], predecessors := [] }

/-- The three servers of the end-to-end scenario, at (0,0), (100,0) and (600,0). -/
def threeServers : List ServerEntry :=
  [⟨"server1", [0, 0]⟩, ⟨"server2", [100, 0]⟩, ⟨"server3", [600, 0]⟩]

/-- The line graph `a - b - c`. -/
def lineGraph : Graph := [("a", ["b"]), ("b", ["a", "c"]), ("c", ["b"])]

/-- An edge of the graph: `b` is in the neighbour set stored under `a`. -/
def Edge (g : Graph) (a b : String) : Prop := b ∈ neighbours g a

/-- Reachability through graph edges. -/
def Reachable (g : Graph) (a b : String) : Prop := Relation.ReflTransGen (Edge g) a b

/-- Every adjacent pair of the list is joined by a graph edge. -/
def IsWalk (g : Graph) (p : List String) : Prop := List.Chain' (Edge g) p

/-- The two directed entries that `parseServerConnections` inserts for the pair `a`, `b`. -/
def PairEdge (a b : ServerEntry) (k n : String) : Prop :=
  (k = a.name ∧ n = b.name) ∨ (k = b.name ∧ n = a.name)

/-- The relation `PredChain preds k p`: started at `k`, the reconstruction loop prepends
exactly the names of `p` (so `p` is in path order) and then meets the empty string. -/
inductive PredChain (preds : List (String × String)) : String → List String → Prop
  | stop : PredChain preds "" []
  | step {k : String} {p : List String} :
      k ≠ "" → PredChain preds (predValue preds k) p → PredChain preds k (p ++ [k])

/-- The number of dequeue and enqueue steps the search can still make. -/
def searchMeasure (g : Graph) (st : BfsState) : Nat :=
  st.queue.length + ((allNeighbours g).filter (fun x => decide (x ∉ st.visited))).length

/-- The invariant of the search; `pending` are the visited names whose neighbours have not all
been looked at yet. -/
structure BfsInv (g : Graph) (start goal : String) (pending : List String) (st : BfsState) :
    Prop where
  start_mem : start ∈ st.visited
  reach : ∀ v ∈ st.visited, Reachable g start v
  goal_not : goal ∉ st.visited
  pending_sub : ∀ q ∈ pending, q ∈ st.visited
  closed : ∀ v ∈ st.visited, v ∉ pending → ∀ n ∈ neighbours g v, n ∈ st.visited
  chain : ∀ k ∈ st.visited, ∃ p, PredChain st.predecessors k p ∧
    p.length ≤ st.predecessors.length + 1 ∧ ∀ x ∈ p, x ∈ st.visited

/-! ## Geometry (`Vector2D`) -/

/-- Modelled from the spec: the class `Vector2D` (`vector2d.h` is not among the sources) is a
pair of real-valued coordinates with addition, subtraction, scaling and Euclidean length. -/
structure Vector2D (K : Type) where
  x : K
  y : K
deriving DecidableEq, Repr

namespace Vector2D

variable {K : Type} [LinearOrderedField K]

/-- The sum `a + b`. -/
def add (a b : Vector2D K) : Vector2D K := ⟨a.x + b.x, a.y + b.y⟩

/-- The difference `a - b`. -/
def sub (a b : Vector2D K) : Vector2D K := ⟨a.x - b.x, a.y - b.y⟩

/-- The square of `length()`. -/
def lengthSq (a : Vector2D K) : K := a.x * a.x + a.y * a.y

end Vector2D

section Numeric

variable {K : Type} [LinearOrderedField K]

/-- The square of `Canvas::euclideanDistance(a, b)`, which is
`sqrt((a.x - b.x) * (a.x - b.x) + (a.y - b.y) * (a.y - b.y))`, in exact arithmetic;
`Binary64.euclideanDistance` is the function in `double` arithmetic. -/
def euclideanDistanceSq (a b : Vector2D K) : K :=
  (a.x - b.x) * (a.x - b.x) + (a.y - b.y) * (a.y - b.y)

/-- The constant `std::numeric_limits<double>::max()`. -/
def dblMax : K := (2 ^ 53 - 1) * 2 ^ 971

/-! ## Nearest server (`Canvas::getCurrentServerForDrone`) -/

/-- The struct `Canvas::Server`: name, position and the stored polygon (as its list of points); the
colour plays no part here. -/
structure Server (K : Type) where
  name : String
  position : Vector2D K
  polygon : List (Vector2D K)

/-- The first loop of `getCurrentServerForDrone`: the first server whose polygon holds the
point. `containsPoint` stands for `QPolygonF::containsPoint(_, Qt::WindingFill)`. -/
def polygonScan (containsPoint : List (Vector2D K) → Vector2D K → Bool) (position : Vector2D K) :
    List (Server K) → Option String
  | [] => none
  | server :: rest =>
    if containsPoint server.polygon position then some server.name
    else polygonScan containsPoint position rest

/-- The second loop of `getCurrentServerForDrone` in exact arithmetic. The pair carried along
is the square of `minDistance` and `closestServer`; `distance < minDistance` is decided on the
squares. `Binary64.nearestScan` is the loop in `double` arithmetic. -/
def nearestScan (position : Vector2D K) : List (Server K) → K × String → K × String
  | [], acc => acc
  | server :: rest, acc =>
    if euclideanDistanceSq position server.position < acc.1 then
      nearestScan position rest (euclideanDistanceSq position server.position, server.name)
    else nearestScan position rest acc

/-- The function `Canvas::getCurrentServerForDrone` for a drone at `position`, in exact
arithmetic; `Binary64.getCurrentServerForDrone` is the function in `double` arithmetic. -/
def getCurrentServerForDrone (containsPoint : List (Vector2D K) → Vector2D K → Bool)
    (servers : List (Server K)) (position : Vector2D K) : String :=
  match polygonScan containsPoint position servers with
  | some name => name
  | none => (nearestScan position servers (dblMax * dblMax, "")).2

/-! ## Landing spots (`Drone::findLandingSpot`) -/

/-- The state of the C library generator, given as the results of all future calls of
`rand()`. -/
abbrev RandState := Nat → Nat

/-- One call of `rand()`: the result and the state afterwards. -/
def rand (s : RandState) : Nat × RandState := (s 0, fun n => s (n + 1))

/-- The functions of `<cmath>` used for a landing spot, and `M_PI`. -/
structure Trig (K : Type) where
  pi : K
  cos : K → K
  sin : K → K

/-- The conversion `int(x)` of a `double`: truncation towards zero. The 32-bit range of the
result, outside of which the conversion has no defined result, is not modelled. -/
def truncToInt [FloorRing K] (x : K) : Int := if 0 ≤ x then Int.floor x else Int.ceil x

/-- The inner loop of `findLandingSpot` with its `break`: some recorded spot is closer than
40 to `landingSpot`. -/
def occupied (landingSpot : Vector2D K) (usedLandingSpots : List (Vector2D K)) : Bool :=
  match usedLandingSpots with
  | [] => false
  | spot :: rest =>
    if Vector2D.lengthSq (Vector2D.sub landingSpot spot) < 1600 then true
    else occupied landingSpot rest

/-- The candidate of one round of `findLandingSpot`, from the two results `a` and `b` of
`rand()` drawn in that round (`a` for the angle, `b` for the radius), in exact arithmetic.
The remainder of the `int` division is `Int.tmod`; a zero divisor, on which the C++ program
has no defined result, leaves the dividend. `Binary64.landingCandidate` is the candidate in
`double` arithmetic, without a result in that case. -/
def landingCandidate [FloorRing K] (T : Trig K) (serverPos : Vector2D K) (radius : K)
    (a b : Nat) : Vector2D K :=
  let angle : K := ((a % 360 : Nat) : K) * (T.pi / 180)
  let r : K := ((Int.tmod (b : Int) (truncToInt (radius - 50)) + 50 : Int) : K)
  Vector2D.add serverPos ⟨r * T.cos angle, r * T.sin angle⟩

/-- The candidate of round `i` (from 0) of a call of `findLandingSpot` that finds the
generator in state `rng`: round `i` draws the results number `2 * i` and `2 * i + 1`. -/
def sampledCandidate [FloorRing K] (T : Trig K) (serverPos : Vector2D K) (radius : K)
    (rng : RandState) (i : Nat) : Vector2D K :=
  landingCandidate T serverPos radius (rng (2 * i)) (rng (2 * i + 1))

/-- What a call of `findLandingSpot` leaves behind: the returned point, the static vector
`usedLandingSpots` and the state of the generator. -/
structure Landing (K : Type) where
  spot : Vector2D K
  usedLandingSpots : List (Vector2D K)
  rng : RandState

/-- The loop `for (int i = 0; i < 10; i++)` of `findLandingSpot` with `rounds` rounds to go,
followed by `return serverPos`. -/
def findLandingSpotLoop [FloorRing K] (T : Trig K) (serverPos : Vector2D K) (radius : K) :
    Nat → List (Vector2D K) → RandState → Landing K
  | 0, used, rng => ⟨serverPos, used, rng⟩
  | rounds + 1, used, rng =>
    let ra := rand rng
    let rb := rand ra.2
    let landingSpot := landingCandidate T serverPos radius ra.1 rb.1
    if occupied landingSpot used then findLandingSpotLoop T serverPos radius rounds used rb.2
    else ⟨landingSpot, used ++ [landingSpot], rb.2⟩

/-- The function `Drone::findLandingSpot(serverPos, radius)`, with the static vector and the generator
passed explicitly. -/
def findLandingSpot [FloorRing K] (T : Trig K) (serverPos : Vector2D K) (radius : K)
    (used : List (Vector2D K)) (rng : RandState) : Landing K :=
  findLandingSpotLoop T serverPos radius 10 used rng

end Numeric

/-- A stand-in for `<cmath>` over the rationals that can be evaluated: every angle is sent to
the point `(3/5, 4/5)` of the unit circle. -/
def unitTrig : Trig ℚ := ⟨3, fun _ => 3 / 5, fun _ => 4 / 5⟩

/-! ## The type `double` -/

/-- A value of the type `double` (IEEE 754 binary64): a finite value, given by the rational
number it stands for, an infinity or a NaN. The sign of a zero, which nothing embedded here
can observe, is not recorded. The operations below return nothing but values of binary64;
the type itself does not keep other rational numbers out. -/
inductive Double where
  | nan
  | negInf
  | finite (q : ℚ)
  | posInf
deriving DecidableEq, Repr

namespace Double

/-- The integer nearest to `m`; half way between two integers it is the even one. -/
def nearestEven (m : ℚ) : Int :=
  if m - Int.floor m < 1 / 2 then Int.floor m
  else if 1 / 2 < m - Int.floor m then Int.floor m + 1
  else if Int.floor m % 2 = 0 then Int.floor m else Int.floor m + 1

/-- The distance between neighbouring binary64 values at `q`: `2 ^ (e - 52)` for
`2 ^ e ≤ |q| < 2 ^ (e + 1)`, where `e` is not taken below -1022, the exponent of the
subnormal values. -/
def spacing (q : ℚ) : ℚ := 2 ^ (max (Int.log 2 |q|) (-1022) - 52)

/-- The binary64 value nearest to `q` when the exponent range has no upper end: the nearest
multiple of the spacing at `q`, the even one of two that are equally near. -/
def nearest (q : ℚ) : ℚ := (nearestEven (q / spacing q) : ℚ) * spacing q

/-- Rounding of an exact result `q` to binary64 (to nearest, ties to even); a result that
reaches `2 ^ 1024` in magnitude is an infinity. -/
def rnd (q : ℚ) : Double :=
  if 2 ^ 1024 ≤ nearest q then posInf
  else if nearest q ≤ -2 ^ 1024 then negInf
  else finite (nearest q)

/-- The sum `a + b` of two values of type `double`. -/
def add : Double → Double → Double
  | finite a, finite b => rnd (a + b)
  | finite _, posInf => posInf
  | finite _, negInf => negInf
  | posInf, finite _ => posInf
  | posInf, posInf => posInf
  | negInf, finite _ => negInf
  | negInf, negInf => negInf
  | _, _ => nan

/-- The difference `a - b` of two values of type `double`. -/
def sub : Double → Double → Double
  | finite a, finite b => rnd (a - b)
  | finite _, posInf => negInf
  | finite _, negInf => posInf
  | posInf, finite _ => posInf
  | posInf, negInf => posInf
  | negInf, finite _ => negInf
  | negInf, posInf => negInf
  | _, _ => nan

/-- The product `a * b` of two values of type `double`. -/
def mul : Double → Double → Double
  | finite a, finite b => rnd (a * b)
  | finite a, posInf => if a = 0 then nan else if 0 < a then posInf else negInf
  | finite a, negInf => if a = 0 then nan else if 0 < a then negInf else posInf
  | posInf, finite b => if b = 0 then nan else if 0 < b then posInf else negInf
  | negInf, finite b => if b = 0 then nan else if 0 < b then negInf else posInf
  | posInf, posInf => posInf
  | posInf, negInf => negInf
  | negInf, posInf => negInf
  | negInf, negInf => posInf
  | _, _ => nan

/-- The binary64 value nearest to the square root of `q ≥ 0` (ties to even). With
`4 ^ k ≤ q < 4 ^ (k + 1)` the root lies in `[2 ^ k, 2 ^ (k + 1))`, where the values are
`s = 2 ^ (k - 52)` apart; `n` is the integer part of the root in units of `s`. -/
def sqrtNearest (q : ℚ) : ℚ :=
  let s : ℚ := 2 ^ (Int.log 2 q / 2 - 52)
  let t : ℚ := q / (s * s)
  let n : Nat := Nat.sqrt (Nat.floor t)
  if t < (n + 1 / 2) * (n + 1 / 2) then n * s
  else if (n + 1 / 2) * (n + 1 / 2) < t then (n + 1) * s
  else if n % 2 = 0 then n * s else (n + 1) * s

/-- The function `std::sqrt` on `double`. -/
def sqrt : Double → Double
  | finite q => if q < 0 then nan else finite (sqrtNearest q)
  | posInf => posInf
  | _ => nan

/-- The comparison `a < b` of two values of type `double`; it is false when a NaN takes
part. -/
def lt : Double → Double → Bool
  | finite a, finite b => decide (a < b)
  | finite _, posInf => true
  | negInf, finite _ => true
  | negInf, posInf => true
  | _, _ => false

/-- The comparison `a <= b` of two values of type `double`; it is false when a NaN takes
part. -/
def le : Double → Double → Bool
  | finite a, finite b => decide (a ≤ b)
  | finite _, posInf => true
  | negInf, finite _ => true
  | negInf, posInf => true
  | negInf, negInf => true
  | posInf, posInf => true
  | _, _ => false

/-- The conversion `int(x)` of a `double`: truncation towards zero. There is no result
(`none`) where the program has no defined result: for an infinity, a NaN and a value whose
integer part is outside the range of `int`. -/
def toInt : Double → Option Int
  | finite q =>
    if -2147483648 ≤ (if 0 ≤ q then Int.floor q else Int.ceil q) ∧
        (if 0 ≤ q then Int.floor q else Int.ceil q) ≤ 2147483647 then
      some (if 0 ≤ q then Int.floor q else Int.ceil q)
    else none
  | _ => none

/-- A value that is neither negative nor a NaN: a finite value that is at least zero, or the
positive infinity. -/
def NonNeg (x : Double) : Prop := x = posInf ∨ ∃ v : ℚ, x = finite v ∧ 0 ≤ v

end Double

/-! ## The nearest server and the landing spot in `double` arithmetic -/

namespace Binary64

/-- A vector with finite coordinates. -/
def IsPoint (v : Vector2D Double) : Prop := ∃ x y : ℚ, v = ⟨Double.finite x, Double.finite y⟩

/-- A vector with finite coordinates of absolute value at most `B`. -/
def Within (B : ℚ) (v : Vector2D Double) : Prop :=
  ∃ x y : ℚ, v = ⟨Double.finite x, Double.finite y⟩ ∧ |x| ≤ B ∧ |y| ≤ B

/-- The function `Canvas::euclideanDistance(a, b)`:
`std::sqrt((a.x - b.x) * (a.x - b.x) + (a.y - b.y) * (a.y - b.y))`, every operation rounded. -/
def euclideanDistance (a b : Vector2D Double) : Double :=
  Double.sqrt (Double.add (Double.mul (Double.sub a.x b.x) (Double.sub a.x b.x))
    (Double.mul (Double.sub a.y b.y) (Double.sub a.y b.y)))

/-- The second loop of `getCurrentServerForDrone`; the pair carried along is `minDistance`
and `closestServer`. -/
def nearestScan (position : Vector2D Double) :
    List (Server Double) → Double × String → Double × String
  | [], acc => acc
  | server :: rest, acc =>
    if Double.lt (euclideanDistance position server.position) acc.1 then
      nearestScan position rest (euclideanDistance position server.position, server.name)
    else nearestScan position rest acc

/-- The function `Canvas::getCurrentServerForDrone` for a drone at `position`; the scan
starts from `std::numeric_limits<double>::max()` and the empty name. -/
def getCurrentServerForDrone (containsPoint : List (Vector2D Double) → Vector2D Double → Bool)
    (servers : List (Server Double)) (position : Vector2D Double) : String :=
  match polygonScan containsPoint position servers with
  | some name => name
  | none => (nearestScan position servers (Double.finite dblMax, "")).2

/-- The functions `cos` and `sin` of `<cmath>` on `double`. -/
structure Libm where
  cos : Double → Double
  sin : Double → Double

/-- The constant expression `M_PI / 180.0`: the `double` nearest to pi is
`884279719003555 / 2 ^ 48`, and its quotient by 180 is rounded. -/
def degree : Double := Double.rnd (884279719003555 / 2 ^ 48 / 180)

/-- Modelled from the spec: the sum of two vectors (`vector2d.h` is not among the sources),
componentwise. -/
def add (a b : Vector2D Double) : Vector2D Double := ⟨Double.add a.x b.x, Double.add a.y b.y⟩

/-- Modelled from the spec: the difference of two vectors, componentwise. -/
def sub (a b : Vector2D Double) : Vector2D Double := ⟨Double.sub a.x b.x, Double.sub a.y b.y⟩

/-- Modelled from the spec: `Vector2D::length()`, the Euclidean norm `sqrt(x * x + y * y)`. -/
def length (a : Vector2D Double) : Double :=
  Double.sqrt (Double.add (Double.mul a.x a.x) (Double.mul a.y a.y))

/-- The inner loop of `findLandingSpot` with its `break`: for some recorded spot the computed
length of `landingSpot - spot` is below 40. -/
def occupied (landingSpot : Vector2D Double) : List (Vector2D Double) → Bool
  | [] => false
  | spot :: rest =>
    if Double.lt (length (sub landingSpot spot)) (Double.finite 40) then true
    else occupied landingSpot rest

/-- The candidate of one round of `findLandingSpot`, from the two results `a` and `b` of
`rand()` drawn in that round. There is no candidate (`none`) where the program has no defined
result: when `int(radius - 50)` has none or is zero, the divisor of `%`. The remainder of the
`int` division is `Int.tmod`, the sum with 50 is reduced to 32 bits, and the conversion of an
`int` to `double` is exact. -/
def landingCandidate (L : Libm) (serverPos : Vector2D Double) (radius : Double) (a b : Nat) :
    Option (Vector2D Double) :=
  match Double.toInt (Double.sub radius (Double.finite 50)) with
  | none => none
  | some m =>
    if m = 0 then none
    else
      some (add serverPos
        ⟨Double.mul (Double.finite ((wrapInt32 (Int.tmod (b : Int) m + 50) : Int) : ℚ))
            (L.cos (Double.mul (Double.finite ((a % 360 : Nat) : ℚ)) degree)),
          Double.mul (Double.finite ((wrapInt32 (Int.tmod (b : Int) m + 50) : Int) : ℚ))
            (L.sin (Double.mul (Double.finite ((a % 360 : Nat) : ℚ)) degree))⟩)

/-- The loop `for (int i = 0; i < 10; i++)` of `findLandingSpot` with `rounds` rounds to go,
followed by `return serverPos`. -/
def findLandingSpotLoop (L : Libm) (serverPos : Vector2D Double) (radius : Double) :
    Nat → List (Vector2D Double) → RandState → Option (Landing Double)
  | 0, used, rng => some ⟨serverPos, used, rng⟩
  | rounds + 1, used, rng =>
    match landingCandidate L serverPos radius (rand rng).1 (rand (rand rng).2).1 with
    | none => none
    | some landingSpot =>
      if occupied landingSpot used then
        findLandingSpotLoop L serverPos radius rounds used (rand (rand rng).2).2
      else some ⟨landingSpot, used ++ [landingSpot], (rand (rand rng).2).2⟩

/-- The function `Drone::findLandingSpot(serverPos, radius)` in `double` arithmetic, with the
static vector and the generator passed explicitly. -/
def findLandingSpot (L : Libm) (serverPos : Vector2D Double) (radius : Double)
    (used : List (Vector2D Double)) (rng : RandState) : Option (Landing Double) :=
  findLandingSpotLoop L serverPos radius 10 used rng

/-- The results of `cos` and `sin` of the C library at the angle of one degree,
`1 * (M_PI / 180.0) = 5030569068109113 / 2 ^ 58`: the values of type `double` nearest to the
cosine and the sine. Every other argument is treated like the angle 0, with cosine 1 and
sine 0. -/
def libm : Libm :=
  { cos := fun t =>
      if t = Double.finite (5030569068109113 / 2 ^ 58) then
        Double.finite (4502913707333573 / 2 ^ 52)
      else Double.finite 1
    sin := fun t =>
      if t = Double.finite (5030569068109113 / 2 ^ 58) then
        Double.finite (2515156836085391 / 2 ^ 57)
      else Double.finite 0 }

end Binary64

/-- Three servers with integer positions and empty polygons, for evaluating the scan. -/
def sampleServers : List (Server Double) :=
  [⟨"a", ⟨Double.finite 0, Double.finite 0⟩, []⟩,
    ⟨"b", ⟨Double.finite 10, Double.finite 0⟩, []⟩,
    ⟨"c", ⟨Double.finite 10, Double.finite 10⟩, []⟩]

/-! ## The agent (`Drone`) -/

/-- Modelled from the spec: the type of `Drone::status` (`drone.h` is not among the sources)
has the four phases charging, ascending, descending and cruising, here under the names the
code uses for them; `hovering` stands for every status with `status >= hovering`. -/
inductive Status where
  | landed
  | takeoff
  | landing
  | hovering
deriving DecidableEq, Repr

/-- The numeric constants of `drone.h` that `drone.cpp` uses; the header is not among the
sources, so they are parameters. -/
structure DroneConstants (K : Type) where
  maxSpeed : K
  maxPower : K
  takeoffSpeed : K
  hoveringHeight : K
  chargingSpeed : K
  powerConsumption : K
  coefCollision : K

/-- The functions of `<cmath>` used by `Drone::update` and `Vector2D`, on top of those of
`Trig`. -/
structure CMath (K : Type) extends Trig K where
  sqrt : K → K
  atan2 : K → K → K

/-- The data members of `Drone` that the simulation reads and writes. -/
structure Drone (K : Type) where
  status : Status
  speed : K
  power : K
  height : K
  position : Vector2D K
  goalPosition : Vector2D K
  azimut : K
  ForceCollision : Vector2D K
  showCollision : Bool
  targetServerName : String

section DroneModel

variable {K : Type} [LinearOrderedField K]

/-- Modelled from the spec: `Vector2D::length()`, the Euclidean norm. -/
def Vector2D.length (M : CMath K) (a : Vector2D K) : K := M.sqrt (Vector2D.lengthSq a)

/-- Modelled from the spec: the product of a vector and a scalar, componentwise. -/
def Vector2D.scale (a : Vector2D K) (k : K) : Vector2D K := ⟨a.x * k, a.y * k⟩

/-- Modelled from the spec: `Vector2D::normalize()`, the division of both coordinates by the
length. -/
def Vector2D.normalize (M : CMath K) (a : Vector2D K) : Vector2D K :=
  ⟨a.x / Vector2D.length M a, a.y / Vector2D.length M a⟩

/-- What a call of `Drone::update` leaves behind: the drone, the static vector of
`findLandingSpot` and the state of the generator. -/
structure Tick (K : Type) where
  drone : Drone K
  usedLandingSpots : List (Vector2D K)
  rng : RandState

/-- The safety margin `20 + powerConsumption / takeoffSpeed`; this is the value the C++
expression has for a non-zero `takeoffSpeed`. -/
def powerMargin (c : DroneConstants K) : K := 20 + c.powerConsumption / c.takeoffSpeed

/-- The assignment of `azimut` in the last branch of `Drone::update`. -/
def heading (M : CMath K) (toGoal : Vector2D K) : K :=
  if toGoal.x = 0 then (if toGoal.y > 0 then 180 else 0)
  else -(M.atan2 toGoal.x toGoal.y) * 180 / M.pi

/-- The branch `status == landed` of `Drone::update`. -/
def updateLanded (c : DroneConstants K) (dt : K) (d : Drone K) : Drone K :=
  let power := d.power + dt * c.chargingSpeed
  { d with power := if power > c.maxPower then c.maxPower else power }

/-- The branch `status == takeoff` of `Drone::update`. -/
def updateTakeoff (c : DroneConstants K) (dt : K) (d : Drone K) : Drone K :=
  let height := d.height + dt * c.takeoffSpeed
  let d1 : Drone K :=
    if height ≥ c.hoveringHeight then
      { d with height := c.hoveringHeight, status := Status.hovering }
    else { d with height := height }
  let d2 : Drone K := { d1 with power := d1.power - dt * c.powerConsumption }
  if d2.power < powerMargin c then { d2 with status := Status.landing, speed := 0 } else d2

/-- The branch `status == landing` of `Drone::update`. -/
def updateLanding (c : DroneConstants K) (dt : K) (d : Drone K) : Drone K :=
  let height := d.height - dt * c.takeoffSpeed
  let d1 : Drone K :=
    if height ≤ 0 then
      { d with height := 0, status := Status.landed, showCollision := false }
    else { d with height := height }
  { d1 with power := d1.power - dt * c.powerConsumption }

/-- The branch `status >= hovering` of `Drone::update`. -/
def updateHovering [FloorRing K] (c : DroneConstants K) (M : CMath K) (dt : K) (d : Drone K)
    (used : List (Vector2D K)) (rng : RandState) : Tick K :=
  let toGoal := Vector2D.sub d.goalPosition d.position
  let distance := Vector2D.length M toGoal
  let landingRadius : K := 90
  let moved : Vector2D K × Tick K :=
    if distance > landingRadius then
      let unit := Vector2D.normalize M toGoal
      let position := Vector2D.add d.position (Vector2D.scale (Vector2D.scale unit dt) c.maxSpeed)
      (unit, ⟨{ d with position := position }, used, rng⟩)
    else
      let res := findLandingSpot M.toTrig d.goalPosition landingRadius used rng
      (toGoal, ⟨{ d with position := res.spot, status := Status.landed },
        res.usedLandingSpots, res.rng⟩)
  let d1 := moved.2.drone
  let d2 : Drone K :=
    { d1 with
      azimut := heading M moved.1,
      speed := Vector2D.length M (Vector2D.sub d1.goalPosition d1.position),
      power := d1.power - dt * c.powerConsumption }
  let d3 : Drone K :=
    if d2.power < powerMargin c then { d2 with status := Status.landing } else d2
  ⟨d3, moved.2.usedLandingSpots, moved.2.rng⟩

/-- The function `Drone::update(dt)`, with the static vector of `findLandingSpot` and the
generator passed explicitly. -/
def update [FloorRing K] (c : DroneConstants K) (M : CMath K) (dt : K) (d : Drone K)
    (used : List (Vector2D K)) (rng : RandState) : Tick K :=
  match d.status with
  | Status.landed => ⟨updateLanded c dt d, used, rng⟩
  | Status.takeoff => ⟨updateTakeoff c dt d, used, rng⟩
  | Status.landing => ⟨updateLanding c dt d, used, rng⟩
  | Status.hovering => updateHovering c M dt d used rng

/-- The function `Drone::initCollision`. -/
def initCollision (d : Drone K) : Drone K :=
  { d with ForceCollision := ⟨0, 0⟩, showCollision := false }

/-- The function `Drone::addCollision(B, threshold)`; the product of the scalar
`-coefCollision / threshold` and the vector `AB` is taken componentwise. -/
def addCollision (c : DroneConstants K) (M : CMath K) (d : Drone K) (B : Vector2D K)
    (threshold : K) : Drone K :=
  let AB := Vector2D.sub B d.position
  let l := Vector2D.length M AB
  if l < threshold then
    { d with
      ForceCollision :=
        Vector2D.add d.ForceCollision (Vector2D.scale AB (-c.coefCollision / threshold)),
      showCollision := true }
  else d

/-- Modelled from the spec: the start command `Drone::start()` (declared in `drone.h`, which is
not among the sources) is the transition from charging to ascending. -/
def start (d : Drone K) : Drone K :=
  if d.status = Status.landed then { d with status := Status.takeoff } else d

/-- One event in the life of a drone: a call `update(dt)` or a start command. -/
inductive DroneEvent (K : Type) where
  | tick (dt : K)
  | start

/-- The time that passes with an event. -/
def DroneEvent.elapsed : DroneEvent K → K
  | DroneEvent.tick dt => dt
  | DroneEvent.start => 0

/-- A run of one drone: the events applied one after the other; `startCmd` is the effect of
the start command. -/
def droneRun [FloorRing K] (c : DroneConstants K) (M : CMath K) (startCmd : Drone K → Drone K) :
    List (DroneEvent K) → Tick K → Tick K
  | [], t => t
  | DroneEvent.tick dt :: rest, t =>
    droneRun c M startCmd rest (update c M dt t.drone t.usedLandingSpots t.rng)
  | DroneEvent.start :: rest, t =>
    droneRun c M startCmd rest ⟨startCmd t.drone, t.usedLandingSpots, t.rng⟩

/-- The time that passes with a list of events. -/
def totalElapsed : List (DroneEvent K) → K
  | [] => 0
  | e :: rest => e.elapsed + totalElapsed rest

end DroneModel

/-- A stand-in for `<cmath>` over the rationals that can be evaluated: `unitTrig`, the square
root `Rat.sqrt`, which is exact on squares, and a constant for `atan2`. -/
def ratMath : CMath ℚ := { unitTrig with sqrt := Rat.sqrt, atan2 := fun _ _ => 0 }

/-- Sample values for the constants of `drone.h`, for evaluating `Drone::update`. -/
def sampleConstants : DroneConstants ℚ :=
  { maxSpeed := 50, maxPower := 200, takeoffSpeed := 5 / 2, hoveringHeight := 5,
    chargingSpeed := 10, powerConsumption := 5, coefCollision := 1000 }

/-! ## Routing (`Canvas::updateDroneTarget`) -/

section Routing

variable {K : Type} [LinearOrderedField K]

/-- The function `Canvas::getServerByName`: the first server of the list with the name, if
any (`nullptr` is `none`). -/
def getServerByName (servers : List (Server K)) (name : String) : Option (Server K) :=
  match servers with
  | [] => none
  | server :: rest => if server.name = name then some server else getServerByName rest name

/-- The function `Canvas::getTargetServerForDrone`. -/
def getTargetServerForDrone (drone : Drone K) : String := drone.targetServerName

/-- The two calls `setGoalPosition(position)` and `setTargetServerName(name)`. -/
def retarget (drone : Drone K) (position : Vector2D K) (name : String) : Drone K :=
  { drone with goalPosition := position, targetServerName := name }

/-- The loop `for (int i = 1; i < path.size(); i++)` of `updateDroneTarget` over the names
`path[1]`, `path[2]`, ... -/
def updateDroneTargetLoop (servers : List (Server K)) : List String → Drone K → Drone K
  | [], drone => drone
  | name :: rest, drone =>
    match getServerByName servers name with
    | some nextServerObj =>
      updateDroneTargetLoop servers rest
        (retarget drone nextServerObj.position nextServerObj.name)
    | none => updateDroneTargetLoop servers rest drone

/-- The function `Canvas::updateDroneTarget`. The result `none` stands for a path search that
runs out of fuel. -/
def updateDroneTarget (containsPoint : List (Vector2D K) → Vector2D K → Bool)
    (servers : List (Server K)) (g : Graph) (drone : Drone K) : Option (Drone K) :=
  let currentServer := getCurrentServerForDrone containsPoint servers drone.position
  let targetServer := getTargetServerForDrone drone
  if currentServer = "" ∨ targetServer = "" then some drone
  else
    match findPathBasedOnConnections g currentServer targetServer with
    | none => none
    | some path =>
      if path.length > 1 then some (updateDroneTargetLoop servers (path.drop 1) drone)
      else some drone

end Routing

/-- What `serverConnections[current]` may have done to the map `g` during a search: names
that were no keys are stored with an empty set, so the neighbour sets read from the map stay
what they were. -/
def EmptySetsStored (g g' : Graph) : Prop :=
  (∀ k, neighbours g' k = neighbours g k) ∧ allNeighbours g' = allNeighbours g ∧
    ∀ k, contains g k = true → contains g' k = true

/-- The adjacency map that a call `findPathBasedOnConnections(start, goal)` on the map `g`
may leave behind: `g` itself when the call returns before the search, and `g` with empty
sets stored under further names otherwise. -/
def AfterQuery (g g' : Graph) (start goal : String) : Prop :=
  (start = goal ∨ contains g start = false ∨ contains g goal = false → g' = g) ∧
    EmptySetsStored g g'

/-- Three servers in a row, 400 apart: `A - B - C`. -/
def rowEntries : List ServerEntry :=
  [⟨"A", [0, 0]⟩, ⟨"B", [400, 0]⟩, ⟨"C", [800, 0]⟩]

/-- The servers of `rowEntries` as `loadJsonData` stores them. -/
def rowServers : List (Server ℚ) :=
  [⟨"A", ⟨0, 0⟩, []⟩, ⟨"B", ⟨400, 0⟩, []⟩, ⟨"C", ⟨800, 0⟩, []⟩]

/-- A landed drone at `position` whose destination is the server `target`. -/
def droneFor (position : Vector2D ℚ) (target : String) : Drone ℚ :=
  { status := Status.landed, speed := 0, power := 100, height := 0, position := position,
    goalPosition := ⟨550, 600⟩, azimut := 0, ForceCollision := ⟨0, 0⟩, showCollision := false,
    targetServerName := target }

/-- A drone at the origin with goal `(1000, 0)`, in phase `status` and with power `power`. -/
def droneAtOrigin (status : Status) (power : ℚ) : Drone ℚ :=
  { status := status, speed := 0, power := power, height := 0, position := ⟨0, 0⟩,
    goalPosition := ⟨1000, 0⟩, azimut := 0, ForceCollision := ⟨0, 0⟩, showCollision := false,
    targetServerName := "" }

/-- A cruising drone at `(950, 0)` with goal `(1000, 0)` and power `power`. -/
def droneNearGoal (power : ℚ) : Drone ℚ :=
  { status := Status.hovering, speed := 0, power := power, height := 5, position := ⟨950, 0⟩,
    goalPosition := ⟨1000, 0⟩, azimut := 0, ForceCollision := ⟨0, 0⟩, showCollision := false,
    targetServerName := "" }

/-- A list is a possible result of a search from `start` to `goal`: it is empty, or it is
`start` followed by non-empty names of which the last is `goal`, if there are any. -/
def PathShape (start goal : String) (r : List String) : Prop :=
  r = [] ∨ ∃ p, r = start :: p ∧ (∀ x ∈ p, x ≠ "") ∧ (p = [] ∨ ∃ p', p = p' ++ [goal])

/-! ## Shortest walks -/

/-- Every key and every neighbour name of the map is a non-empty string. -/
def NamesNonEmpty (g : Graph) : Prop := ∀ kv ∈ g, kv.1 ≠ "" ∧ ∀ n ∈ kv.2, n ≠ ""

/-- The goal `b` is reached from `a` along `n` graph edges. -/
inductive HopWalk (g : Graph) (a : String) : String → Nat → Prop
  | refl : HopWalk g a a 0
  | tail {b c : String} {n : Nat} : HopWalk g a b n → Edge g b c → HopWalk g a c (n + 1)

/-- The list `p` is a walk from `a` to `b`: it begins with `a`, ends with `b`, and every
adjacent pair is joined by a graph edge. -/
def WalkFromTo (g : Graph) (a b : String) (p : List String) : Prop :=
  p.head? = some a ∧ p.getLast? = some b ∧ IsWalk g p

/-- The invariant of the search that carries the walks: `walkOf v` is the list that the
reconstruction loop yields for the visited name `v`, a walk from `start` to `v` with the
least number of hops; the pending names are ordered by the length of their walks, which
differ by one at most. -/
structure BfsWalkInv (g : Graph) (start goal : String) (pending : List String)
    (st : BfsState) (walkOf : String → List String) : Prop where
  start_mem : start ∈ st.visited
  goal_not : goal ∉ st.visited
  pending_sub : ∀ q ∈ pending, q ∈ st.visited
  closed : ∀ v ∈ st.visited, v ∉ pending → ∀ n ∈ neighbours g v, n ∈ st.visited
  chain : ∀ v ∈ st.visited, PredChain st.predecessors v (walkOf v) ∧
    (walkOf v).length ≤ st.predecessors.length + 1 ∧ ∀ x ∈ walkOf v, x ∈ st.visited
  walk : ∀ v ∈ st.visited, WalkFromTo g start v (walkOf v)
  minimal : ∀ v ∈ st.visited, ∀ n, HopWalk g start v n → (walkOf v).length ≤ n + 1
  sorted : pending.Pairwise (fun a b => (walkOf a).length ≤ (walkOf b).length)
  bound : ∀ a ∈ pending, ∀ b ∈ pending, (walkOf b).length ≤ (walkOf a).length + 1

/-- The list `p` is a walk from `a` to `b` with the least number of hops: no walk from `a` to
`b` is shorter. -/
def IsShortestWalk (g : Graph) (a b : String) (p : List String) : Prop :=
  WalkFromTo g a b p ∧ ∀ q, WalkFromTo g a b q → p.length ≤ q.length

/-! ## The driver (`MainWindow::update`) -/

/-- The static variables `last` and `steps` of `MainWindow::update`. -/
structure DriverState where
  last : Int
  steps : Int
deriving DecidableEq, Repr

/-- The state on the first call of `MainWindow::update`: `last` is the reading of the timer at
that moment, `steps` is 10. -/
def initialDriver (firstReading : Int) : DriverState := ⟨firstReading, 10⟩

/-- The divisor `1000.0 * steps` of the assignment to `dt`. -/
def dtDivisor (steps : Int) : ℚ := 1000 * (steps : ℚ)

/-- The assignment `double dt = (current - last) / (1000.0 * steps)`; `none` stands for the
division by zero, which has no finite result. -/
def tickDt (st : DriverState) (current : Int) : Option ℚ :=
  if dtDivisor st.steps = 0 then none
  else some (((current - st.last : Int) : ℚ) / dtDivisor st.steps)

/-- The adaptation of `steps` at the end of `MainWindow::update`, where `d` is the measured
cost of the tick in milliseconds; `steps /= 2` is the truncating division of `int`. -/
def adaptSteps (steps d : Int) : Int :=
  if d > 90 then Int.tdiv steps 2
  else if steps < 10 then steps + 1 else steps

/-- The static variables after one call of `MainWindow::update` that reads `current` from the
timer at its start and measures the cost `d`. -/
def driverTick (st : DriverState) (current d : Int) : DriverState :=
  ⟨current, adaptSteps st.steps d⟩

/-- The static variables after a sequence of calls, each given by its timer reading and its
measured cost. -/
def driverRun : List (Int × Int) → DriverState → DriverState
  | [], st => st
  | tick :: rest, st => driverRun rest (driverTick st tick.1 tick.2)

/-! ## Lemmas on the adjacency map -/

theorem mem_neighbours_insertConnection (g : Graph) (a b k n : String) :
    n ∈ neighbours (insertConnection g a b) k ↔ n ∈ neighbours g k ∨ (k = a ∧ n = b) := by
  induction g with
  | nil =>
    by_cases h : a = k
    · subst h; simp [insertConnection, neighbours]
    · have h' : ¬ k = a := fun e => h e.symm
      simp [insertConnection, neighbours, h, h']
  | cons kv rest ih =>
    obtain ⟨k', ns⟩ := kv
    by_cases h1 : k' = a
    · subst h1
      by_cases h2 : k' = k
      · subst h2
        by_cases h3 : b ∈ ns
        · simp only [insertConnection, neighbours, if_true, h3, true_and]
          constructor
          · intro h; exact Or.inl h
          · rintro (h | h)
            · exact h
            · rw [h]; exact h3
        · simp [insertConnection, neighbours, h3]
      · have h2' : ¬ k = k' := fun e => h2 e.symm
        simp [insertConnection, neighbours, h2, h2']
    · by_cases h2 : k' = k
      · subst h2
        have h1' : ¬ k' = a := h1
        simp [insertConnection, neighbours, h1]
      · simp [insertConnection, neighbours, h1, h2, ih]

theorem mem_neighbours_connectInner (a : ServerEntry) (rest : List ServerEntry) (g : Graph)
    (k n : String) :
    n ∈ neighbours (connectInner a rest g) k ↔
      n ∈ neighbours g k ∨ ∃ b ∈ rest, closeEnough a b = true ∧ PairEdge a b k n := by
  induction rest generalizing g with
  | nil => simp [connectInner]
  | cons b rest ih =>
    by_cases hc : closeEnough a b = true
    · simp only [connectInner, hc, if_true, ih, mem_neighbours_insertConnection,
        List.mem_cons, exists_eq_or_imp, true_and]
      constructor
      · rintro (((h | h) | h) | h)
        · exact Or.inl h
        · exact Or.inr (Or.inl (Or.inl h))
        · exact Or.inr (Or.inl (Or.inr h))
        · exact Or.inr (Or.inr h)
      · rintro (h | (h | h) | h)
        · exact Or.inl (Or.inl (Or.inl h))
        · exact Or.inl (Or.inl (Or.inr h))
        · exact Or.inl (Or.inr h)
        · exact Or.inr h
    · have hstep : connectInner a (b :: rest) g = connectInner a rest g := by
        simp [connectInner, hc]
      rw [hstep, ih]
      constructor
      · rintro (h | ⟨c, hm, hcc, he⟩)
        · exact Or.inl h
        · exact Or.inr ⟨c, List.mem_cons_of_mem _ hm, hcc, he⟩
      · rintro (h | ⟨c, hm, hcc, he⟩)
        · exact Or.inl h
        · rcases List.mem_cons.1 hm with rfl | hm'
          · exact absurd hcc hc
          · exact Or.inr ⟨c, hm', hcc, he⟩

theorem mem_neighbours_connectOuter (l : List ServerEntry) (g : Graph) (k n : String) :
    n ∈ neighbours (connectOuter l g) k ↔
      n ∈ neighbours g k ∨
        ∃ l1 a l2 b, l = l1 ++ a :: l2 ∧ b ∈ l2 ∧ closeEnough a b = true ∧ PairEdge a b k n := by
  induction l generalizing g with
  | nil => simp [connectOuter]
  | cons a rest ih =>
    simp only [connectOuter, ih, mem_neighbours_connectInner]
    constructor
    · rintro ((h | ⟨b, hb, hc, he⟩) | ⟨l1, a', l2, b, hl, hb, hc, he⟩)
      · exact Or.inl h
      · exact Or.inr ⟨[], a, rest, b, rfl, hb, hc, he⟩
      · exact Or.inr ⟨a :: l1, a', l2, b, by rw [hl]; rfl, hb, hc, he⟩
    · rintro (h | ⟨l1, a', l2, b, hl, hb, hc, he⟩)
      · exact Or.inl (Or.inl h)
      · cases l1 with
        | nil =>
          simp only [List.nil_append, List.cons.injEq] at hl
          obtain ⟨rfl, rfl⟩ := hl
          exact Or.inl (Or.inr ⟨b, hb, hc, he⟩)
        | cons x l1 =>
          simp only [List.cons_append, List.cons.injEq] at hl
          obtain ⟨rfl, rfl⟩ := hl
          exact Or.inr ⟨l1, a', l2, b, rfl, hb, hc, he⟩

theorem mem_neighbours_parseServerConnections (l : List ServerEntry) (k n : String) :
    n ∈ neighbours (parseServerConnections l) k ↔
      ∃ l1 a l2 b, l = l1 ++ a :: l2 ∧ b ∈ l2 ∧ closeEnough a b = true ∧ PairEdge a b k n := by
  simp [parseServerConnections, mem_neighbours_connectOuter, neighbours]

theorem wrapInt32_of_fits (z : Int) (h1 : -2147483648 ≤ z) (h2 : z < 2147483648) :
    wrapInt32 z = z := by
  unfold wrapInt32
  rw [Int.emod_eq_of_lt (by omega) (by omega)]
  omega

/-- In a list whose names are pairwise distinct an entry is determined by its name. -/
theorem entry_eq_of_name_eq {l : List ServerEntry} (hn : (l.map ServerEntry.name).Nodup)
    {a b : ServerEntry} (ha : a ∈ l) (hb : b ∈ l) (h : a.name = b.name) : a = b :=
  List.inj_on_of_nodup_map hn ha hb h

/-- Of two different members of a list one comes before the other. -/
theorem split_of_mem_of_ne {l : List ServerEntry} {a b : ServerEntry} (ha : a ∈ l) (hb : b ∈ l)
    (h : a ≠ b) :
    (∃ l1 l2, l = l1 ++ a :: l2 ∧ b ∈ l2) ∨ (∃ l1 l2, l = l1 ++ b :: l2 ∧ a ∈ l2) := by
  induction l with
  | nil => simp at ha
  | cons x l ih =>
    rcases List.mem_cons.1 ha with rfl | ha'
    · rcases List.mem_cons.1 hb with e | hb'
      · exact absurd e.symm h
      · exact Or.inl ⟨[], l, rfl, hb'⟩
    · rcases List.mem_cons.1 hb with rfl | hb'
      · exact Or.inr ⟨[], l, rfl, ha'⟩
      · rcases ih ha' hb' with ⟨l1, l2, e, m⟩ | ⟨l1, l2, e, m⟩
        · exact Or.inl ⟨x :: l1, l2, by rw [e]; rfl, m⟩
        · exact Or.inr ⟨x :: l1, l2, by rw [e]; rfl, m⟩

/-! ## Invariants of the breadth-first search -/

theorem reconstruct_of_chain {preds : List (String × String)} {k : String} {p : List String}
    (h : PredChain preds k p) :
    ∀ (fuel : Nat) (acc : List String), p.length + 1 ≤ fuel →
      reconstruct preds fuel k acc = some (p ++ acc) := by
  induction h with
  | stop =>
    intro fuel acc hf
    obtain ⟨f, rfl⟩ : ∃ f, fuel = f + 1 := ⟨fuel - 1, by omega⟩
    simp [reconstruct]
  | step hk _ ih =>
    intro fuel acc hf
    obtain ⟨f, rfl⟩ : ∃ f, fuel = f + 1 := ⟨fuel - 1, by omega⟩
    simp only [List.length_append, List.length_singleton] at hf
    simp only [reconstruct, hk, if_false]
    rw [ih f _ (by omega)]
    simp

theorem PredChain.congr {preds preds' : List (String × String)} {k : String} {p : List String}
    (h : PredChain preds k p) (hsame : ∀ x ∈ p, predValue preds' x = predValue preds x) :
    PredChain preds' k p := by
  induction h with
  | stop => exact PredChain.stop
  | @step k p hk _ ih =>
    have hk' : predValue preds' k = predValue preds k := hsame k (by simp)
    refine PredChain.step hk ?_
    rw [hk']
    exact ih (fun x hx => hsame x (List.mem_append_left _ hx))

theorem mem_allNeighbours_of_mem_neighbours (g : Graph) (k n : String)
    (h : n ∈ neighbours g k) : n ∈ allNeighbours g := by
  induction g with
  | nil => simp [neighbours] at h
  | cons kv rest ih =>
    obtain ⟨k', ns⟩ := kv
    by_cases hk : k' = k
    · simp only [neighbours, hk, if_true] at h
      simp [allNeighbours, h]
    · simp only [neighbours, hk, if_false] at h
      simp [allNeighbours, ih h]

theorem filter_unvisited_lt (l visited : List String) (n : String) (hn : n ∈ l)
    (hv : n ∉ visited) :
    (l.filter (fun x => decide (x ∉ n :: visited))).length <
      (l.filter (fun x => decide (x ∉ visited))).length := by
  induction l with
  | nil => simp at hn
  | cons x l ih =>
    have hle : (l.filter (fun x => decide (x ∉ n :: visited))).length ≤
        (l.filter (fun x => decide (x ∉ visited))).length := by
      rw [← List.countP_eq_length_filter, ← List.countP_eq_length_filter]
      apply List.countP_mono_left
      intro y _ hy
      simp only [List.mem_cons, not_or, decide_eq_true_eq] at hy ⊢
      exact hy.2
    by_cases hx : x = n
    · subst hx
      have h1 : decide (x ∉ x :: visited) = false := by simp
      have h2 : decide (x ∉ visited) = true := by simp [hv]
      rw [List.filter_cons_of_neg (by simp [h1]), List.filter_cons_of_pos (by simp [h2])]
      simp only [List.length_cons]
      omega
    · have hn' : n ∈ l := by
        rcases List.mem_cons.1 hn with h | h
        · exact absurd h.symm hx
        · exact h
      have := ih hn'
      by_cases hxv : x ∈ visited
      · simp [List.filter_cons, hxv, hx]
        simpa using this
      · simp [List.filter_cons, hxv, hx]
        simpa using this

theorem predValue_cons_of_ne (n c : String) (preds : List (String × String)) (x : String)
    (h : x ≠ n) : predValue ((n, c) :: preds) x = predValue preds x := by
  have h' : ¬ n = x := fun e => h e.symm
  simp [predValue, h']

/-- Recording the predecessor of a newly discovered name keeps every old predecessor walk and
gives the new name a walk of its own. -/
theorem chain_extend {preds : List (String × String)} {visited : List String} {n c : String}
    (hchain : ∀ k ∈ visited, ∃ p, PredChain preds k p ∧ p.length ≤ preds.length + 1 ∧
      ∀ x ∈ p, x ∈ visited)
    (hn : n ∉ visited) (hc : c ∈ visited) :
    ∀ k ∈ n :: visited, ∃ p, PredChain ((n, c) :: preds) k p ∧
      p.length ≤ ((n, c) :: preds).length + 1 ∧ ∀ x ∈ p, x ∈ n :: visited := by
  have hold : ∀ k ∈ visited, ∃ p, PredChain ((n, c) :: preds) k p ∧
      p.length ≤ preds.length + 1 ∧ ∀ x ∈ p, x ∈ visited := by
    intro k hk
    obtain ⟨p, hp, hlen, hsub⟩ := hchain k hk
    refine ⟨p, hp.congr ?_, hlen, hsub⟩
    intro x hx
    apply predValue_cons_of_ne
    rintro rfl
    exact hn (hsub _ hx)
  intro k hk
  rcases List.mem_cons.1 hk with rfl | hk'
  · by_cases hempty : k = ""
    · subst hempty
      exact ⟨[], PredChain.stop, by simp, by simp⟩
    · obtain ⟨p, hp, hlen, hsub⟩ := hold c hc
      refine ⟨p ++ [k], PredChain.step hempty ?_, ?_, ?_⟩
      · have : predValue ((k, c) :: preds) k = c := by simp [predValue]
        rw [this]
        exact hp
      · simp only [List.length_append, List.length_cons, List.length_nil]
        omega
      · intro x hx
        rcases List.mem_append.1 hx with h | h
        · exact List.mem_cons_of_mem _ (hsub _ h)
        · simp only [List.mem_singleton] at h
          rw [h]
          exact List.mem_cons_self _ _
  · obtain ⟨p, hp, hlen, hsub⟩ := hold k hk'
    refine ⟨p, hp, ?_, fun x hx => List.mem_cons_of_mem _ (hsub _ hx)⟩
    simp only [List.length_cons]
    omega

/-- The effect of the loop over the neighbours of `current`: either the goal is met, and the
returned list starts with `start`, or the invariant is carried over. -/
theorem visitNeighbours_spec (g : Graph) (start goal current : String) :
    ∀ (ns : List String) (st : BfsState),
      BfsInv g start goal (current :: st.queue) st →
      (∀ n ∈ ns, n ∈ neighbours g current) →
      (∃ p, visitNeighbours start goal current ns st = Visit.done (some (start :: p)) ∧
          Reachable g start goal) ∨
      (∃ st', visitNeighbours start goal current ns st = Visit.next st' ∧
          BfsInv g start goal (current :: st'.queue) st' ∧
          (∀ n ∈ ns, n ∈ st'.visited) ∧ (∀ v ∈ st.visited, v ∈ st'.visited) ∧
          searchMeasure g st' ≤ searchMeasure g st) := by
  intro ns
  induction ns with
  | nil =>
    intro st hinv _
    exact Or.inr ⟨st, rfl, hinv, by simp, fun v hv => hv, le_refl _⟩
  | cons n rest ih =>
    intro st hinv hns
    have hrest : ∀ m ∈ rest, m ∈ neighbours g current :=
      fun m hm => hns m (List.mem_cons_of_mem _ hm)
    have hedge : n ∈ neighbours g current := hns n (List.mem_cons_self _ _)
    have hcur : current ∈ st.visited := hinv.pending_sub current (List.mem_cons_self _ _)
    by_cases hvis : n ∈ st.visited
    · have hstep : visitNeighbours start goal current (n :: rest) st =
          visitNeighbours start goal current rest st := by
        simp [visitNeighbours, hvis]
      rw [hstep]
      rcases ih st hinv hrest with h | ⟨st', he, hinv', hall, hmono, hmeas⟩
      · exact Or.inl h
      · refine Or.inr ⟨st', he, hinv', ?_, hmono, hmeas⟩
        intro m hm
        rcases List.mem_cons.1 hm with rfl | hm'
        · exact hmono _ hvis
        · exact hall m hm'
    · have hch := chain_extend hinv.chain hvis hcur
      by_cases hgoal : n = goal
      · left
        subst hgoal
        obtain ⟨p, hp, hlen, -⟩ := hch n (List.mem_cons_self _ _)
        refine ⟨p, ?_, ?_⟩
        · have hrec := reconstruct_of_chain hp (((n, current) :: st.predecessors).length + 2) []
            (by omega)
          simp only [visitNeighbours, hvis, if_false, if_true]
          rw [hrec]
          simp
        · exact Relation.ReflTransGen.tail (hinv.reach current hcur) hedge
      · have hinv1 : BfsInv g start goal (current :: (st.queue ++ [n]))
            { queue := st.queue ++ [n], visited := n :: st.visited,
              predecessors := (n, current) :: st.predecessors } := by
          refine ⟨List.mem_cons_of_mem _ hinv.start_mem, ?_, ?_, ?_, ?_, hch⟩
          · intro v hv
            rcases List.mem_cons.1 hv with rfl | hv'
            · exact Relation.ReflTransGen.tail (hinv.reach current hcur) hedge
            · exact hinv.reach v hv'
          · intro h
            rcases List.mem_cons.1 h with h' | h'
            · exact hgoal h'.symm
            · exact hinv.goal_not h'
          · intro q hq
            rcases List.mem_cons.1 hq with rfl | hq'
            · exact List.mem_cons_of_mem _ hcur
            · rcases List.mem_append.1 hq' with h | h
              · exact List.mem_cons_of_mem _ (hinv.pending_sub q (List.mem_cons_of_mem _ h))
              · simp only [List.mem_singleton] at h
                rw [h]
                exact List.mem_cons_self _ _
          · intro v hv hnot m hm
            have hvn : v ≠ n := by
              rintro rfl
              exact hnot (List.mem_cons_of_mem _ (List.mem_append_right _ (by simp)))
            have hv' : v ∈ st.visited := by
              rcases List.mem_cons.1 hv with h | h
              · exact absurd h hvn
              · exact h
            have hnot' : v ∉ current :: st.queue := by
              intro h
              rcases List.mem_cons.1 h with h' | h'
              · exact hnot (by rw [h']; exact List.mem_cons_self _ _)
              · exact hnot (List.mem_cons_of_mem _ (List.mem_append_left _ h'))
            exact List.mem_cons_of_mem _ (hinv.closed v hv' hnot' m hm)
        have hstep : visitNeighbours start goal current (n :: rest) st =
            visitNeighbours start goal current rest
              { queue := st.queue ++ [n], visited := n :: st.visited,
                predecessors := (n, current) :: st.predecessors } := by
          simp [visitNeighbours, hvis, hgoal]
        rw [hstep]
        rcases ih ⟨st.queue ++ [n], n :: st.visited, (n, current) :: st.predecessors⟩ hinv1
          hrest with h | ⟨st', he, hinv', hall, hmono, hmeas⟩
        · exact Or.inl h
        · refine Or.inr ⟨st', he, hinv', ?_, ?_, ?_⟩
          · intro m hm
            rcases List.mem_cons.1 hm with rfl | hm'
            · exact hmono _ (List.mem_cons_self _ _)
            · exact hall m hm'
          · intro v hv
            exact hmono v (List.mem_cons_of_mem _ hv)
          · have hlt := filter_unvisited_lt (allNeighbours g) st.visited n
              (mem_allNeighbours_of_mem_neighbours g current n hedge) hvis
            simp only [searchMeasure, List.length_append, List.length_singleton] at hmeas ⊢
            omega

/-- A set of names that holds `start` and is closed under edges holds everything reachable. -/
theorem mem_of_reachable_of_closed {g : Graph} {start : String} {visited : List String}
    (hstart : start ∈ visited)
    (hclosed : ∀ v ∈ visited, ∀ n ∈ neighbours g v, n ∈ visited) {v : String}
    (h : Reachable g start v) : v ∈ visited := by
  induction h with
  | refl => exact hstart
  | tail _ hedge ih => exact hclosed _ ih _ hedge

/-- The search loop finishes within the fuel `searchMeasure + 1`, and it returns the empty list
exactly when the goal cannot be reached. -/
theorem bfsLoop_spec (g : Graph) (start goal : String) :
    ∀ (fuel : Nat) (st : BfsState), BfsInv g start goal st.queue st →
      searchMeasure g st + 1 ≤ fuel →
      ∃ r, bfsLoop g start goal fuel st = some r ∧ (r = [] ↔ ¬ Reachable g start goal) := by
  intro fuel
  induction fuel with
  | zero => intro st _ h; omega
  | succ fuel ih =>
    intro st hinv hfuel
    obtain ⟨queue, visited, preds⟩ := st
    cases queue with
    | nil =>
      refine ⟨[], by simp [bfsLoop], ?_⟩
      simp only [true_iff]
      intro hreach
      have hclosed : ∀ v ∈ visited, ∀ n ∈ neighbours g v, n ∈ visited :=
        fun v hv n hn => hinv.closed v hv (by simp) n hn
      exact hinv.goal_not (mem_of_reachable_of_closed hinv.start_mem hclosed hreach)
    | cons current rest =>
      have hinv0 : BfsInv g start goal (current :: rest) ⟨rest, visited, preds⟩ :=
        ⟨hinv.start_mem, hinv.reach, hinv.goal_not, hinv.pending_sub, hinv.closed, hinv.chain⟩
      rcases visitNeighbours_spec g start goal current (neighbours g current)
          ⟨rest, visited, preds⟩ hinv0 (fun n hn => hn) with
        ⟨p, he, hreach⟩ | ⟨st', he, hinv', hall, hmono, hmeas⟩
      · refine ⟨start :: p, ?_, ?_⟩
        · simp only [bfsLoop]
          rw [he]
        · simp [hreach]
      · have hinv1 : BfsInv g start goal st'.queue st' := by
          refine ⟨hinv'.start_mem, hinv'.reach, hinv'.goal_not, ?_, ?_, hinv'.chain⟩
          · intro q hq
            exact hinv'.pending_sub q (List.mem_cons_of_mem _ hq)
          · intro v hv hnot n hn
            by_cases hvc : v = current
            · subst hvc
              exact hall n hn
            · apply hinv'.closed v hv _ n hn
              intro h
              rcases List.mem_cons.1 h with h' | h'
              · exact hvc h'
              · exact hnot h'
        have hfuel' : searchMeasure g st' + 1 ≤ fuel := by
          simp only [searchMeasure, List.length_cons] at hfuel hmeas ⊢
          omega
        obtain ⟨r, hr, hiff⟩ := ih st' hinv1 hfuel'
        refine ⟨r, ?_, hiff⟩
        simp only [bfsLoop]
        rw [he]
        exact hr

theorem bfsInv_init (g : Graph) (start goal : String) (hne : start ≠ goal) :
    BfsInv g start goal [start] ⟨[start], [start], []⟩ := by
  refine ⟨by simp, ?_, ?_, ?_, ?_, ?_⟩
  · intro v hv
    simp only [List.mem_singleton] at hv
    rw [hv]
    exact Relation.ReflTransGen.refl
  · simp only [List.mem_singleton]
    exact fun h => hne h.symm
  · intro q hq
    exact hq
  · intro v hv hnot
    exact absurd hv hnot
  · intro k hk
    simp only [List.mem_singleton] at hk
    subst hk
    by_cases hempty : k = ""
    · subst hempty
      exact ⟨[], PredChain.stop, by simp, by simp⟩
    · refine ⟨[] ++ [k], PredChain.step hempty ?_, by simp, by simp⟩
      simp only [predValue]
      exact PredChain.stop

/-- For two different names that are both keys of the map the search returns a list, and the
list is empty exactly when the goal cannot be reached from the start. -/
theorem findPath_spec (g : Graph) (start goal : String) (hne : start ≠ goal)
    (hs : contains g start = true) (hg : contains g goal = true) :
    ∃ r, findPathBasedOnConnections g start goal = some r ∧
      (r = [] ↔ ¬ Reachable g start goal) := by
  have hfuel : searchMeasure g ⟨[start], [start], []⟩ + 1 ≤ (allNeighbours g).length + 2 := by
    have := List.length_filter_le (fun x => decide (x ∉ [start])) (allNeighbours g)
    simp only [searchMeasure, List.length_singleton]
    omega
  obtain ⟨r, hr, hiff⟩ := bfsLoop_spec g start goal _ ⟨[start], [start], []⟩
    (bfsInv_init g start goal hne) hfuel
  refine ⟨r, ?_, hiff⟩
  simp only [findPathBasedOnConnections, hne, if_false, hs, hg]
  simpa using hr

/-- Without an edge into `goal` nothing but `goal` itself reaches it. -/
theorem not_reachable_of_isolated (g : Graph) (start goal : String) (hne : start ≠ goal)
    (hiso : ∀ v, goal ∉ neighbours g v) : ¬ Reachable g start goal := by
  intro h
  rcases Relation.ReflTransGen.cases_tail h with h' | ⟨v, _, hedge⟩
  · exact hne h'.symm
  · exact hiso v hedge

/-! ## Shortest-path queries -/

/-- When the goal is among the neighbours that are still to be looked at from `start`, the
loop over these neighbours returns `[start, start, goal]`. -/
theorem visitNeighbours_goal_adjacent (start goal : String) (hs : start ≠ "") (hg : goal ≠ "")
    (hne : start ≠ goal) :
    ∀ (ns : List String) (st : BfsState), goal ∈ ns → goal ∉ st.visited →
      start ∈ st.visited → predValue st.predecessors start = "" →
      visitNeighbours start goal start ns st = Visit.done (some [start, start, goal]) := by
  intro ns
  induction ns with
  | nil => intro st h; simp at h
  | cons n rest ih =>
    intro st hmem hgoal hstart hpred
    by_cases hvis : n ∈ st.visited
    · have hn : goal ≠ n := fun e => hgoal (e ▸ hvis)
      have hrest : goal ∈ rest := by
        rcases List.mem_cons.1 hmem with h | h
        · exact absurd h hn
        · exact h
      have hstep : visitNeighbours start goal start (n :: rest) st =
          visitNeighbours start goal start rest st := by
        simp [visitNeighbours, hvis]
      rw [hstep]
      exact ih st hrest hgoal hstart hpred
    · by_cases hng : n = goal
      · subst hng
        have hne' : ¬ n = start := fun e => hne e.symm
        have h1 : predValue ((n, start) :: st.predecessors) n = start := by
          simp [predValue]
        have h2 : predValue ((n, start) :: st.predecessors) start = "" := by
          simp [predValue, hne', hpred]
        simp only [visitNeighbours, hvis, if_false, if_true, List.length_cons, reconstruct,
          hg, hs, h1, h2, Option.map_some']
      · have hns : n ≠ start := fun e => hvis (e ▸ hstart)
        have hrest : goal ∈ rest := by
          rcases List.mem_cons.1 hmem with h | h
          · exact absurd h.symm hng
          · exact h
        have hstep : visitNeighbours start goal start (n :: rest) st =
            visitNeighbours start goal start rest
              ⟨st.queue ++ [n], n :: st.visited, (n, start) :: st.predecessors⟩ := by
          simp [visitNeighbours, hvis, hng]
        rw [hstep]
        apply ih _ hrest
        · intro h
          rcases List.mem_cons.1 h with h' | h'
          · exact hng h'.symm
          · exact hgoal h'
        · exact List.mem_cons_of_mem _ hstart
        · rw [predValue_cons_of_ne n start st.predecessors start (fun e => hns e.symm)]
          exact hpred

/-- C1: for every graph and every two different, non-empty names `start` and `goal` that are
keys of the adjacency map and joined by an edge, the query returns the three-element list
`[start, start, goal]`, in which the start stands twice, and so not the two-element list
`[start, goal]`. -/
theorem findPath_neighbour_repeats_start (g : Graph) (start goal : String)
    (hs : start ≠ "") (hg : goal ≠ "") (hne : start ≠ goal)
    (hks : contains g start = true) (hkg : contains g goal = true)
    (hedge : goal ∈ neighbours g start) :
    findPathBasedOnConnections g start goal = some [start, start, goal] ∧
      findPathBasedOnConnections g start goal ≠ some [start, goal] := by
  have hval : findPathBasedOnConnections g start goal = some [start, start, goal] := by
    have hv := visitNeighbours_goal_adjacent start goal hs hg hne (neighbours g start)
      ⟨[], [start], []⟩ hedge (by simpa using fun e => hne e.symm) (by simp) rfl
    simp only [findPathBasedOnConnections, hne, if_false, hks, hkg, bfsLoop]
    simp [hv]
  refine ⟨hval, ?_⟩
  rw [hval]
  simp

theorem findPath_neighbour_repeats_start_witness :
    findPathBasedOnConnections (parseServerConnections threeServers) "server1" "server2" =
        some ["server1", "server1", "server2"] ∧
      findPathBasedOnConnections (parseServerConnections threeServers) "server1" "server2" ≠
        some ["server1", "server2"] :=
  findPath_neighbour_repeats_start (parseServerConnections threeServers) "server1" "server2"
    (by decide) (by decide) (by decide) (by decide) (by decide) (by decide)

/-- The query returns a list for every graph and every two names: the search never runs out
of fuel. -/
theorem findPath_total (g : Graph) (start goal : String) :
    ∃ r, findPathBasedOnConnections g start goal = some r := by
  by_cases hne : start = goal
  · exact ⟨[start], by simp [findPathBasedOnConnections, hne]⟩
  · by_cases hs : contains g start = true
    · by_cases hg : contains g goal = true
      · obtain ⟨r, hr, _⟩ := findPath_spec g start goal hne hs hg
        exact ⟨r, hr⟩
      · exact ⟨[], by simp [findPathBasedOnConnections, hne, hg]⟩
    · exact ⟨[], by simp [findPathBasedOnConnections, hne, hs]⟩

/-- C2: on the line graph `a - b - c` the query from `a` to `c` returns `[a, a, b, c]`. Its
first adjacent pair `(a, a)` is not a graph edge, and the shorter list `[a, b, c]` goes from
`a` to `c` along graph edges. -/
theorem findPath_line_not_walk_not_shortest :
    findPathBasedOnConnections lineGraph "a" "c" = some ["a", "a", "b", "c"] ∧
      ¬ IsWalk lineGraph ["a", "a", "b", "c"] ∧
      IsWalk lineGraph ["a", "b", "c"] ∧
      ["a", "b", "c"].length < ["a", "a", "b", "c"].length := by
  refine ⟨by decide, ?_, ?_, by decide⟩
  · simp [IsWalk, Edge, lineGraph, neighbours]
  · simp [IsWalk, Edge, lineGraph, neighbours]

/-- The guard `start == goal`. -/
theorem findPath_of_eq (g : Graph) (X : String) :
    findPathBasedOnConnections g X X = some [X] := by
  simp [findPathBasedOnConnections]

/-- The guard on the keys of the map, reached by two different names. -/
theorem findPath_of_absent (g : Graph) (start goal : String) (hne : start ≠ goal)
    (habsent : contains g start = false ∨ contains g goal = false) :
    findPathBasedOnConnections g start goal = some [] := by
  rcases habsent with h | h
  · simp [findPathBasedOnConnections, hne, h]
  · simp [findPathBasedOnConnections, hne, h]

/-- C3: for every graph and every name `X` the query from `X` to `X` returns the
single-element list `[X]`. -/
theorem findPath_same (g : Graph) (X : String) :
    findPathBasedOnConnections g X X = some [X] :=
  findPath_of_eq g X

/-- C4, as stated, fails: on the empty graph the name `a` is absent, yet the query from `a` to
`a` returns `[a]` and not the empty list. -/
theorem findPath_absent_same_nonempty :
    ¬ (∀ (g : Graph) (start goal : String),
        (contains g start = false ∨ contains g goal = false) →
        findPathBasedOnConnections g start goal = some []) := by
  intro h
  have h1 := h [] "a" "a" (Or.inl rfl)
  rw [findPath_of_eq] at h1
  exact absurd h1 (by decide)

/-- C4, amended: for every graph and every two different names, if the start or the goal is
not a key of the adjacency map, the query returns the empty list. -/
theorem findPath_absent (g : Graph) (start goal : String) (hne : start ≠ goal)
    (habsent : contains g start = false ∨ contains g goal = false) :
    findPathBasedOnConnections g start goal = some [] :=
  findPath_of_absent g start goal hne habsent

theorem findPath_absent_witness :
    findPathBasedOnConnections lineGraph "a" "z" = some [] :=
  findPath_absent lineGraph "a" "z" (by decide) (Or.inr (by decide))

/-- C5: for every graph and every two different names that are both keys of the adjacency
map, the query returns a list, and that list is empty if and only if the goal is not reachable
from the start through graph edges. A name into which no edge leads is not reachable from any
other name and the query to it returns the empty list; so it is for `server3` in the
three-server scenario, which has no edge at all. -/
theorem findPath_empty_iff_unreachable :
    (∀ (g : Graph) (start goal : String), start ≠ goal → contains g start = true →
        contains g goal = true →
        (∃ r, findPathBasedOnConnections g start goal = some r) ∧
        (findPathBasedOnConnections g start goal = some [] ↔ ¬ Reachable g start goal)) ∧
    (∀ (g : Graph) (start goal : String), start ≠ goal → (∀ v, goal ∉ neighbours g v) →
        ¬ Reachable g start goal ∧ findPathBasedOnConnections g start goal = some []) ∧
    ((∀ v, "server3" ∉ neighbours (parseServerConnections threeServers) v) ∧
      neighbours (parseServerConnections threeServers) "server3" = [] ∧
      findPathBasedOnConnections (parseServerConnections threeServers) "server1" "server3" =
        some []) := by
  refine ⟨?_, ?_, ?_, by decide, by decide⟩
  · intro g start goal hne hs hg
    obtain ⟨r, hr, hiff⟩ := findPath_spec g start goal hne hs hg
    refine ⟨⟨r, hr⟩, ?_⟩
    rw [hr, ← hiff]
    simp
  · intro g start goal hne hiso
    have hnot := not_reachable_of_isolated g start goal hne hiso
    refine ⟨hnot, ?_⟩
    by_cases hs : contains g start = true
    · by_cases hg : contains g goal = true
      · obtain ⟨r, hr, hiff⟩ := findPath_spec g start goal hne hs hg
        rw [hr, hiff.2 hnot]
      · exact findPath_of_absent g start goal hne (Or.inr (by simpa using hg))
    · exact findPath_of_absent g start goal hne (Or.inl (by simpa using hs))
  · intro v
    have hg : parseServerConnections threeServers =
        [("server1", ["server2"]), ("server2", ["server1"])] := by decide
    rw [hg]
    by_cases h1 : "server1" = v
    · subst h1; simp [neighbours]
    · by_cases h2 : "server2" = v
      · subst h2; simp [neighbours]
      · simp [neighbours, h1, h2]

theorem findPath_empty_iff_unreachable_witness :
    (findPathBasedOnConnections lineGraph "a" "c" ≠ some [] ∧ Reachable lineGraph "a" "c") ∧
    (¬ Reachable (parseServerConnections threeServers) "server1" "server3" ∧
      findPathBasedOnConnections (parseServerConnections threeServers) "server1" "server3" =
        some []) := by
  have h := (findPath_empty_iff_unreachable.1 lineGraph "a" "c" (by decide) (by decide)
    (by decide)).2
  have hne : findPathBasedOnConnections lineGraph "a" "c" ≠ some [] := by decide
  exact ⟨⟨hne, not_not.1 (fun hn => hne (h.2 hn))⟩,
    findPath_empty_iff_unreachable.2.1 (parseServerConnections threeServers) "server1" "server3"
      (by decide) findPath_empty_iff_unreachable.2.2.1⟩

/-! ## The graph built from the server list -/

theorem closeEnough_iff (a b : ServerEntry) (ax ay bx by' : Int)
    (hpa : a.position = [ax, ay]) (hpb : b.position = [bx, by'])
    (hx : -2147483648 < ax - bx ∧ ax - bx < 2147483648)
    (hy : -2147483648 < ay - by' ∧ ay - by' < 2147483648) :
    closeEnough a b = true ↔
      (ax - bx) * (ax - bx) + (ay - by') * (ay - by') < 250000 := by
  simp only [closeEnough, parsePosition, hpa, hpb, hypotLt500, decide_eq_true_eq]
  rw [wrapInt32_of_fits _ (by omega) hx.2, wrapInt32_of_fits _ (by omega) hy.2]

/-- C6, amended: in the graph built by `parseServerConnections` from a server list with
pairwise distinct names, for two different servers `A` and `B` of the list whose positions
have two integer fields each, with coordinate differences `dx` and `dy` that fit the 32-bit
`int` of the subtraction (both strictly between `-2^31` and `2^31`), `B` is a neighbour of
`A` if and only if `dx*dx + dy*dy < 250000`, that is, the Euclidean distance is strictly less
than 500; at distance exactly 500 they are not connected. -/
theorem neighbour_iff_distance_lt_500 (l : List ServerEntry)
    (hn : (l.map ServerEntry.name).Nodup) (A B : ServerEntry) (hA : A ∈ l) (hB : B ∈ l)
    (hAB : A ≠ B) (ax ay bx by' : Int)
    (hpa : A.position = [ax, ay]) (hpb : B.position = [bx, by'])
    (hx : -2147483648 < ax - bx ∧ ax - bx < 2147483648)
    (hy : -2147483648 < ay - by' ∧ ay - by' < 2147483648) :
    (B.name ∈ neighbours (parseServerConnections l) A.name ↔
      (ax - bx) * (ax - bx) + (ay - by') * (ay - by') < 250000) ∧
    ((ax - bx) * (ax - bx) + (ay - by') * (ay - by') = 250000 →
      B.name ∉ neighbours (parseServerConnections l) A.name) := by
  have hAB' := closeEnough_iff A B ax ay bx by' hpa hpb hx hy
  have hBA' : closeEnough B A = true ↔
      (ax - bx) * (ax - bx) + (ay - by') * (ay - by') < 250000 := by
    rw [closeEnough_iff B A bx by' ax ay hpb hpa (by omega) (by omega)]
    have e : (bx - ax) * (bx - ax) + (by' - ay) * (by' - ay) =
        (ax - bx) * (ax - bx) + (ay - by') * (ay - by') := by ring
    rw [e]
  have hiff : B.name ∈ neighbours (parseServerConnections l) A.name ↔
      (ax - bx) * (ax - bx) + (ay - by') * (ay - by') < 250000 := by
    rw [mem_neighbours_parseServerConnections]
    constructor
    · rintro ⟨l1, a, l2, b, hl, hb, hc, he⟩
      have ha' : a ∈ l := by rw [hl]; simp
      have hb' : b ∈ l := by rw [hl]; simp [hb]
      rcases he with ⟨h1, h2⟩ | ⟨h1, h2⟩
      · have ea : A = a := entry_eq_of_name_eq hn hA ha' h1
        have eb : B = b := entry_eq_of_name_eq hn hB hb' h2
        subst ea; subst eb
        exact hAB'.1 hc
      · have ea : A = b := entry_eq_of_name_eq hn hA hb' h1
        have eb : B = a := entry_eq_of_name_eq hn hB ha' h2
        subst ea; subst eb
        exact hBA'.1 hc
    · intro hd
      rcases split_of_mem_of_ne hA hB hAB with ⟨l1, l2, hl, hm⟩ | ⟨l1, l2, hl, hm⟩
      · exact ⟨l1, A, l2, B, hl, hm, hAB'.2 hd, Or.inl ⟨rfl, rfl⟩⟩
      · exact ⟨l1, B, l2, A, hl, hm, hBA'.2 hd, Or.inr ⟨rfl, rfl⟩⟩
  refine ⟨hiff, ?_⟩
  intro heq hmem
  have := hiff.1 hmem
  omega

theorem neighbour_iff_distance_lt_500_witness :
    ("server2" ∈ neighbours (parseServerConnections threeServers) "server1" ↔
      ((0 : Int) - 100) * (0 - 100) + (0 - 0) * (0 - 0) < 250000) ∧
    (((0 : Int) - 100) * (0 - 100) + (0 - 0) * (0 - 0) = 250000 →
      "server2" ∉ neighbours (parseServerConnections threeServers) "server1") :=
  neighbour_iff_distance_lt_500 threeServers (by decide) ⟨"server1", [0, 0]⟩
    ⟨"server2", [100, 0]⟩ (by decide) (by decide) (by decide) 0 0 100 0 rfl rfl
    (by decide) (by decide)

/-- C6, as stated, fails. The positions `2147483647,0` and `-2147483648,0` are well-formed
`int` positions 4294967295 apart; the `int` subtraction of the two `x` coordinates wraps to
`-1`, `std::hypot(-1, 0)` is 1, and `parseServerConnections` connects the two servers. -/
theorem neighbour_by_wrapped_difference :
    "B" ∈ neighbours
        (parseServerConnections [⟨"A", [2147483647, 0]⟩, ⟨"B", [-2147483648, 0]⟩]) "A" ∧
      ¬ (((2147483647 : Int) - -2147483648) * (2147483647 - -2147483648) +
        (0 - 0) * (0 - 0) < 250000) := by
  decide

/-- C7: for every server list, whatever its names, the adjacency relation built by
`parseServerConnections` is symmetric: `B` is in the neighbour set of `A` if and only if `A`
is in the neighbour set of `B`. -/
theorem parseServerConnections_symmetric (l : List ServerEntry) (A B : String) :
    B ∈ neighbours (parseServerConnections l) A ↔
      A ∈ neighbours (parseServerConnections l) B := by
  have key : ∀ k n : String, n ∈ neighbours (parseServerConnections l) k →
      k ∈ neighbours (parseServerConnections l) n := by
    intro k n h
    rw [mem_neighbours_parseServerConnections] at h ⊢
    obtain ⟨l1, a, l2, b, hl, hb, hc, he⟩ := h
    exact ⟨l1, a, l2, b, hl, hb, hc,
      he.elim (fun h => Or.inr ⟨h.2, h.1⟩) (fun h => Or.inl ⟨h.2, h.1⟩)⟩
  exact ⟨key A B, key B A⟩

/-! ## Nearest server -/

theorem polygonScan_none {K : Type} (containsPoint : List (Vector2D K) → Vector2D K → Bool)
    (position : Vector2D K) (servers : List (Server K))
    (h : ∀ s ∈ servers, containsPoint s.polygon position = false) :
    polygonScan containsPoint position servers = none := by
  induction servers with
  | nil => rfl
  | cons s rest ih =>
    have hs := h s (List.mem_cons_self _ _)
    simp only [polygonScan, hs, Bool.false_eq_true, if_false]
    exact ih (fun t ht => h t (List.mem_cons_of_mem _ ht))

section NumericProofs

variable {K : Type} [LinearOrderedField K]

/-! ## Landing spots -/

/-- The distance of a candidate from the server is the drawn radius. -/
theorem landingCandidate_distance [FloorRing K] (T : Trig K)
    (hT : ∀ t, T.cos t * T.cos t + T.sin t * T.sin t = 1) (serverPos : Vector2D K)
    (radius : K) (a b : Nat) :
    euclideanDistanceSq (landingCandidate T serverPos radius a b) serverPos =
      ((Int.tmod (b : Int) (truncToInt (radius - 50)) + 50 : Int) : K) *
        ((Int.tmod (b : Int) (truncToInt (radius - 50)) + 50 : Int) : K) := by
  simp only [euclideanDistanceSq, landingCandidate, Vector2D.add]
  have h := hT (((a % 360 : Nat) : K) * (T.pi / 180))
  generalize ((Int.tmod (b : Int) (truncToInt (radius - 50)) + 50 : Int) : K) = r
  generalize T.cos (((a % 360 : Nat) : K) * (T.pi / 180)) = c at h ⊢
  generalize T.sin (((a % 360 : Nat) : K) * (T.pi / 180)) = d at h ⊢
  have e : (serverPos.x + r * c - serverPos.x) * (serverPos.x + r * c - serverPos.x) +
      (serverPos.y + r * d - serverPos.y) * (serverPos.y + r * d - serverPos.y) =
      r * r * (c * c + d * d) := by ring
  rw [e, h, mul_one]

/-- The drawn radius lies between 50 and `radius` when `radius` is at least 51. -/
theorem drawn_radius_bounds [FloorRing K] (radius : K) (hR : 51 ≤ radius) (b : Nat) :
    (50 : K) ≤ ((Int.tmod (b : Int) (truncToInt (radius - 50)) + 50 : Int) : K) ∧
      ((Int.tmod (b : Int) (truncToInt (radius - 50)) + 50 : Int) : K) ≤ radius := by
  have h0 : (0 : K) ≤ radius - 50 := by linarith
  have htr : truncToInt (radius - 50) = Int.floor (radius - 50) := by
    simp [truncToInt, h0]
  have hm1 : (1 : Int) ≤ Int.floor (radius - 50) := by
    apply Int.le_floor.2
    push_cast
    linarith
  have hmle : ((Int.floor (radius - 50) : Int) : K) ≤ radius - 50 := Int.floor_le _
  rw [htr]
  have hnn : 0 ≤ Int.tmod (b : Int) (Int.floor (radius - 50)) :=
    Int.tmod_nonneg _ (Int.ofNat_nonneg b)
  have hlt : Int.tmod (b : Int) (Int.floor (radius - 50)) < Int.floor (radius - 50) :=
    Int.tmod_lt_of_pos _ (by omega)
  constructor
  · have : (50 : Int) ≤ Int.tmod (b : Int) (Int.floor (radius - 50)) + 50 := by omega
    exact_mod_cast this
  · have h1 : Int.tmod (b : Int) (Int.floor (radius - 50)) + 50 ≤
        Int.floor (radius - 50) + 50 := by omega
    have h2 : ((Int.tmod (b : Int) (Int.floor (radius - 50)) + 50 : Int) : K) ≤
        ((Int.floor (radius - 50) + 50 : Int) : K) := by exact_mod_cast h1
    push_cast at h2 ⊢
    linarith

theorem sampledCandidate_shift [FloorRing K] (T : Trig K) (serverPos : Vector2D K)
    (radius : K) (rng : RandState) (j : Nat) :
    sampledCandidate T serverPos radius (rand (rand rng).2).2 j =
      sampledCandidate T serverPos radius rng (j + 1) := by
  have e1 : 2 * j + 1 + 1 = 2 * (j + 1) := by ring
  have e2 : 2 * j + 1 + 1 + 1 = 2 * (j + 1) + 1 := by ring
  simp only [sampledCandidate, rand, e1, e2]

/-- The loop of `findLandingSpot` either finds every one of its candidates occupied, returns
the server position and leaves the vector as it was, or it returns and appends the first
candidate that is not occupied. -/
theorem findLandingSpotLoop_spec [FloorRing K] (T : Trig K) (serverPos : Vector2D K)
    (radius : K) (used : List (Vector2D K)) :
    ∀ (rounds : Nat) (rng : RandState),
      ((findLandingSpotLoop T serverPos radius rounds used rng).spot = serverPos ∧
        (findLandingSpotLoop T serverPos radius rounds used rng).usedLandingSpots = used ∧
        ∀ j, j < rounds → occupied (sampledCandidate T serverPos radius rng j) used = true) ∨
      (∃ i, i < rounds ∧
        (findLandingSpotLoop T serverPos radius rounds used rng).spot =
          sampledCandidate T serverPos radius rng i ∧
        (findLandingSpotLoop T serverPos radius rounds used rng).usedLandingSpots =
          used ++ [sampledCandidate T serverPos radius rng i] ∧
        occupied (sampledCandidate T serverPos radius rng i) used = false ∧
        ∀ j, j < i → occupied (sampledCandidate T serverPos radius rng j) used = true) := by
  intro rounds
  induction rounds with
  | zero =>
    intro rng
    exact Or.inl ⟨rfl, rfl, fun j hj => absurd hj (Nat.not_lt_zero j)⟩
  | succ rounds ih =>
    intro rng
    have hfirst : landingCandidate T serverPos radius (rand rng).1 (rand (rand rng).2).1 =
        sampledCandidate T serverPos radius rng 0 := rfl
    by_cases hocc : occupied (sampledCandidate T serverPos radius rng 0) used = true
    · have hstep : findLandingSpotLoop T serverPos radius (rounds + 1) used rng =
          findLandingSpotLoop T serverPos radius rounds used (rand (rand rng).2).2 := by
        simp only [findLandingSpotLoop, hfirst, hocc, if_true]
      rw [hstep]
      rcases ih (rand (rand rng).2).2 with ⟨h1, h2, h3⟩ | ⟨i, hi, h1, h2, h3, h4⟩
      · refine Or.inl ⟨h1, h2, ?_⟩
        intro j hj
        cases j with
        | zero => exact hocc
        | succ j =>
          rw [← sampledCandidate_shift]
          exact h3 j (by omega)
      · refine Or.inr ⟨i + 1, by omega, ?_, ?_, ?_, ?_⟩
        · rw [h1, sampledCandidate_shift]
        · rw [h2, sampledCandidate_shift]
        · rw [← sampledCandidate_shift]; exact h3
        · intro j hj
          cases j with
          | zero => exact hocc
          | succ j =>
            rw [← sampledCandidate_shift]
            exact h4 j (by omega)
    · have hocc' : occupied (sampledCandidate T serverPos radius rng 0) used = false := by
        simpa using hocc
      have hstep : findLandingSpotLoop T serverPos radius (rounds + 1) used rng =
          ⟨sampledCandidate T serverPos radius rng 0,
            used ++ [sampledCandidate T serverPos radius rng 0], (rand (rand rng).2).2⟩ := by
        simp only [findLandingSpotLoop, hfirst, hocc']
        simp
      rw [hstep]
      exact Or.inr ⟨0, by omega, rfl, rfl, hocc', fun j hj => absurd hj (Nat.not_lt_zero j)⟩

/-- In exact arithmetic, with `cos` and `sin` on the unit circle, a point returned by
`findLandingSpot` is the server position or lies between 50 and `radius` from it; in either
case it is within `radius`. -/
theorem findLandingSpot_annulus_aux [FloorRing K] (T : Trig K)
    (hT : ∀ t, T.cos t * T.cos t + T.sin t * T.sin t = 1) (serverPos : Vector2D K)
    (radius : K) (hR : 51 ≤ radius) (used : List (Vector2D K)) (rng : RandState) :
    ((findLandingSpot T serverPos radius used rng).spot = serverPos ∨
      (50 * 50 ≤ euclideanDistanceSq (findLandingSpot T serverPos radius used rng).spot
          serverPos ∧
        euclideanDistanceSq (findLandingSpot T serverPos radius used rng).spot serverPos ≤
          radius * radius)) ∧
    euclideanDistanceSq (findLandingSpot T serverPos radius used rng).spot serverPos ≤
      radius * radius := by
  have hcand : ∀ i, 50 * 50 ≤ euclideanDistanceSq
        (sampledCandidate T serverPos radius rng i) serverPos ∧
      euclideanDistanceSq (sampledCandidate T serverPos radius rng i) serverPos ≤
        radius * radius := by
    intro i
    simp only [sampledCandidate]
    rw [landingCandidate_distance T hT]
    obtain ⟨h1, h2⟩ := drawn_radius_bounds radius hR (rng (2 * i + 1))
    constructor
    · exact mul_le_mul h1 h1 (by norm_num) (by linarith)
    · exact mul_le_mul h2 h2 (by linarith) (by linarith)
  rcases findLandingSpotLoop_spec T serverPos radius used 10 rng with
    ⟨h1, _, _⟩ | ⟨i, _, h1, _, _, _⟩
  · have h1' : (findLandingSpot T serverPos radius used rng).spot = serverPos := h1
    refine ⟨Or.inl h1', ?_⟩
    rw [h1']
    have h0 : euclideanDistanceSq serverPos serverPos = 0 := by
      simp [euclideanDistanceSq]
    rw [h0]
    exact mul_nonneg (by linarith) (by linarith)
  · have h1' : (findLandingSpot T serverPos radius used rng).spot =
        sampledCandidate T serverPos radius rng i := h1
    rw [h1']
    exact ⟨Or.inr (hcand i), (hcand i).2⟩

end NumericProofs

section LandingFallback

variable {K : Type} [LinearOrderedField K]

end LandingFallback

section DronePower

variable {K : Type} [LinearOrderedField K] [FloorRing K]

/-- The power after a call of `update` in the charging phase. -/
theorem update_power_landed (c : DroneConstants K) (M : CMath K) (dt : K) (d : Drone K)
    (used : List (Vector2D K)) (rng : RandState) (hs : d.status = Status.landed) :
    (update c M dt d used rng).drone.power =
      if d.power + dt * c.chargingSpeed > c.maxPower then c.maxPower
      else d.power + dt * c.chargingSpeed := by
  simp [update, hs, updateLanded]

/-- The power after a call of `update` in an airborne phase. -/
theorem update_power_airborne (c : DroneConstants K) (M : CMath K) (dt : K) (d : Drone K)
    (used : List (Vector2D K)) (rng : RandState) (hs : d.status ≠ Status.landed) :
    (update c M dt d used rng).drone.power = d.power - dt * c.powerConsumption := by
  cases hst : d.status with
  | landed => exact absurd hst hs
  | takeoff =>
    simp only [update, hst, updateTakeoff]
    split_ifs <;> rfl
  | landing =>
    simp only [update, hst, updateLanding]
    split_ifs <;> rfl
  | hovering =>
    simp only [update, hst, updateHovering]
    split_ifs <;> rfl

/-- A call of `update` keeps the power at or below `maxPower` and takes away no more than
`dt * powerConsumption`. -/
theorem update_power_bounds (c : DroneConstants K) (M : CMath K) (dt : K) (d : Drone K)
    (used : List (Vector2D K)) (rng : RandState) (hdt : 0 ≤ dt)
    (hcs : 0 ≤ c.chargingSpeed) (hpc : 0 ≤ c.powerConsumption)
    (hmax : d.power ≤ c.maxPower) :
    (update c M dt d used rng).drone.power ≤ c.maxPower ∧
      d.power - c.powerConsumption * dt ≤ (update c M dt d used rng).drone.power := by
  have h1 : 0 ≤ dt * c.chargingSpeed := mul_nonneg hdt hcs
  have h2 : 0 ≤ dt * c.powerConsumption := mul_nonneg hdt hpc
  have h3 : c.powerConsumption * dt = dt * c.powerConsumption := mul_comm _ _
  by_cases hs : d.status = Status.landed
  · rw [update_power_landed c M dt d used rng hs]
    split_ifs with h
    · exact ⟨le_refl _, by linarith⟩
    · exact ⟨not_lt.1 h, by linarith⟩
  · rw [update_power_airborne c M dt d used rng hs]
    exact ⟨by linarith, by linarith⟩

/-- A call of `update` in the charging phase leaves the drone in the charging phase. -/
theorem update_status_landed (c : DroneConstants K) (M : CMath K) (dt : K) (d : Drone K)
    (used : List (Vector2D K)) (rng : RandState) (hs : d.status = Status.landed) :
    (update c M dt d used rng).drone.status = Status.landed := by
  simp [update, hs, updateLanded]

end DronePower

section DronePowerClaims

variable {K : Type} [LinearOrderedField K] [FloorRing K]

/-- Along a run the power stays at or below `maxPower` and falls by no more than
`powerConsumption` times the time that has passed. -/
theorem droneRun_power_bounds (c : DroneConstants K) (M : CMath K)
    (startCmd : Drone K → Drone K) (hstart : ∀ d, (startCmd d).power = d.power)
    (hcs : 0 ≤ c.chargingSpeed) (hpc : 0 ≤ c.powerConsumption) :
    ∀ (events : List (DroneEvent K)) (t : Tick K),
      (∀ dt, DroneEvent.tick dt ∈ events → 0 < dt) → t.drone.power ≤ c.maxPower →
      (droneRun c M startCmd events t).drone.power ≤ c.maxPower ∧
        t.drone.power - c.powerConsumption * totalElapsed events ≤
          (droneRun c M startCmd events t).drone.power := by
  intro events
  induction events with
  | nil =>
    intro t _ hmax
    simp only [droneRun, totalElapsed, mul_zero, sub_zero]
    exact ⟨hmax, le_refl _⟩
  | cons e rest ih =>
    intro t hdt hmax
    have hrest : ∀ dt, DroneEvent.tick dt ∈ rest → 0 < dt :=
      fun dt h => hdt dt (List.mem_cons_of_mem _ h)
    cases e with
    | tick dt =>
      have hpos : 0 < dt := hdt dt (List.mem_cons_self _ _)
      obtain ⟨hb1, hb2⟩ := update_power_bounds c M dt t.drone t.usedLandingSpots t.rng
        (le_of_lt hpos) hcs hpc hmax
      obtain ⟨hr1, hr2⟩ := ih (update c M dt t.drone t.usedLandingSpots t.rng) hrest hb1
      simp only [droneRun, totalElapsed, DroneEvent.elapsed]
      refine ⟨hr1, ?_⟩
      have e1 : c.powerConsumption * (dt + totalElapsed rest) =
          c.powerConsumption * dt + c.powerConsumption * totalElapsed rest := by ring
      linarith
    | start =>
      have hmax' : (startCmd t.drone).power ≤ c.maxPower := by rw [hstart]; exact hmax
      obtain ⟨hr1, hr2⟩ := ih ⟨startCmd t.drone, t.usedLandingSpots, t.rng⟩ hrest hmax'
      simp only [droneRun, totalElapsed, DroneEvent.elapsed, zero_add]
      refine ⟨hr1, ?_⟩
      have e1 : (startCmd t.drone).power = t.drone.power := hstart _
      simp only [e1] at hr2
      exact hr2

/-- A drone that is charging and gets no start command keeps charging, and its power does not
fall. -/
theorem droneRun_charging (c : DroneConstants K) (M : CMath K)
    (startCmd : Drone K → Drone K) (hcs : 0 ≤ c.chargingSpeed) :
    ∀ (events : List (DroneEvent K)) (t : Tick K),
      (∀ e ∈ events, ∃ dt, 0 < dt ∧ e = DroneEvent.tick dt) →
      t.drone.status = Status.landed → t.drone.power ≤ c.maxPower →
      (droneRun c M startCmd events t).drone.status = Status.landed ∧
        t.drone.power ≤ (droneRun c M startCmd events t).drone.power := by
  intro events
  induction events with
  | nil => intro t _ hs _; exact ⟨hs, le_refl _⟩
  | cons e rest ih =>
    intro t hev hs hmax
    obtain ⟨dt, hpos, rfl⟩ := hev e (List.mem_cons_self _ _)
    have hst := update_status_landed c M dt t.drone t.usedLandingSpots t.rng hs
    have hpw := update_power_landed c M dt t.drone t.usedLandingSpots t.rng hs
    have h1 : 0 ≤ dt * c.chargingSpeed := mul_nonneg (le_of_lt hpos) hcs
    have hle : (update c M dt t.drone t.usedLandingSpots t.rng).drone.power ≤ c.maxPower := by
      rw [hpw]; split_ifs with h
      · exact le_refl _
      · exact not_lt.1 h
    have hge : t.drone.power ≤ (update c M dt t.drone t.usedLandingSpots t.rng).drone.power := by
      rw [hpw]; split_ifs with h
      · exact hmax
      · linarith
    obtain ⟨hr1, hr2⟩ := ih (update c M dt t.drone t.usedLandingSpots t.rng)
      (fun e he => hev e (List.mem_cons_of_mem _ he)) hst hle
    simp only [droneRun]
    exact ⟨hr1, le_trans hge hr2⟩

/-- C12, amended: for non-negative charging and consumption rates and a start command that
leaves the power alone, an agent that starts with power in `[0, maxPower]` has, after any
sequence of `update(dt)` calls with `dt > 0` and start commands, a power that is at most
`maxPower` and at least the power it started with minus `powerConsumption` times the time
that has passed; as long as it is charging and gets no start command, its power does not
fall and so stays in `[0, maxPower]`. Below 0 the power is not bounded (there is no clamp). -/
theorem power_bounds_of_run (c : DroneConstants K) (M : CMath K)
    (startCmd : Drone K → Drone K) (hstart : ∀ d, (startCmd d).power = d.power)
    (hcs : 0 ≤ c.chargingSpeed) (hpc : 0 ≤ c.powerConsumption)
    (events : List (DroneEvent K)) (t : Tick K)
    (hdt : ∀ dt, DroneEvent.tick dt ∈ events → 0 < dt)
    (hlow : 0 ≤ t.drone.power) (hmax : t.drone.power ≤ c.maxPower) :
    (droneRun c M startCmd events t).drone.power ≤ c.maxPower ∧
      t.drone.power - c.powerConsumption * totalElapsed events ≤
        (droneRun c M startCmd events t).drone.power ∧
      (t.drone.status = Status.landed → (∀ e ∈ events, ∃ dt, e = DroneEvent.tick dt) →
        0 ≤ (droneRun c M startCmd events t).drone.power) := by
  obtain ⟨h1, h2⟩ := droneRun_power_bounds c M startCmd hstart hcs hpc events t hdt hmax
  refine ⟨h1, h2, ?_⟩
  intro hs hticks
  have hev : ∀ e ∈ events, ∃ dt, 0 < dt ∧ e = DroneEvent.tick dt := by
    intro e he
    obtain ⟨dt, rfl⟩ := hticks e he
    exact ⟨dt, hdt dt he, rfl⟩
  exact le_trans hlow (droneRun_charging c M startCmd hcs events t hev hs hmax).2

/-- C13, amended: for every `dt > 0` and positive charging and consumption rates, one call of
`update(dt)` makes the power strictly larger when the agent is charging with power below
`maxPower`, leaves it at `maxPower` when the agent is charging with power `maxPower`, and
makes it strictly smaller when the agent is airborne (any phase but charging). -/
theorem update_power_change (c : DroneConstants K) (M : CMath K) (dt : K) (d : Drone K)
    (used : List (Vector2D K)) (rng : RandState) (hdt : 0 < dt)
    (hcs : 0 < c.chargingSpeed) (hpc : 0 < c.powerConsumption) :
    (d.status = Status.landed → d.power < c.maxPower →
      d.power < (update c M dt d used rng).drone.power) ∧
    (d.status = Status.landed → d.power = c.maxPower →
      (update c M dt d used rng).drone.power = c.maxPower) ∧
    (d.status ≠ Status.landed → (update c M dt d used rng).drone.power < d.power) := by
  have h1 : 0 < dt * c.chargingSpeed := mul_pos hdt hcs
  have h2 : 0 < dt * c.powerConsumption := mul_pos hdt hpc
  refine ⟨?_, ?_, ?_⟩
  · intro hs hlt
    rw [update_power_landed c M dt d used rng hs]
    split_ifs with h
    · exact hlt
    · linarith
  · intro hs heq
    rw [update_power_landed c M dt d used rng hs]
    split_ifs with h
    · rfl
    · exact absurd (show d.power + dt * c.chargingSpeed > c.maxPower by linarith) h
  · intro hs
    rw [update_power_airborne c M dt d used rng hs]
    linarith

end DronePowerClaims

/-- C12, as stated, fails for every choice of the constants with a positive consumption rate
and every start command that takes a charging agent to the ascending phase and leaves its
power alone: a charging agent with power 0 that gets a start command and then one
`update(1)` has the negative power `-powerConsumption`. -/
theorem power_negative_after_start :
    ¬ ∃ (c : DroneConstants ℚ) (startCmd : Drone ℚ → Drone ℚ),
      0 < c.powerConsumption ∧ 0 ≤ c.maxPower ∧
      (∀ d, d.status = Status.landed →
        (startCmd d).status = Status.takeoff ∧ (startCmd d).power = d.power) ∧
      ∀ (events : List (DroneEvent ℚ)) (d : Drone ℚ), d.status = Status.landed →
        0 ≤ d.power → d.power ≤ c.maxPower →
        (∀ dt, DroneEvent.tick dt ∈ events → 0 < dt) →
        0 ≤ (droneRun c ratMath startCmd events ⟨d, [], fun _ => 0⟩).drone.power := by
  rintro ⟨c, startCmd, hpc, hmax, hstart, h⟩
  have h1 := h [DroneEvent.start, DroneEvent.tick 1] (droneAtOrigin Status.landed 0) rfl
    (le_refl _) hmax (by
      intro dt hmem
      simp only [List.mem_cons, List.mem_singleton, List.not_mem_nil, or_false] at hmem
      rcases hmem with hmem | hmem
      · exact absurd hmem (by simp)
      · injection hmem with e
        rw [e]; norm_num)
  obtain ⟨hst, hpw⟩ := hstart (droneAtOrigin Status.landed 0) rfl
  have hst' : (startCmd (droneAtOrigin Status.landed 0)).status ≠ Status.landed := by
    rw [hst]; decide
  have hpw' : (startCmd (droneAtOrigin Status.landed 0)).power = 0 := by
    rw [hpw]; rfl
  simp only [droneRun] at h1
  rw [update_power_airborne c ratMath 1 _ _ _ hst', hpw'] at h1
  linarith

theorem power_bounds_of_run_witness :
    (droneRun sampleConstants ratMath start [DroneEvent.tick 1, DroneEvent.start,
        DroneEvent.tick (1 / 10)] ⟨droneAtOrigin Status.landed 100, [], fun _ => 0⟩).drone.power ≤
        sampleConstants.maxPower ∧
      (droneAtOrigin Status.landed 100).power - sampleConstants.powerConsumption *
          totalElapsed [DroneEvent.tick (1 : ℚ), DroneEvent.start, DroneEvent.tick (1 / 10)] ≤
        (droneRun sampleConstants ratMath start [DroneEvent.tick 1, DroneEvent.start,
          DroneEvent.tick (1 / 10)] ⟨droneAtOrigin Status.landed 100, [], fun _ => 0⟩).drone.power :=
  let h := power_bounds_of_run sampleConstants ratMath start
    (by intro d; simp only [start]; split_ifs <;> rfl)
    (by norm_num [sampleConstants]) (by norm_num [sampleConstants])
    [DroneEvent.tick 1, DroneEvent.start, DroneEvent.tick (1 / 10)]
    ⟨droneAtOrigin Status.landed 100, [], fun _ => 0⟩
    (by
      intro dt hmem
      simp only [List.mem_cons, List.mem_singleton, List.not_mem_nil, or_false] at hmem
      rcases hmem with hmem | hmem | hmem
      · injection hmem with e; rw [e]; norm_num
      · exact absurd hmem (by simp)
      · injection hmem with e; rw [e]; norm_num)
    (by norm_num [droneAtOrigin]) (by norm_num [droneAtOrigin, sampleConstants])
  ⟨h.1, h.2.1⟩

/-- C13, as stated, fails for every choice of the constants: a charging agent whose power is
`maxPower` has the power `maxPower` after `update(1)`, which is not strictly larger. -/
theorem power_not_larger_at_full_charge :
    ¬ ∃ c : DroneConstants ℚ, 0 < c.chargingSpeed ∧ 0 < c.powerConsumption ∧
      ∀ (dt : ℚ) (d : Drone ℚ) (used : List (Vector2D ℚ)) (rng : RandState), 0 < dt →
        d.status = Status.landed →
        d.power < (update c ratMath dt d used rng).drone.power := by
  rintro ⟨c, hcs, hpc, h⟩
  have h1 := h 1 (droneAtOrigin Status.landed c.maxPower) [] (fun _ => 0) (by norm_num) rfl
  rw [update_power_landed c ratMath 1 _ _ _ rfl] at h1
  simp only [droneAtOrigin] at h1
  split_ifs at h1 with hgt
  · exact lt_irrefl _ h1
  · exact hgt (by linarith)

theorem update_power_change_witness :
    (droneAtOrigin Status.landed 100).power <
        (update sampleConstants ratMath (1 / 10) (droneAtOrigin Status.landed 100) []
          (fun _ => 0)).drone.power ∧
      (update sampleConstants ratMath (1 / 10) (droneAtOrigin Status.takeoff 100) []
          (fun _ => 0)).drone.power < (droneAtOrigin Status.takeoff 100).power :=
  ⟨(update_power_change sampleConstants ratMath (1 / 10) (droneAtOrigin Status.landed 100) []
      (fun _ => 0) (by norm_num) (by norm_num [sampleConstants])
      (by norm_num [sampleConstants])).1 rfl (by norm_num [droneAtOrigin, sampleConstants]),
    (update_power_change sampleConstants ratMath (1 / 10) (droneAtOrigin Status.takeoff 100) []
      (fun _ => 0) (by norm_num) (by norm_num [sampleConstants])
      (by norm_num [sampleConstants])).2.2 (by simp [droneAtOrigin])⟩

/-! ## Cruising -/

section Cruising

variable {K : Type} [LinearOrderedField K] [FloorRing K]

/-- The cruising branch within the landing radius. -/
theorem updateHovering_near (c : DroneConstants K) (M : CMath K) (dt : K) (d : Drone K)
    (used : List (Vector2D K)) (rng : RandState)
    (hnear : ¬ Vector2D.length M (Vector2D.sub d.goalPosition d.position) > 90) :
    (updateHovering c M dt d used rng).drone.position =
        (findLandingSpot M.toTrig d.goalPosition 90 used rng).spot ∧
      (updateHovering c M dt d used rng).usedLandingSpots =
        (findLandingSpot M.toTrig d.goalPosition 90 used rng).usedLandingSpots ∧
      (updateHovering c M dt d used rng).rng =
        (findLandingSpot M.toTrig d.goalPosition 90 used rng).rng ∧
      (updateHovering c M dt d used rng).drone.status =
        (if d.power - dt * c.powerConsumption < powerMargin c then Status.landing
          else Status.landed) ∧
      (updateHovering c M dt d used rng).drone.goalPosition = d.goalPosition := by
  simp only [updateHovering, hnear, if_false]
  split_ifs <;> simp

/-- The cruising branch outside the landing radius. -/
theorem updateHovering_far (c : DroneConstants K) (M : CMath K) (dt : K) (d : Drone K)
    (used : List (Vector2D K)) (rng : RandState)
    (hfar : Vector2D.length M (Vector2D.sub d.goalPosition d.position) > 90) :
    (updateHovering c M dt d used rng).drone.position =
        Vector2D.add d.position (Vector2D.scale (Vector2D.scale
          (Vector2D.normalize M (Vector2D.sub d.goalPosition d.position)) dt) c.maxSpeed) ∧
      (updateHovering c M dt d used rng).usedLandingSpots = used ∧
      (updateHovering c M dt d used rng).rng = rng ∧
      (updateHovering c M dt d used rng).drone.status =
        (if d.power - dt * c.powerConsumption < powerMargin c then Status.landing
          else d.status) ∧
      (updateHovering c M dt d used rng).drone.goalPosition = d.goalPosition := by
  simp only [updateHovering, hfar, if_true]
  split_ifs <;> simp

/-- C14, amended: for every cruising agent whose distance to its goal position is at most the
landing radius 90 (and a positive `takeoffSpeed`), one call of `update` sets its position to the point chosen by
`findLandingSpot(goalPosition, 90)`, which is within 90 of the goal (for `cos` and `sin` on
the unit circle), hands on the registry and generator left by that call, and switches its
phase to charging (`landed`); only when the power left after the call is below the safety
margin is the phase descending (`landing`). -/
theorem update_cruising_arrival (c : DroneConstants K) (M : CMath K)
    (hT : ∀ t, M.cos t * M.cos t + M.sin t * M.sin t = 1) (_hts : 0 < c.takeoffSpeed)
    (dt : K) (d : Drone K)
    (used : List (Vector2D K)) (rng : RandState) (hs : d.status = Status.hovering)
    (hnear : Vector2D.length M (Vector2D.sub d.goalPosition d.position) ≤ 90) :
    (update c M dt d used rng).drone.position =
        (findLandingSpot M.toTrig d.goalPosition 90 used rng).spot ∧
      (update c M dt d used rng).usedLandingSpots =
        (findLandingSpot M.toTrig d.goalPosition 90 used rng).usedLandingSpots ∧
      (update c M dt d used rng).rng =
        (findLandingSpot M.toTrig d.goalPosition 90 used rng).rng ∧
      euclideanDistanceSq (update c M dt d used rng).drone.position d.goalPosition ≤ 90 * 90 ∧
      (update c M dt d used rng).drone.status =
        (if d.power - dt * c.powerConsumption < powerMargin c then Status.landing
          else Status.landed) := by
  have hu : update c M dt d used rng = updateHovering c M dt d used rng := by
    simp [update, hs]
  obtain ⟨h1, h2, h3, h4, _⟩ := updateHovering_near c M dt d used rng (not_lt.2 hnear)
  rw [hu]
  refine ⟨h1, h2, h3, ?_, h4⟩
  rw [h1]
  exact (findLandingSpot_annulus_aux M.toTrig hT d.goalPosition 90 (by norm_num) used rng).2

end Cruising

section CruisingStep

variable {K : Type} [LinearOrderedField K]

/-- The geometry of one step of length `v` from `p` towards `g`, where `D` is the distance
from `p` to `g`. -/
theorem step_towards_goal (p g : Vector2D K) (D v : K) (hD : 0 < D)
    (hsq : D * D = Vector2D.lengthSq (Vector2D.sub g p)) :
    Vector2D.lengthSq (Vector2D.sub
        (Vector2D.add p (Vector2D.scale (⟨(g.x - p.x) / D, (g.y - p.y) / D⟩ : Vector2D K) v))
        p) = v * v ∧
      euclideanDistanceSq
        (Vector2D.add p (Vector2D.scale (⟨(g.x - p.x) / D, (g.y - p.y) / D⟩ : Vector2D K) v))
        g = (D - v) * (D - v) := by
  have hne : D ≠ 0 := ne_of_gt hD
  simp only [Vector2D.lengthSq, Vector2D.sub] at hsq
  simp only [Vector2D.lengthSq, Vector2D.sub, Vector2D.add, Vector2D.scale,
    euclideanDistanceSq]
  constructor
  · have e : (p.x + (g.x - p.x) / D * v - p.x) * (p.x + (g.x - p.x) / D * v - p.x) +
        (p.y + (g.y - p.y) / D * v - p.y) * (p.y + (g.y - p.y) / D * v - p.y) =
        ((g.x - p.x) * (g.x - p.x) + (g.y - p.y) * (g.y - p.y)) * (v * v) / (D * D) := by
      field_simp
      ring
    rw [e, ← hsq]
    field_simp
  · have e : (p.x + (g.x - p.x) / D * v - g.x) * (p.x + (g.x - p.x) / D * v - g.x) +
        (p.y + (g.y - p.y) / D * v - g.y) * (p.y + (g.y - p.y) / D * v - g.y) =
        ((g.x - p.x) * (g.x - p.x) + (g.y - p.y) * (g.y - p.y)) *
          ((D - v) * (D - v)) / (D * D) := by
      field_simp
      ring
    rw [e, ← hsq]
    field_simp

/-- C15, amended: for every cruising agent whose distance `D` to its goal exceeds 90 (with the
square root exact at this distance), every `dt > 0` and a positive `maxSpeed`, one call of
`update` moves the position along the straight line towards the goal (the displacement is
the vector to the goal scaled by `dt * maxSpeed / D`) by exactly `dt * maxSpeed`, leaves
registry and generator alone, and the new distance to the goal is `|D - dt * maxSpeed|`;
it is strictly smaller than `D` exactly when `dt * maxSpeed < 2 * D`. -/
theorem update_cruising_step [FloorRing K] (c : DroneConstants K) (M : CMath K) (dt : K) (d : Drone K)
    (used : List (Vector2D K)) (rng : RandState) (hs : d.status = Status.hovering)
    (hsq : Vector2D.length M (Vector2D.sub d.goalPosition d.position) *
        Vector2D.length M (Vector2D.sub d.goalPosition d.position) =
      Vector2D.lengthSq (Vector2D.sub d.goalPosition d.position))
    (hfar : Vector2D.length M (Vector2D.sub d.goalPosition d.position) > 90)
    (hdt : 0 < dt) (hms : 0 < c.maxSpeed) :
    Vector2D.sub (update c M dt d used rng).drone.position d.position =
        Vector2D.scale (Vector2D.sub d.goalPosition d.position)
          (dt * c.maxSpeed / Vector2D.length M (Vector2D.sub d.goalPosition d.position)) ∧
      Vector2D.lengthSq (Vector2D.sub (update c M dt d used rng).drone.position d.position) =
        (dt * c.maxSpeed) * (dt * c.maxSpeed) ∧
      euclideanDistanceSq (update c M dt d used rng).drone.position d.goalPosition =
        (Vector2D.length M (Vector2D.sub d.goalPosition d.position) - dt * c.maxSpeed) *
          (Vector2D.length M (Vector2D.sub d.goalPosition d.position) - dt * c.maxSpeed) ∧
      (euclideanDistanceSq (update c M dt d used rng).drone.position d.goalPosition <
          euclideanDistanceSq d.position d.goalPosition ↔
        dt * c.maxSpeed < 2 * Vector2D.length M (Vector2D.sub d.goalPosition d.position)) ∧
      (update c M dt d used rng).usedLandingSpots = used ∧
      (update c M dt d used rng).rng = rng := by
  have hu : update c M dt d used rng = updateHovering c M dt d used rng := by
    simp [update, hs]
  obtain ⟨h1, h2, h3, _, _⟩ := updateHovering_far c M dt d used rng hfar
  have hD : 0 < Vector2D.length M (Vector2D.sub d.goalPosition d.position) := by linarith
  have hv : 0 < dt * c.maxSpeed := mul_pos hdt hms
  have hpos : (update c M dt d used rng).drone.position =
      Vector2D.add d.position (Vector2D.scale
        (⟨(d.goalPosition.x - d.position.x) /
            Vector2D.length M (Vector2D.sub d.goalPosition d.position),
          (d.goalPosition.y - d.position.y) /
            Vector2D.length M (Vector2D.sub d.goalPosition d.position)⟩ : Vector2D K)
        (dt * c.maxSpeed)) := by
    rw [hu, h1]
    simp only [Vector2D.normalize, Vector2D.scale, Vector2D.sub, Vector2D.add, mul_assoc]
  obtain ⟨g1, g2⟩ := step_towards_goal d.position d.goalPosition
    (Vector2D.length M (Vector2D.sub d.goalPosition d.position)) (dt * c.maxSpeed) hD hsq
  have hold : euclideanDistanceSq d.position d.goalPosition =
      Vector2D.length M (Vector2D.sub d.goalPosition d.position) *
        Vector2D.length M (Vector2D.sub d.goalPosition d.position) := by
    rw [hsq]
    simp only [euclideanDistanceSq, Vector2D.lengthSq, Vector2D.sub]
    ring
  refine ⟨?_, ?_, ?_, ?_, by rw [hu]; exact h2, by rw [hu]; exact h3⟩
  · rw [hpos]
    simp only [Vector2D.sub, Vector2D.add, Vector2D.scale, Vector2D.mk.injEq]
    constructor <;> ring
  · rw [hpos]; exact g1
  · rw [hpos]; exact g2
  · rw [hpos, g2, hold]
    constructor
    · intro h
      by_contra hge
      have hge' : 2 * Vector2D.length M (Vector2D.sub d.goalPosition d.position) ≤
          dt * c.maxSpeed := not_lt.1 hge
      nlinarith
    · intro h
      nlinarith

end CruisingStep

theorem ratMath_length_near (power : ℚ) :
    Vector2D.length ratMath
      (Vector2D.sub (droneNearGoal power).goalPosition (droneNearGoal power).position) = 50 := by
  have e : Vector2D.lengthSq
      (Vector2D.sub (droneNearGoal power).goalPosition (droneNearGoal power).position) =
      50 * 50 := by
    norm_num [droneNearGoal, Vector2D.lengthSq, Vector2D.sub]
  simp only [Vector2D.length, ratMath, e, Rat.sqrt_eq]
  norm_num

theorem ratMath_length_origin (status : Status) (power : ℚ) :
    Vector2D.length ratMath
      (Vector2D.sub (droneAtOrigin status power).goalPosition
        (droneAtOrigin status power).position) = 1000 := by
  have e : Vector2D.lengthSq
      (Vector2D.sub (droneAtOrigin status power).goalPosition
        (droneAtOrigin status power).position) = 1000 * 1000 := by
    norm_num [droneAtOrigin, Vector2D.lengthSq, Vector2D.sub]
  simp only [Vector2D.length, ratMath, e, Rat.sqrt_eq]
  norm_num

/-- C14, as stated, fails for every choice of the constants with a positive `takeoffSpeed`: a
cruising agent 50 away from its goal whose power stays above the safety margin is in the
charging phase (`landed`) after the call, not in the descending phase (`landing`). -/
theorem arrival_not_descending :
    ¬ ∃ c : DroneConstants ℚ, 0 < c.takeoffSpeed ∧
      ∀ (dt : ℚ) (d : Drone ℚ) (used : List (Vector2D ℚ)) (rng : RandState), 0 < dt →
        d.status = Status.hovering →
        Vector2D.length ratMath (Vector2D.sub d.goalPosition d.position) ≤ 90 →
        (update c ratMath dt d used rng).drone.status = Status.landing := by
  rintro ⟨c, _, h⟩
  have hlen := ratMath_length_near (powerMargin c + c.powerConsumption + 1)
  have h1 := h 1 (droneNearGoal (powerMargin c + c.powerConsumption + 1)) [] (fun _ => 0)
    (by norm_num) rfl (by rw [hlen]; norm_num)
  have hu : update c ratMath 1 (droneNearGoal (powerMargin c + c.powerConsumption + 1)) []
      (fun _ => 0) =
      updateHovering c ratMath 1 (droneNearGoal (powerMargin c + c.powerConsumption + 1)) []
        (fun _ => 0) := rfl
  obtain ⟨_, _, _, h4, _⟩ := updateHovering_near c ratMath 1
    (droneNearGoal (powerMargin c + c.powerConsumption + 1)) [] (fun _ => 0)
    (by rw [hlen]; norm_num)
  rw [hu, h4] at h1
  have hp : ¬ (droneNearGoal (powerMargin c + c.powerConsumption + 1)).power -
      1 * c.powerConsumption < powerMargin c := by
    simp only [droneNearGoal]
    intro hlt
    linarith
  rw [if_neg hp] at h1
  exact absurd h1 (by decide)

theorem update_cruising_arrival_witness :
    (update sampleConstants ratMath (1 / 10) (droneNearGoal 100) [] (fun _ => 0)).drone.position =
        (findLandingSpot unitTrig ⟨1000, 0⟩ 90 [] (fun _ => 0)).spot ∧
      euclideanDistanceSq
        (update sampleConstants ratMath (1 / 10) (droneNearGoal 100) [] (fun _ => 0)).drone.position
        ⟨1000, 0⟩ ≤ 90 * 90 ∧
      (update sampleConstants ratMath (1 / 10) (droneNearGoal 100) []
        (fun _ => 0)).drone.status = Status.landed :=
  let h := update_cruising_arrival sampleConstants ratMath
    (by intro t; norm_num [ratMath, unitTrig]) (by norm_num [sampleConstants]) (1 / 10)
    (droneNearGoal 100) [] (fun _ => 0) rfl
    (by rw [ratMath_length_near]; norm_num)
  ⟨h.1, h.2.2.2.1, by
    rw [h.2.2.2.2]
    norm_num [droneNearGoal, sampleConstants, powerMargin]⟩

/-- C15, as stated, fails for every positive `maxSpeed` and `takeoffSpeed`: a cruising agent
1000 away from its goal that is updated with `dt = 3000 / maxSpeed` (and has power to spare)
overshoots the goal and is then farther away than before. -/
theorem long_step_overshoots :
    ¬ ∃ c : DroneConstants ℚ, 0 < c.maxSpeed ∧ 0 < c.takeoffSpeed ∧
      ∀ (dt : ℚ) (d : Drone ℚ) (used : List (Vector2D ℚ)) (rng : RandState), 0 < dt →
        d.status = Status.hovering →
        ¬ d.power - dt * c.powerConsumption < powerMargin c →
        Vector2D.length ratMath (Vector2D.sub d.goalPosition d.position) > 90 →
        euclideanDistanceSq (update c ratMath dt d used rng).drone.position d.goalPosition <
          euclideanDistanceSq d.position d.goalPosition := by
  rintro ⟨c, hms, _, h⟩
  have hne : c.maxSpeed ≠ 0 := ne_of_gt hms
  have hdt : 0 < 3000 / c.maxSpeed := div_pos (by norm_num) hms
  have hlen := ratMath_length_origin Status.hovering
    (powerMargin c + 3000 / c.maxSpeed * c.powerConsumption)
  have h1 := h (3000 / c.maxSpeed)
    (droneAtOrigin Status.hovering (powerMargin c + 3000 / c.maxSpeed * c.powerConsumption))
    [] (fun _ => 0) hdt rfl (by simp [droneAtOrigin]) (by rw [hlen]; norm_num)
  have hu : update c ratMath (3000 / c.maxSpeed)
      (droneAtOrigin Status.hovering (powerMargin c + 3000 / c.maxSpeed * c.powerConsumption))
      [] (fun _ => 0) =
      updateHovering c ratMath (3000 / c.maxSpeed)
        (droneAtOrigin Status.hovering
          (powerMargin c + 3000 / c.maxSpeed * c.powerConsumption)) [] (fun _ => 0) := rfl
  obtain ⟨hpos, _⟩ := updateHovering_far c ratMath (3000 / c.maxSpeed)
    (droneAtOrigin Status.hovering (powerMargin c + 3000 / c.maxSpeed * c.powerConsumption))
    [] (fun _ => 0) (by rw [hlen]; norm_num)
  rw [hu, hpos] at h1
  simp only [Vector2D.normalize, hlen] at h1
  simp only [droneAtOrigin, Vector2D.sub, Vector2D.add, Vector2D.scale,
    euclideanDistanceSq] at h1
  have e : (1000 - 0 : ℚ) / 1000 * (3000 / c.maxSpeed) * c.maxSpeed = 3000 := by
    field_simp
  rw [e] at h1
  norm_num at h1

theorem update_cruising_step_witness :
    euclideanDistanceSq
        (update sampleConstants ratMath (1 / 10) (droneAtOrigin Status.hovering 100) []
          (fun _ => 0)).drone.position ⟨1000, 0⟩ = (1000 - 1 / 10 * 50) * (1000 - 1 / 10 * 50) ∧
      Vector2D.lengthSq (Vector2D.sub
        (update sampleConstants ratMath (1 / 10) (droneAtOrigin Status.hovering 100) []
          (fun _ => 0)).drone.position ⟨0, 0⟩) = (1 / 10 * 50) * (1 / 10 * 50) :=
  let h := update_cruising_step sampleConstants ratMath (1 / 10)
    (droneAtOrigin Status.hovering 100) [] (fun _ => 0) rfl
    (by rw [ratMath_length_origin]; norm_num [droneAtOrigin, Vector2D.lengthSq, Vector2D.sub])
    (by rw [ratMath_length_origin]; norm_num) (by norm_num) (by norm_num [sampleConstants])
  ⟨by
    have h3 := h.2.2.1
    rw [ratMath_length_origin] at h3
    exact h3, h.2.1⟩

/-! ## Collision force -/

section Collision

variable {K : Type} [LinearOrderedField K]

/-- C19: `Drone::update` does not read the accumulated collision force: for every agent
state, every replacement of `ForceCollision` and of the collision flag and every `dt`, the
call produces the same position, phase, height, power and heading (and the same speed, goal,
registry and generator state), and the force it leaves is the one it found. `addCollision`
changes nothing but `ForceCollision` and the collision flag, and it changes nothing at all
when the other agent is not closer than `threshold`. -/
theorem collision_force_not_applied [FloorRing K] (c : DroneConstants K) (M : CMath K) :
    (∀ (dt : K) (d : Drone K) (used : List (Vector2D K)) (rng : RandState)
        (force : Vector2D K) (flag : Bool),
      (update c M dt { d with ForceCollision := force, showCollision := flag } used
          rng).drone.position = (update c M dt d used rng).drone.position ∧
      (update c M dt { d with ForceCollision := force, showCollision := flag } used
          rng).drone.status = (update c M dt d used rng).drone.status ∧
      (update c M dt { d with ForceCollision := force, showCollision := flag } used
          rng).drone.height = (update c M dt d used rng).drone.height ∧
      (update c M dt { d with ForceCollision := force, showCollision := flag } used
          rng).drone.power = (update c M dt d used rng).drone.power ∧
      (update c M dt { d with ForceCollision := force, showCollision := flag } used
          rng).drone.azimut = (update c M dt d used rng).drone.azimut ∧
      (update c M dt { d with ForceCollision := force, showCollision := flag } used
          rng).drone.speed = (update c M dt d used rng).drone.speed ∧
      (update c M dt { d with ForceCollision := force, showCollision := flag } used
          rng).drone.goalPosition = (update c M dt d used rng).drone.goalPosition ∧
      (update c M dt { d with ForceCollision := force, showCollision := flag } used
          rng).usedLandingSpots = (update c M dt d used rng).usedLandingSpots ∧
      (update c M dt { d with ForceCollision := force, showCollision := flag } used
          rng).rng = (update c M dt d used rng).rng ∧
      (update c M dt { d with ForceCollision := force, showCollision := flag } used
          rng).drone.ForceCollision = force) ∧
    (∀ (d : Drone K) (B : Vector2D K) (threshold : K),
      (addCollision c M d B threshold).position = d.position ∧
      (addCollision c M d B threshold).goalPosition = d.goalPosition ∧
      (addCollision c M d B threshold).status = d.status ∧
      (addCollision c M d B threshold).height = d.height ∧
      (addCollision c M d B threshold).power = d.power ∧
      (addCollision c M d B threshold).speed = d.speed ∧
      (addCollision c M d B threshold).azimut = d.azimut ∧
      (addCollision c M d B threshold).targetServerName = d.targetServerName ∧
      (threshold ≤ Vector2D.length M (Vector2D.sub B d.position) →
        addCollision c M d B threshold = d)) := by
  constructor
  · intro dt d used rng force flag
    cases hst : d.status with
    | landed => simp [update, hst, updateLanded]
    | takeoff =>
      simp only [update, hst, updateTakeoff]
      split_ifs <;> simp
    | landing =>
      simp only [update, hst, updateLanding]
      split_ifs <;> simp
    | hovering =>
      simp only [update, hst, updateHovering]
      split_ifs <;> simp
  · intro d B threshold
    simp only [addCollision]
    split_ifs with h
    · refine ⟨rfl, rfl, rfl, rfl, rfl, rfl, rfl, rfl, ?_⟩
      intro hge
      exact absurd h (not_lt.2 hge)
    · exact ⟨rfl, rfl, rfl, rfl, rfl, rfl, rfl, rfl, fun _ => rfl⟩

end Collision

theorem collision_force_not_applied_witness :
    addCollision sampleConstants ratMath (droneAtOrigin Status.hovering 100) ⟨1000, 0⟩ 96 =
      droneAtOrigin Status.hovering 100 :=
  (collision_force_not_applied sampleConstants ratMath).2 (droneAtOrigin Status.hovering 100)
    ⟨1000, 0⟩ 96 |>.2.2.2.2.2.2.2.2 (by
      have h := ratMath_length_origin Status.hovering 100
      simp only [droneAtOrigin] at h
      simp only [droneAtOrigin]
      rw [h]
      norm_num)

/-! ## Routing -/

section RoutingProofs

variable {K : Type}

theorem getServerByName_name {servers : List (Server K)} {name : String} {s : Server K}
    (h : getServerByName servers name = some s) : s.name = name := by
  induction servers with
  | nil => simp [getServerByName] at h
  | cons t rest ih =>
    by_cases ht : t.name = name
    · simp only [getServerByName, ht, if_true, Option.some.injEq] at h
      rw [← h]; exact ht
    · simp only [getServerByName, ht, if_false] at h
      exact ih h

theorem retarget_retarget (d : Drone K) (p q : Vector2D K) (m n : String) :
    retarget (retarget d p m) q n = retarget d q n := rfl

theorem retarget_self (d : Drone K) : retarget d d.goalPosition d.targetServerName = d := rfl

/-- The loop of `updateDroneTarget` changes nothing but the goal position and the target name,
and these come from a server found under one of the names, if they change at all. -/
theorem updateDroneTargetLoop_spec (servers : List (Server K)) :
    ∀ (names : List String) (d : Drone K),
      updateDroneTargetLoop servers names d = d ∨
      ∃ n ∈ names, ∃ s, getServerByName servers n = some s ∧
        updateDroneTargetLoop servers names d = retarget d s.position s.name := by
  intro names
  induction names with
  | nil => intro d; exact Or.inl rfl
  | cons n rest ih =>
    intro d
    cases hs : getServerByName servers n with
    | none =>
      have hstep : updateDroneTargetLoop servers (n :: rest) d =
          updateDroneTargetLoop servers rest d := by
        simp [updateDroneTargetLoop, hs]
      rw [hstep]
      rcases ih d with h | ⟨m, hm, s, hms, he⟩
      · exact Or.inl h
      · exact Or.inr ⟨m, List.mem_cons_of_mem _ hm, s, hms, he⟩
    | some s =>
      have hstep : updateDroneTargetLoop servers (n :: rest) d =
          updateDroneTargetLoop servers rest (retarget d s.position s.name) := by
        simp [updateDroneTargetLoop, hs]
      rw [hstep]
      right
      rcases ih (retarget d s.position s.name) with h | ⟨m, hm, t, hmt, he⟩
      · exact ⟨n, List.mem_cons_self _ _, s, hs, h⟩
      · exact ⟨m, List.mem_cons_of_mem _ hm, t, hmt, by rw [he, retarget_retarget]⟩

/-- When the last name is the name of a server, the loop ends on that server. -/
theorem updateDroneTargetLoop_last (servers : List (Server K)) (n : String) (s : Server K)
    (hs : getServerByName servers n = some s) :
    ∀ (names : List String) (d : Drone K),
      updateDroneTargetLoop servers (names ++ [n]) d = retarget d s.position s.name := by
  intro names
  induction names with
  | nil =>
    intro d
    simp [updateDroneTargetLoop, hs]
  | cons m rest ih =>
    intro d
    cases hm : getServerByName servers m with
    | none =>
      have hstep : updateDroneTargetLoop servers (m :: rest ++ [n]) d =
          updateDroneTargetLoop servers (rest ++ [n]) d := by
        simp [updateDroneTargetLoop, hm]
      rw [hstep, ih]
    | some t =>
      have hstep : updateDroneTargetLoop servers (m :: rest ++ [n]) d =
          updateDroneTargetLoop servers (rest ++ [n]) (retarget d t.position t.name) := by
        simp [updateDroneTargetLoop, hm]
      rw [hstep, ih, retarget_retarget]

end RoutingProofs

/-! ## The shape of a returned path -/

/-- What the reconstruction loop returns is the accumulator with non-empty names put in front
of it, the last of them the name the loop was started on. -/
theorem reconstruct_shape (preds : List (String × String)) :
    ∀ (fuel : Nat) (k : String) (acc r : List String),
      reconstruct preds fuel k acc = some r →
      ∃ p, r = p ++ acc ∧ (∀ x ∈ p, x ≠ "") ∧ (p = [] ∨ ∃ p', p = p' ++ [k]) := by
  intro fuel
  induction fuel with
  | zero => intro k acc r h; simp [reconstruct] at h
  | succ fuel ih =>
    intro k acc r h
    by_cases hk : k = ""
    · simp only [reconstruct, hk, if_true, Option.some.injEq] at h
      exact ⟨[], by simp [h], by simp, Or.inl rfl⟩
    · simp only [reconstruct, hk, if_false] at h
      obtain ⟨p, hp, hne, _⟩ := ih _ _ _ h
      refine ⟨p ++ [k], by simp [hp], ?_, Or.inr ⟨p, rfl⟩⟩
      intro x hx
      rcases List.mem_append.1 hx with h' | h'
      · exact hne x h'
      · simp only [List.mem_singleton] at h'
        rw [h']; exact hk

theorem visitNeighbours_shape (start goal current : String) :
    ∀ (ns : List String) (st : BfsState),
      (∀ r, visitNeighbours start goal current ns st = Visit.done (some r) →
        PathShape start goal r) := by
  intro ns
  induction ns with
  | nil => intro st r h; simp [visitNeighbours] at h
  | cons n rest ih =>
    intro st r h
    by_cases hvis : n ∈ st.visited
    · simp only [visitNeighbours, hvis, if_true] at h
      exact ih st r h
    · by_cases hg : n = goal
      · subst hg
        simp only [visitNeighbours, hvis, if_false, if_true, Visit.done.injEq] at h
        cases hrec : reconstruct ((n, current) :: st.predecessors)
            (((n, current) :: st.predecessors).length + 2) n [] with
        | none => rw [hrec] at h; simp at h
        | some p0 =>
          rw [hrec] at h
          simp only [Option.map_some', Option.some.injEq] at h
          obtain ⟨p, hp, hne, hlast⟩ := reconstruct_shape _ _ _ _ _ hrec
          simp only [List.append_nil] at hp
          subst hp
          exact Or.inr ⟨p0, h.symm, hne, hlast⟩
      · simp only [visitNeighbours, hvis, if_false, hg] at h
        exact ih _ r h

theorem bfsLoop_shape (g : Graph) (start goal : String) :
    ∀ (fuel : Nat) (st : BfsState) (r : List String),
      bfsLoop g start goal fuel st = some r → PathShape start goal r := by
  intro fuel
  induction fuel with
  | zero => intro st r h; simp [bfsLoop] at h
  | succ fuel ih =>
    intro st r h
    obtain ⟨queue, visited, preds⟩ := st
    cases queue with
    | nil =>
      simp only [bfsLoop, Option.some.injEq] at h
      exact Or.inl h.symm
    | cons current rest =>
      simp only [bfsLoop] at h
      cases hv : visitNeighbours start goal current (neighbours g current)
          ⟨rest, visited, preds⟩ with
      | done path =>
        rw [hv] at h
        simp only at h
        subst h
        exact visitNeighbours_shape start goal current _ _ r hv
      | next st' =>
        rw [hv] at h
        exact ih st' r h

/-- The shape of what `findPathBasedOnConnections` returns for two different names. -/
theorem findPath_shape (g : Graph) (start goal : String) (hne : start ≠ goal)
    (r : List String) (h : findPathBasedOnConnections g start goal = some r) :
    PathShape start goal r := by
  simp only [findPathBasedOnConnections, hne, if_false] at h
  split_ifs at h with hc
  · simp only [Option.some.injEq] at h
    exact Or.inl h.symm
  · exact bfsLoop_shape g start goal _ _ r h

/-! ## The adjacency map after a search -/

theorem emptySetsStored_refl (g : Graph) : EmptySetsStored g g :=
  ⟨fun _ => rfl, rfl, fun _ h => h⟩

theorem afterQuery_refl (g : Graph) (start goal : String) : AfterQuery g g start goal :=
  ⟨fun _ => rfl, emptySetsStored_refl g⟩

/-- The search loop reads the map through the neighbour sets only. -/
theorem bfsLoop_congr (g g' : Graph) (start goal : String)
    (h : ∀ k, neighbours g' k = neighbours g k) :
    ∀ (fuel : Nat) (st : BfsState),
      bfsLoop g' start goal fuel st = bfsLoop g start goal fuel st := by
  intro fuel
  induction fuel with
  | zero => intro st; rfl
  | succ fuel ih =>
    intro st
    obtain ⟨queue, visited, preds⟩ := st
    cases queue with
    | nil => rfl
    | cons current rest =>
      simp only [bfsLoop, h]
      cases visitNeighbours start goal current (neighbours g current) ⟨rest, visited, preds⟩ with
      | done path => rfl
      | next st' => exact ih st'

/-- A query that searches returns the same list on the map the search leaves behind. -/
theorem findPath_afterQuery (g g' : Graph) (start goal : String)
    (h : AfterQuery g g' start goal) :
    findPathBasedOnConnections g' start goal = findPathBasedOnConnections g start goal := by
  by_cases hq : start = goal ∨ contains g start = false ∨ contains g goal = false
  · rw [h.1 hq]
  · have hne : ¬ start = goal := fun e => hq (Or.inl e)
    have hs : contains g start = true := by
      by_contra hc
      exact hq (Or.inr (Or.inl (by simpa using hc)))
    have hg : contains g goal = true := by
      by_contra hc
      exact hq (Or.inr (Or.inr (by simpa using hc)))
    obtain ⟨hn, hall, hkeys⟩ := h.2
    simp only [findPathBasedOnConnections, hne, if_false, hs, hg, hkeys start hs,
      hkeys goal hg, hall]
    simp only [Bool.not_true, Bool.or_self, Bool.false_eq_true, if_false]
    exact bfsLoop_congr g g' start goal hn _ _

section RoutingClaims

variable {K : Type} [LinearOrderedField K]

/-- The call of `updateDroneTarget` returns a drone for every input. -/
theorem updateDroneTarget_total (containsPoint : List (Vector2D K) → Vector2D K → Bool)
    (servers : List (Server K)) (g : Graph) (d : Drone K) :
    ∃ d1, updateDroneTarget containsPoint servers g d = some d1 := by
  simp only [updateDroneTarget]
  split_ifs with h
  · exact ⟨d, rfl⟩
  · obtain ⟨r, hr⟩ := findPath_total g
      (getCurrentServerForDrone containsPoint servers d.position) (getTargetServerForDrone d)
    rw [hr]
    simp only
    split_ifs
    · exact ⟨_, rfl⟩
    · exact ⟨d, rfl⟩

/-- The position of the drone is not touched by `updateDroneTarget`, and what the call leaves
is the drone itself or the drone with goal and target name taken from one server that is
found under its own, non-empty name. -/
theorem updateDroneTarget_cases (containsPoint : List (Vector2D K) → Vector2D K → Bool)
    (servers : List (Server K)) (g : Graph) (d d1 : Drone K)
    (h : updateDroneTarget containsPoint servers g d = some d1) :
    d1 = d ∨ ∃ s, getServerByName servers s.name = some s ∧ s.name ≠ "" ∧
      getCurrentServerForDrone containsPoint servers d.position ≠ "" ∧
      d1 = retarget d s.position s.name := by
  simp only [updateDroneTarget] at h
  split_ifs at h with hempty
  · exact Or.inl (Option.some.inj h).symm
  · have hcur : getCurrentServerForDrone containsPoint servers d.position ≠ "" :=
      fun e => hempty (Or.inl e)
    cases hr : findPathBasedOnConnections g
        (getCurrentServerForDrone containsPoint servers d.position)
        (getTargetServerForDrone d) with
    | none => rw [hr] at h; simp at h
    | some r =>
      rw [hr] at h
      simp only at h
      split_ifs at h with hlen
      · have h' := (Option.some.inj h).symm
        by_cases hne : getCurrentServerForDrone containsPoint servers d.position =
            getTargetServerForDrone d
        · rw [hne, findPath_of_eq] at hr
          rw [← Option.some.inj hr] at hlen
          simp at hlen
        · rcases findPath_shape g _ _ hne r hr with hnil | ⟨p, hp, hnonempty, _⟩
          · rw [hnil] at hlen; simp at hlen
          · rw [hp] at h'
            simp only [List.drop_succ_cons, List.drop_zero] at h'
            rcases updateDroneTargetLoop_spec servers p d with hsame | ⟨n, hn, s, hs, he⟩
            · exact Or.inl (by rw [h', hsame])
            · have hname := getServerByName_name hs
              refine Or.inr ⟨s, by rw [hname]; exact hs, ?_, hcur, by rw [h', he]⟩
              rw [hname]
              exact hnonempty n hn
      · exact Or.inl (Option.some.inj h).symm

end RoutingClaims

section RoutingTheorems

variable {K : Type} [LinearOrderedField K]

/-- On the map that the query of a call left behind, the same call does the same. -/
theorem updateDroneTarget_afterQuery (containsPoint : List (Vector2D K) → Vector2D K → Bool)
    (servers : List (Server K)) (g g' : Graph) (d : Drone K)
    (h : AfterQuery g g' (getCurrentServerForDrone containsPoint servers d.position)
      (getTargetServerForDrone d)) :
    updateDroneTarget containsPoint servers g' d =
      updateDroneTarget containsPoint servers g d := by
  simp only [updateDroneTarget, findPath_afterQuery g g' _ _ h]

/-- A drone that a call pointed at the server `s` is left as it is by a further call, on any
map. -/
theorem updateDroneTarget_retargeted (containsPoint : List (Vector2D K) → Vector2D K → Bool)
    (servers : List (Server K)) (g' : Graph) (d : Drone K) (s : Server K)
    (hs : getServerByName servers s.name = some s) :
    updateDroneTarget containsPoint servers g' (retarget d s.position s.name) =
      some (retarget d s.position s.name) := by
  have hpos : (retarget d s.position s.name).position = d.position := rfl
  have htgt : getTargetServerForDrone (retarget d s.position s.name) = s.name := rfl
  simp only [updateDroneTarget, hpos, htgt]
  split_ifs with hempty
  · rfl
  · obtain ⟨r, hr⟩ := findPath_total g'
      (getCurrentServerForDrone containsPoint servers d.position) s.name
    rw [hr]
    simp only
    split_ifs with hlen
    · by_cases hne : getCurrentServerForDrone containsPoint servers d.position = s.name
      · rw [hne, findPath_of_eq] at hr
        rw [← Option.some.inj hr] at hlen
        simp at hlen
      · rcases findPath_shape g' _ _ hne r hr with hnil | ⟨p, hp, _, hlast⟩
        · rw [hnil] at hlen; simp at hlen
        · rcases hlast with hp0 | ⟨p', hp'⟩
          · rw [hp, hp0] at hlen; simp at hlen
          · rw [hp, hp']
            simp only [List.drop_succ_cons, List.drop_zero]
            rw [updateDroneTargetLoop_last servers s.name s hs, retarget_retarget]
    · rfl

/-- C17: `updateDroneTarget` is idempotent. For every server set, adjacency map and agent the
call returns an agent `d1`, and a second call on `d1` returns `d1` again, so goal position
and target server name are those of a single call. This holds on the same map and on every
map that the search of the first call may have left behind by storing empty sets. -/
theorem updateDroneTarget_idempotent
    (containsPoint : List (Vector2D K) → Vector2D K → Bool)
    (servers : List (Server K)) (g : Graph) (d : Drone K) :
    ∃ d1, updateDroneTarget containsPoint servers g d = some d1 ∧
      updateDroneTarget containsPoint servers g d1 = some d1 ∧
      ∀ g', AfterQuery g g' (getCurrentServerForDrone containsPoint servers d.position)
          (getTargetServerForDrone d) →
        updateDroneTarget containsPoint servers g' d1 = some d1 := by
  obtain ⟨d1, h1⟩ := updateDroneTarget_total containsPoint servers g d
  have hgen : ∀ g', AfterQuery g g' (getCurrentServerForDrone containsPoint servers d.position)
      (getTargetServerForDrone d) →
      updateDroneTarget containsPoint servers g' d1 = some d1 := by
    intro g' hg'
    rcases updateDroneTarget_cases containsPoint servers g d d1 h1 with
      hsame | ⟨s, hs, _, _, hd1⟩
    · rw [hsame, updateDroneTarget_afterQuery containsPoint servers g g' d hg', h1, hsame]
    · rw [hd1]
      exact updateDroneTarget_retargeted containsPoint servers g' d s hs
  exact ⟨d1, h1, hgen g (afterQuery_refl g _ _), hgen⟩

/-- C18: `updateDroneTarget` leaves the agent as it is (goal position, target server name and
everything else) when the server set is empty, when no current server is determined, when
the agent has no destination server name (as a drone loaded with a destination that does not
exist), and when the computed path is empty. -/
theorem updateDroneTarget_unchanged
    (containsPoint : List (Vector2D K) → Vector2D K → Bool)
    (servers : List (Server K)) (g : Graph) (d : Drone K) :
    updateDroneTarget containsPoint [] g d = some d ∧
    (getCurrentServerForDrone containsPoint servers d.position = "" →
      updateDroneTarget containsPoint servers g d = some d) ∧
    (d.targetServerName = "" → updateDroneTarget containsPoint servers g d = some d) ∧
    (findPathBasedOnConnections g (getCurrentServerForDrone containsPoint servers d.position)
        d.targetServerName = some [] →
      updateDroneTarget containsPoint servers g d = some d) := by
  refine ⟨?_, ?_, ?_, ?_⟩
  · simp [updateDroneTarget, getCurrentServerForDrone, polygonScan, nearestScan]
  · intro h
    simp [updateDroneTarget, h]
  · intro h
    simp [updateDroneTarget, getTargetServerForDrone, h]
  · intro h
    simp only [updateDroneTarget, getTargetServerForDrone, h]
    split_ifs <;> simp [updateDroneTargetLoop]

end RoutingTheorems

theorem updateDroneTarget_unchanged_witness :
    updateDroneTarget (fun _ _ => false) rowServers (parseServerConnections rowEntries)
        (droneFor ⟨0, 0⟩ "") = some (droneFor ⟨0, 0⟩ "") ∧
      updateDroneTarget (fun _ _ => false) rowServers (parseServerConnections threeServers)
        (droneFor ⟨0, 0⟩ "C") = some (droneFor ⟨0, 0⟩ "C") :=
  ⟨(updateDroneTarget_unchanged (fun _ _ => false) rowServers
      (parseServerConnections rowEntries) (droneFor ⟨0, 0⟩ "")).2.2.1 rfl,
    (updateDroneTarget_unchanged (fun _ _ => false) rowServers
      (parseServerConnections threeServers) (droneFor ⟨0, 0⟩ "C")).2.2.2 (by
        have hcur : getCurrentServerForDrone (fun _ _ => false) rowServers
            (droneFor ⟨0, 0⟩ "C").position = "A" := by
          simp only [getCurrentServerForDrone, polygonScan, nearestScan, rowServers,
            droneFor, euclideanDistanceSq, dblMax]
          norm_num
        rw [hcur]
        decide)⟩

theorem updateDroneTarget_idempotent_witness :
    ∃ d1, updateDroneTarget (fun _ _ => false) rowServers (parseServerConnections rowEntries)
        (droneFor ⟨0, 0⟩ "C") = some d1 ∧
      updateDroneTarget (fun _ _ => false) rowServers (parseServerConnections rowEntries) d1 =
        some d1 :=
  let ⟨d1, h1, h2, _⟩ := updateDroneTarget_idempotent (fun _ _ => false) rowServers
    (parseServerConnections rowEntries) (droneFor ⟨0, 0⟩ "C")
  ⟨d1, h1, h2⟩

/-- C16: with the servers `A`, `B`, `C` in a row, 400 apart, and an agent at `A` whose
destination is `C`, the computed path is `[A, A, B, C]`. The next hop is `B` at `(400, 0)`,
but `updateDroneTarget` leaves the agent with the goal position `(800, 0)` and the target
server name `C`, those of the last server of the path: the loop over `path[1..]` sets goal
and name for each element in turn and the last one stays. -/
theorem updateDroneTarget_sets_last_hop :
    getCurrentServerForDrone (fun _ _ => false) rowServers (droneFor ⟨0, 0⟩ "C").position =
        "A" ∧
      findPathBasedOnConnections (parseServerConnections rowEntries) "A" "C" =
        some ["A", "A", "B", "C"] ∧
      updateDroneTarget (fun _ _ => false) rowServers (parseServerConnections rowEntries)
        (droneFor ⟨0, 0⟩ "C") = some (retarget (droneFor ⟨0, 0⟩ "C") ⟨800, 0⟩ "C") ∧
      (retarget (droneFor ⟨0, 0⟩ "C") ⟨800, 0⟩ "C").goalPosition ≠ ⟨400, 0⟩ := by
  have hcur : getCurrentServerForDrone (fun _ _ => false) rowServers
      (droneFor ⟨0, 0⟩ "C").position = "A" := by
    simp only [getCurrentServerForDrone, polygonScan, nearestScan, rowServers,
      droneFor, euclideanDistanceSq, dblMax]
    norm_num
  have hpath : findPathBasedOnConnections (parseServerConnections rowEntries) "A" "C" =
      some ["A", "A", "B", "C"] := by decide
  refine ⟨hcur, hpath, ?_, ?_⟩
  · have htgt : getTargetServerForDrone (droneFor ⟨0, 0⟩ "C") = "C" := rfl
    simp only [updateDroneTarget, hcur, htgt, hpath]
    simp [updateDroneTargetLoop, getServerByName, rowServers, retarget]
  · simp [retarget]

/-! ## The search returns a shortest walk -/

theorem HopWalk.head {g : Graph} {a b c : String} {n : Nat} (hab : Edge g a b)
    (h : HopWalk g b c n) : HopWalk g a c (n + 1) := by
  induction h with
  | refl => exact HopWalk.tail HopWalk.refl hab
  | tail _ hedge ih => exact HopWalk.tail ih hedge

/-- A walk given as a list of `n + 1` names makes `n` hops. -/
theorem hopWalk_of_walk (g : Graph) :
    ∀ (q : List String) (a b : String), WalkFromTo g a b q → HopWalk g a b (q.length - 1) := by
  intro q
  induction q with
  | nil => intro a b h; simp [WalkFromTo] at h
  | cons x rest ih =>
    intro a b h
    obtain ⟨hhead, hlast, hchain⟩ := h
    simp only [List.head?_cons, Option.some.injEq] at hhead
    subst hhead
    cases rest with
    | nil =>
      simp only [List.getLast?_singleton, Option.some.injEq] at hlast
      subst hlast
      exact HopWalk.refl
    | cons y rest' =>
      have hchain' : List.Chain' (Edge g) (x :: y :: rest') := hchain
      rw [List.chain'_cons] at hchain'
      have hlast' : (y :: rest').getLast? = some b := by
        rw [List.getLast?_cons_cons] at hlast
        exact hlast
      have hrec := ih y b ⟨rfl, hlast', hchain'.2⟩
      have hlen : (x :: y :: rest').length - 1 = ((y :: rest').length - 1) + 1 := by
        simp
      rw [hlen]
      exact HopWalk.head hchain'.1 hrec

/-- A walk that ends outside the visited names passes a pending name before: some pending
name has a recorded walk that is no longer than the number of hops. -/
theorem exists_pending_of_hopWalk {g : Graph} {start goal : String} {pending : List String}
    {st : BfsState} {walkOf : String → List String}
    (hinv : BfsWalkInv g start goal pending st walkOf) {x : String} {n : Nat}
    (h : HopWalk g start x n) (hx : x ∉ st.visited) :
    ∃ u ∈ pending, (walkOf u).length ≤ n := by
  induction h with
  | refl => exact absurd hinv.start_mem hx
  | @tail b c n hwalk hedge ih =>
    by_cases hb : b ∈ st.visited
    · by_cases hp : b ∈ pending
      · exact ⟨b, hp, hinv.minimal b hb n hwalk⟩
      · exact absurd (hinv.closed b hb hp c hedge) hx
    · obtain ⟨u, hu, hlen⟩ := ih hb
      exact ⟨u, hu, Nat.le_succ_of_le hlen⟩

theorem walkFromTo_append {g : Graph} {a b c : String} {p : List String}
    (h : WalkFromTo g a b p) (hedge : Edge g b c) : WalkFromTo g a c (p ++ [c]) := by
  obtain ⟨hhead, hlast, hchain⟩ := h
  refine ⟨?_, List.getLast?_concat p, ?_⟩
  · cases p with
    | nil => simp at hhead
    | cons x rest =>
      simp only [List.head?_cons, Option.some.injEq] at hhead
      simp [hhead]
  · apply List.Chain'.append hchain (List.chain'_singleton c)
    intro x hx y hy
    rw [hlast] at hx
    simp only [Option.mem_def, Option.some.injEq] at hx
    simp only [List.head?_cons, Option.mem_def, Option.some.injEq] at hy
    rw [← hx, ← hy]
    exact hedge

/-- The walk recorded for a name `n` that is discovered from the first pending name
`current`: the walk of `current` followed by `n`. -/
theorem discovered_walk {g : Graph} {start goal current n : String} {queue : List String}
    {st : BfsState} {walkOf : String → List String}
    (hinv : BfsWalkInv g start goal (current :: queue) st walkOf)
    (hedge : n ∈ neighbours g current) (hvis : n ∉ st.visited) (hne : n ≠ "") :
    PredChain ((n, current) :: st.predecessors) n (walkOf current ++ [n]) ∧
      (walkOf current ++ [n]).length ≤ ((n, current) :: st.predecessors).length + 1 ∧
      (∀ x ∈ walkOf current ++ [n], x ∈ n :: st.visited) ∧
      WalkFromTo g start n (walkOf current ++ [n]) ∧
      ∀ m, HopWalk g start n m → (walkOf current ++ [n]).length ≤ m + 1 := by
  have hcur : current ∈ st.visited := hinv.pending_sub current (List.mem_cons_self _ _)
  obtain ⟨hc1, hc2, hc3⟩ := hinv.chain current hcur
  refine ⟨?_, ?_, ?_, walkFromTo_append (hinv.walk current hcur) hedge, ?_⟩
  · refine PredChain.step hne ?_
    have e : predValue ((n, current) :: st.predecessors) n = current := by simp [predValue]
    rw [e]
    refine hc1.congr ?_
    intro x hx
    apply predValue_cons_of_ne
    rintro rfl
    exact hvis (hc3 _ hx)
  · simp only [List.length_append, List.length_cons, List.length_nil]
    omega
  · intro x hx
    rcases List.mem_append.1 hx with h | h
    · exact List.mem_cons_of_mem _ (hc3 x h)
    · simp only [List.mem_singleton] at h
      rw [h]; exact List.mem_cons_self _ _
  · intro m hm
    obtain ⟨u, hu, hlen⟩ := exists_pending_of_hopWalk hinv hm hvis
    have hhead : (walkOf current).length ≤ (walkOf u).length := by
      rcases List.mem_cons.1 hu with rfl | hq
      · exact le_refl _
      · exact List.rel_of_pairwise_cons hinv.sorted hq
    simp only [List.length_append, List.length_cons, List.length_nil]
    omega

/-- The invariant is kept when a newly discovered name is marked visited and enqueued. -/
theorem bfsWalkInv_enqueue {g : Graph} {start goal current n : String} {st : BfsState}
    {walkOf : String → List String}
    (hinv : BfsWalkInv g start goal (current :: st.queue) st walkOf)
    (hedge : n ∈ neighbours g current) (hvis : n ∉ st.visited) (hgoal : n ≠ goal)
    (hne : n ≠ "") :
    BfsWalkInv g start goal (current :: (st.queue ++ [n]))
      ⟨st.queue ++ [n], n :: st.visited, (n, current) :: st.predecessors⟩
      (Function.update walkOf n (walkOf current ++ [n])) := by
  obtain ⟨hd1, hd2, hd3, hd4, hd5⟩ := discovered_walk hinv hedge hvis hne
  have hcur : current ∈ st.visited := hinv.pending_sub current (List.mem_cons_self _ _)
  have hold : ∀ v ∈ st.visited, Function.update walkOf n (walkOf current ++ [n]) v = walkOf v := by
    intro v hv
    apply Function.update_noteq
    rintro rfl
    exact hvis hv
  have hnew : Function.update walkOf n (walkOf current ++ [n]) n = walkOf current ++ [n] :=
    Function.update_same _ _ _
  have hpend : ∀ a ∈ current :: st.queue,
      Function.update walkOf n (walkOf current ++ [n]) a = walkOf a :=
    fun a ha => hold a (hinv.pending_sub a ha)
  have hheadmin : ∀ a ∈ current :: st.queue, (walkOf current).length ≤ (walkOf a).length := by
    intro a ha
    rcases List.mem_cons.1 ha with rfl | hq
    · exact le_refl _
    · exact List.rel_of_pairwise_cons hinv.sorted hq
  have hsplit : current :: (st.queue ++ [n]) = (current :: st.queue) ++ [n] := rfl
  refine ⟨List.mem_cons_of_mem _ hinv.start_mem, ?_, ?_, ?_, ?_, ?_, ?_, ?_, ?_⟩
  · intro h
    rcases List.mem_cons.1 h with h' | h'
    · exact hgoal h'.symm
    · exact hinv.goal_not h'
  · intro q hq
    rw [hsplit] at hq
    rcases List.mem_append.1 hq with h | h
    · exact List.mem_cons_of_mem _ (hinv.pending_sub q h)
    · simp only [List.mem_singleton] at h
      rw [h]; exact List.mem_cons_self _ _
  · intro v hv hnot m hm
    rw [hsplit] at hnot
    have hvn : v ≠ n := by
      rintro rfl
      exact hnot (List.mem_append_right _ (by simp))
    have hv' : v ∈ st.visited := by
      rcases List.mem_cons.1 hv with h | h
      · exact absurd h hvn
      · exact h
    exact List.mem_cons_of_mem _
      (hinv.closed v hv' (fun h => hnot (List.mem_append_left _ h)) m hm)
  · intro v hv
    rcases List.mem_cons.1 hv with rfl | hv'
    · rw [hnew]; exact ⟨hd1, hd2, hd3⟩
    · rw [hold v hv']
      obtain ⟨hc1, hc2, hc3⟩ := hinv.chain v hv'
      refine ⟨hc1.congr ?_, ?_, fun x hx => List.mem_cons_of_mem _ (hc3 x hx)⟩
      · intro x hx
        apply predValue_cons_of_ne
        rintro rfl
        exact hvis (hc3 _ hx)
      · simp only [List.length_cons]
        omega
  · intro v hv
    rcases List.mem_cons.1 hv with rfl | hv'
    · rw [hnew]; exact hd4
    · rw [hold v hv']; exact hinv.walk v hv'
  · intro v hv
    rcases List.mem_cons.1 hv with rfl | hv'
    · rw [hnew]; exact hd5
    · rw [hold v hv']; exact hinv.minimal v hv'
  · rw [hsplit, List.pairwise_append]
    refine ⟨?_, List.pairwise_singleton _ _, ?_⟩
    · refine hinv.sorted.imp_of_mem ?_
      intro a b ha hb hab
      rw [hpend a ha, hpend b hb]
      exact hab
    · intro a ha b hb
      simp only [List.mem_singleton] at hb
      subst hb
      rw [hpend a ha, hnew]
      have := hinv.bound current (List.mem_cons_self _ _) a ha
      simp only [List.length_append, List.length_cons, List.length_nil]
      omega
  · intro a ha b hb
    rw [hsplit] at ha hb
    rcases List.mem_append.1 ha with ha' | ha' <;> rcases List.mem_append.1 hb with hb' | hb'
    · rw [hpend a ha', hpend b hb']
      exact hinv.bound a ha' b hb'
    · simp only [List.mem_singleton] at hb'
      subst hb'
      rw [hpend a ha', hnew]
      have := hheadmin a ha'
      simp only [List.length_append, List.length_cons, List.length_nil]
      omega
    · simp only [List.mem_singleton] at ha'
      subst ha'
      rw [hpend b hb', hnew]
      have := hinv.bound current (List.mem_cons_self _ _) b hb'
      simp only [List.length_append, List.length_cons, List.length_nil]
      omega
    · simp only [List.mem_singleton] at ha' hb'
      rw [ha', hb']
      omega

/-- The loop over the neighbours of the first pending name `current`, for non-empty names:
when it returns, it returns `start` followed by a shortest walk from `start` to `goal`;
when it runs to its end, the invariant holds for the state it leaves. -/
theorem visitNeighbours_walk (g : Graph) (start goal current : String)
    (hnn : ∀ k n, n ∈ neighbours g k → n ≠ "") :
    ∀ (ns : List String) (st : BfsState) (walkOf : String → List String),
      BfsWalkInv g start goal (current :: st.queue) st walkOf →
      (∀ n ∈ ns, n ∈ neighbours g current) →
      (∀ path, visitNeighbours start goal current ns st = Visit.done path →
        ∃ p, path = some (start :: p) ∧ IsShortestWalk g start goal p) ∧
      (∀ st', visitNeighbours start goal current ns st = Visit.next st' →
        ∃ walkOf', BfsWalkInv g start goal (current :: st'.queue) st' walkOf' ∧
          (∀ n ∈ ns, n ∈ st'.visited) ∧ ∀ v ∈ st.visited, v ∈ st'.visited) := by
  intro ns
  induction ns with
  | nil =>
    intro st walkOf hinv _
    constructor
    · intro path h; simp [visitNeighbours] at h
    · intro st' h
      simp only [visitNeighbours, Visit.next.injEq] at h
      subst h
      exact ⟨walkOf, hinv, by simp, fun v hv => hv⟩
  | cons n rest ih =>
    intro st walkOf hinv hns
    have hrest : ∀ m ∈ rest, m ∈ neighbours g current :=
      fun m hm => hns m (List.mem_cons_of_mem _ hm)
    have hedge : n ∈ neighbours g current := hns n (List.mem_cons_self _ _)
    by_cases hvis : n ∈ st.visited
    · have hstep : visitNeighbours start goal current (n :: rest) st =
          visitNeighbours start goal current rest st := by
        simp [visitNeighbours, hvis]
      rw [hstep]
      obtain ⟨h1, h2⟩ := ih st walkOf hinv hrest
      refine ⟨h1, ?_⟩
      intro st' hst'
      obtain ⟨walkOf', hinv', hall, hmono⟩ := h2 st' hst'
      refine ⟨walkOf', hinv', ?_, hmono⟩
      intro m hm
      rcases List.mem_cons.1 hm with rfl | hm'
      · exact hmono _ hvis
      · exact hall m hm'
    · have hne : n ≠ "" := hnn current n hedge
      by_cases hgoal : n = goal
      · subst hgoal
        obtain ⟨hd1, hd2, _, hd4, hd5⟩ := discovered_walk hinv hedge hvis hne
        have hrec := reconstruct_of_chain hd1
          (((n, current) :: st.predecessors).length + 2) [] (by omega)
        have hval : visitNeighbours start n current (n :: rest) st =
            Visit.done (some (start :: (walkOf current ++ [n]))) := by
          simp only [visitNeighbours, hvis, if_false, if_true]
          rw [hrec]
          simp
        rw [hval]
        constructor
        · intro path hpath
          simp only [Visit.done.injEq] at hpath
          refine ⟨walkOf current ++ [n], hpath.symm, hd4, ?_⟩
          intro q hq
          have hhop := hopWalk_of_walk g q start n hq
          have hlen := hd5 _ hhop
          have hqpos : 0 < q.length := by
            cases q with
            | nil => simp [WalkFromTo] at hq
            | cons x r => simp
          omega
        · intro st' h; simp at h
      · have hinv1 := bfsWalkInv_enqueue hinv hedge hvis hgoal hne
        have hstep : visitNeighbours start goal current (n :: rest) st =
            visitNeighbours start goal current rest
              ⟨st.queue ++ [n], n :: st.visited, (n, current) :: st.predecessors⟩ := by
          simp [visitNeighbours, hvis, hgoal]
        rw [hstep]
        obtain ⟨h1, h2⟩ := ih ⟨st.queue ++ [n], n :: st.visited,
          (n, current) :: st.predecessors⟩ _ hinv1 hrest
        refine ⟨h1, ?_⟩
        intro st' hst'
        obtain ⟨walkOf', hinv', hall, hmono⟩ := h2 st' hst'
        refine ⟨walkOf', hinv', ?_, fun v hv => hmono v (List.mem_cons_of_mem _ hv)⟩
        intro m hm
        rcases List.mem_cons.1 hm with rfl | hm'
        · exact hmono _ (List.mem_cons_self _ _)
        · exact hall m hm'

/-- Whatever the search loop returns, for non-empty names, is the empty list or `start`
followed by a shortest walk from `start` to `goal`. -/
theorem bfsLoop_walk (g : Graph) (start goal : String)
    (hnn : ∀ k n, n ∈ neighbours g k → n ≠ "") :
    ∀ (fuel : Nat) (st : BfsState) (walkOf : String → List String),
      BfsWalkInv g start goal st.queue st walkOf →
      ∀ r, bfsLoop g start goal fuel st = some r →
        r = [] ∨ ∃ p, r = start :: p ∧ IsShortestWalk g start goal p := by
  intro fuel
  induction fuel with
  | zero => intro st _ _ r h; simp [bfsLoop] at h
  | succ fuel ih =>
    intro st walkOf hinv r h
    obtain ⟨queue, visited, preds⟩ := st
    cases queue with
    | nil =>
      simp only [bfsLoop, Option.some.injEq] at h
      exact Or.inl h.symm
    | cons current rest =>
      have hinv0 : BfsWalkInv g start goal (current :: rest) ⟨rest, visited, preds⟩ walkOf :=
        ⟨hinv.start_mem, hinv.goal_not, hinv.pending_sub, hinv.closed, hinv.chain, hinv.walk,
          hinv.minimal, hinv.sorted, hinv.bound⟩
      obtain ⟨h1, h2⟩ := visitNeighbours_walk g start goal current hnn (neighbours g current)
        ⟨rest, visited, preds⟩ walkOf hinv0 (fun n hn => hn)
      simp only [bfsLoop] at h
      cases hv : visitNeighbours start goal current (neighbours g current)
          ⟨rest, visited, preds⟩ with
      | done path =>
        rw [hv] at h
        simp only at h
        obtain ⟨p, hp, hshort⟩ := h1 path hv
        rw [hp, Option.some.injEq] at h
        exact Or.inr ⟨p, h.symm, hshort⟩
      | next st' =>
        rw [hv] at h
        simp only at h
        obtain ⟨walkOf', hinv', hall, _⟩ := h2 st' hv
        have hinv1 : BfsWalkInv g start goal st'.queue st' walkOf' := by
          refine ⟨hinv'.start_mem, hinv'.goal_not, ?_, ?_, hinv'.chain, hinv'.walk,
            hinv'.minimal, ?_, ?_⟩
          · intro q hq
            exact hinv'.pending_sub q (List.mem_cons_of_mem _ hq)
          · intro v hv' hnot n hn
            by_cases hvc : v = current
            · subst hvc
              exact hall n hn
            · apply hinv'.closed v hv' _ n hn
              intro hmem
              rcases List.mem_cons.1 hmem with h' | h'
              · exact hvc h'
              · exact hnot h'
          · exact (List.pairwise_cons.1 hinv'.sorted).2
          · intro a ha b hb
            exact hinv'.bound a (List.mem_cons_of_mem _ ha) b (List.mem_cons_of_mem _ hb)
        exact ih st' walkOf' hinv1 r h

theorem neighbours_nonempty_of_names {g : Graph} (h : NamesNonEmpty g) :
    ∀ k n, n ∈ neighbours g k → n ≠ "" := by
  induction g with
  | nil => intro k n hn; simp [neighbours] at hn
  | cons kv rest ih =>
    intro k n hn
    obtain ⟨k', ns⟩ := kv
    by_cases hk : k' = k
    · simp only [neighbours, hk, if_true] at hn
      exact (h (k', ns) (List.mem_cons_self _ _)).2 n hn
    · simp only [neighbours, hk, if_false] at hn
      exact ih (fun kv hkv => h kv (List.mem_cons_of_mem _ hkv)) k n hn

theorem key_nonempty_of_names {g : Graph} (h : NamesNonEmpty g) :
    ∀ k, contains g k = true → k ≠ "" := by
  induction g with
  | nil => intro k hk; simp [contains] at hk
  | cons kv rest ih =>
    intro k hk
    obtain ⟨k', ns⟩ := kv
    by_cases hkk : k' = k
    · rw [← hkk]
      exact (h (k', ns) (List.mem_cons_self _ _)).1
    · simp only [contains, hkk, if_false] at hk
      exact ih (fun kv hkv => h kv (List.mem_cons_of_mem _ hkv)) k hk

theorem bfsWalkInv_init (g : Graph) (start goal : String) (hne : start ≠ goal)
    (hs : start ≠ "") :
    BfsWalkInv g start goal [start] ⟨[start], [start], []⟩ (fun _ => [start]) := by
  have hchain : PredChain [] start [start] := by
    have h : PredChain [] start ([] ++ [start]) :=
      PredChain.step hs (by simp only [predValue]; exact PredChain.stop)
    simpa using h
  refine ⟨by simp, ?_, fun q hq => hq, ?_, ?_, ?_, ?_, List.pairwise_singleton _ _, ?_⟩
  · simp only [List.mem_singleton]
    exact fun h => hne h.symm
  · intro v hv hnot
    exact absurd hv hnot
  · intro v hv
    simp only [List.mem_singleton] at hv
    subst hv
    exact ⟨hchain, by simp, by simp⟩
  · intro v hv
    simp only [List.mem_singleton] at hv
    subst hv
    exact ⟨rfl, rfl, List.chain'_singleton _⟩
  · intro v _ n _
    simp
  · intro a _ b _
    simp

/-- C20: for every adjacency map whose names are all non-empty, with its neighbour sets in any
order, and every two different names `start` and `goal` that are keys of the map and
connected, `findPathBasedOnConnections` returns `start` followed by a list `p` that begins
with `start`, ends with `goal`, has every adjacent pair joined by an edge and is no longer
than any walk from `start` to `goal`. -/
theorem findPath_start_then_shortest_walk (g : Graph) (start goal : String)
    (hnames : NamesNonEmpty g) (hne : start ≠ goal) (hs : contains g start = true)
    (hg : contains g goal = true) (hreach : Reachable g start goal) :
    ∃ p, findPathBasedOnConnections g start goal = some (start :: p) ∧
      p.head? = some start ∧ p.getLast? = some goal ∧ IsWalk g p ∧
      ∀ q, WalkFromTo g start goal q → p.length ≤ q.length := by
  obtain ⟨r, hr, hiff⟩ := findPath_spec g start goal hne hs hg
  have hrne : r ≠ [] := fun h => (hiff.1 h) hreach
  have hloop : bfsLoop g start goal ((allNeighbours g).length + 2) ⟨[start], [start], []⟩ =
      some r := by
    simp only [findPathBasedOnConnections, hne, if_false, hs, hg] at hr
    simpa using hr
  rcases bfsLoop_walk g start goal (neighbours_nonempty_of_names hnames) _ _ _
      (bfsWalkInv_init g start goal hne (key_nonempty_of_names hnames start hs)) r hloop with
    h | ⟨p, hp, hwalk, hmin⟩
  · exact absurd h hrne
  · exact ⟨p, by rw [hr, hp], hwalk.1, hwalk.2.1, hwalk.2.2, hmin⟩

theorem findPath_start_then_shortest_walk_witness :
    ∃ p, findPathBasedOnConnections lineGraph "a" "c" = some ("a" :: p) ∧
      p.head? = some "a" ∧ p.getLast? = some "c" ∧ IsWalk lineGraph p ∧
      ∀ q, WalkFromTo lineGraph "a" "c" q → p.length ≤ q.length :=
  findPath_start_then_shortest_walk lineGraph "a" "c"
    (by
      intro kv hkv
      simp only [lineGraph, List.mem_cons, List.mem_singleton, List.not_mem_nil,
        or_false] at hkv
      rcases hkv with rfl | rfl | rfl <;> simp)
    (by decide) (by decide) (by decide)
    (Relation.ReflTransGen.tail
      (Relation.ReflTransGen.tail Relation.ReflTransGen.refl
        (show Edge lineGraph "a" "b" by simp [Edge, lineGraph, neighbours]))
      (show Edge lineGraph "b" "c" by simp [Edge, lineGraph, neighbours]))

/-! ## The sub-step count of the driver -/

theorem adaptSteps_bounds (steps d : Int) (h0 : 0 ≤ steps) (h10 : steps ≤ 10) :
    0 ≤ adaptSteps steps d ∧ adaptSteps steps d ≤ 10 := by
  unfold adaptSteps
  split_ifs with h1 h2
  · rw [Int.tdiv_eq_ediv h0 (by decide)]
    omega
  · omega
  · omega

theorem driverRun_steps_bounds :
    ∀ (ticks : List (Int × Int)) (st : DriverState), 0 ≤ st.steps → st.steps ≤ 10 →
      0 ≤ (driverRun ticks st).steps ∧ (driverRun ticks st).steps ≤ 10 := by
  intro ticks
  induction ticks with
  | nil => intro st h0 h10; exact ⟨h0, h10⟩
  | cons tick rest ih =>
    intro st h0 h10
    obtain ⟨h1, h2⟩ := adaptSteps_bounds st.steps tick.2 h0 h10
    exact ih (driverTick st tick.1 tick.2) h1 h2

/-- C21: after four calls of `MainWindow::update` that each cost 100 ms (more than 90), the
sub-step count has gone 10, 5, 2, 1, 0: `steps` is 0, which is outside 1..10, the divisor
`1000.0 * steps` of the next call is zero and its `dt` has no finite value. What does hold
for every sequence of calls and costs is that `steps` stays within 0..10. -/
theorem steps_reach_zero :
    (driverRun [(100, 100), (300, 100), (500, 100), (700, 100)] (initialDriver 0)).steps = 0 ∧
      dtDivisor
        (driverRun [(100, 100), (300, 100), (500, 100), (700, 100)] (initialDriver 0)).steps =
        0 ∧
      tickDt (driverRun [(100, 100), (300, 100), (500, 100), (700, 100)] (initialDriver 0))
        900 = none ∧
      ∀ (ticks : List (Int × Int)) (firstReading : Int),
        0 ≤ (driverRun ticks (initialDriver firstReading)).steps ∧
          (driverRun ticks (initialDriver firstReading)).steps ≤ 10 := by
  have hrun : driverRun [(100, 100), (300, 100), (500, 100), (700, 100)] (initialDriver 0) =
      ⟨700, 0⟩ := by decide
  refine ⟨by rw [hrun], by rw [hrun]; simp [dtDivisor], by rw [hrun]; simp [tickDt, dtDivisor],
    ?_⟩
  intro ticks firstReading
  exact driverRun_steps_bounds ticks (initialDriver firstReading)
    (by simp [initialDriver]) (by simp [initialDriver])

/-! ## Rounding to binary64 -/

namespace Double

theorem nearestEven_cases (m : ℚ) :
    nearestEven m = Int.floor m ∨ (nearestEven m = Int.floor m + 1 ∧ 1 / 2 ≤ m - Int.floor m) := by
  unfold nearestEven
  split_ifs with h1 h2 h3
  · exact Or.inl rfl
  · exact Or.inr ⟨rfl, le_of_lt h2⟩
  · exact Or.inl rfl
  · exact Or.inr ⟨rfl, not_lt.1 h1⟩

theorem nearestEven_sub_le (m : ℚ) : |(nearestEven m : ℚ) - m| ≤ 1 / 2 := by
  have hf := Int.floor_le m
  have hl := Int.lt_floor_add_one m
  unfold nearestEven
  split_ifs with h1 h2 h3
  · rw [abs_le]; constructor <;> linarith
  · rw [abs_le]; push_cast; constructor <;> linarith
  · rw [abs_le]; constructor <;> linarith
  · rw [abs_le]; push_cast; constructor <;> linarith

theorem nearestEven_eq (m : ℚ) (n : Int) (h : |m - n| < 1 / 2) : nearestEven m = n := by
  rw [abs_lt] at h
  rcases nearestEven_cases m with h1 | ⟨h1, h2⟩
  · rw [h1]
    apply Int.floor_eq_iff.2
    constructor
    · by_contra hc
      push_neg at hc
      have hfl : Int.floor m < n := by
        apply Int.floor_lt.2
        exact hc
      have : (Int.floor m : ℚ) + 1 ≤ n := by exact_mod_cast hfl
      have e := nearestEven_sub_le m
      rw [h1, abs_le] at e
      linarith [Int.floor_le m, Int.lt_floor_add_one m]
    · linarith
  · rw [h1]
    have hfl : Int.floor m + 1 = n := by
      have h3 : Int.floor m < n := by
        apply Int.floor_lt.2
        by_contra hc
        push_neg at hc
        have : n ≤ Int.floor m := Int.le_floor.2 hc
        have : (n : ℚ) ≤ Int.floor m := by exact_mod_cast this
        linarith
      have h4 : n ≤ Int.floor m + 1 := by
        by_contra hc
        push_neg at hc
        have : (Int.floor m : ℚ) + 1 + 1 ≤ n := by exact_mod_cast hc
        linarith [Int.lt_floor_add_one m]
      omega
    exact hfl

theorem nearestEven_le (m : ℚ) (N : Int) (h : m ≤ N) : nearestEven m ≤ N := by
  have hf : Int.floor m ≤ N := by
    apply Int.floor_le_iff.2
    linarith
  rcases nearestEven_cases m with h1 | ⟨h1, h2⟩
  · rw [h1]; exact hf
  · rw [h1]
    have : Int.floor m ≠ N := by
      intro e
      rw [e] at h2
      linarith
    omega

theorem le_nearestEven (m : ℚ) (N : Int) (h : (N : ℚ) ≤ m) : N ≤ nearestEven m := by
  have hf : N ≤ Int.floor m := Int.le_floor.2 h
  rcases nearestEven_cases m with h1 | ⟨h1, _⟩
  · rw [h1]; exact hf
  · rw [h1]; omega

theorem spacing_pos (q : ℚ) : 0 < spacing q := by
  unfold spacing
  positivity

theorem log_eq_of_bounds (q : ℚ) (e : Int) (hlo : (2 : ℚ) ^ e ≤ |q|)
    (hhi : |q| < (2 : ℚ) ^ (e + 1)) : Int.log 2 |q| = e := by
  have hpos : (0 : ℚ) < |q| := lt_of_lt_of_le (by positivity) hlo
  have h1 : e ≤ Int.log 2 |q| := by
    apply (Int.zpow_le_iff_le_log (by norm_num) hpos).1
    simpa using hlo
  have h2 : Int.log 2 |q| < e + 1 := by
    apply (Int.lt_zpow_iff_log_lt (by norm_num) hpos).1
    simpa using hhi
  omega

theorem spacing_eq (q : ℚ) (e : Int) (hlo : (2 : ℚ) ^ e ≤ |q|)
    (hhi : |q| < (2 : ℚ) ^ (e + 1)) (he : -1022 ≤ e) : spacing q = 2 ^ (e - 52) := by
  unfold spacing
  rw [log_eq_of_bounds q e hlo hhi, max_eq_left he]

theorem nearest_zero : nearest 0 = 0 := by
  simp [nearest, nearestEven]

theorem nearest_eq (q : ℚ) (e n : Int) (hlo : (2 : ℚ) ^ e ≤ |q|)
    (hhi : |q| < (2 : ℚ) ^ (e + 1)) (he : -1022 ≤ e)
    (hn : |q / 2 ^ (e - 52) - n| < 1 / 2) : nearest q = n * 2 ^ (e - 52) := by
  unfold nearest
  rw [spacing_eq q e hlo hhi he, nearestEven_eq _ n hn]

theorem nearest_sub_le (q : ℚ) : |nearest q - q| ≤ spacing q / 2 := by
  have hs := spacing_pos q
  have h := nearestEven_sub_le (q / spacing q)
  have e : nearest q - q = ((nearestEven (q / spacing q) : ℚ) - q / spacing q) * spacing q := by
    unfold nearest
    field_simp
  rw [e, abs_mul, abs_of_pos hs]
  calc |(nearestEven (q / spacing q) : ℚ) - q / spacing q| * spacing q
      ≤ 1 / 2 * spacing q := mul_le_mul_of_nonneg_right h (le_of_lt hs)
    _ = spacing q / 2 := by ring

theorem spacing_le (q : ℚ) (hq : q ≠ 0) : spacing q ≤ |q| / 2 ^ 52 + 1 / 2 ^ 1074 := by
  unfold spacing
  by_cases h : -1022 ≤ Int.log 2 |q|
  · rw [max_eq_left h]
    · have hpos : (0 : ℚ) < |q| := abs_pos.2 hq
      have h1 : ((2 : ℕ) : ℚ) ^ Int.log 2 |q| ≤ |q| := Int.zpow_log_le_self (by norm_num) hpos
      have h2 : (2 : ℚ) ^ (Int.log 2 |q| - 52) = (2 : ℚ) ^ Int.log 2 |q| / 2 ^ 52 := by
        rw [zpow_sub₀ (by norm_num)]
        norm_num
      rw [h2]
      have h3 : (2 : ℚ) ^ Int.log 2 |q| / 2 ^ 52 ≤ |q| / 2 ^ 52 := by
        apply div_le_div_of_nonneg_right _ (by positivity)
        simpa using h1
      have : (0 : ℚ) ≤ 1 / 2 ^ 1074 := by positivity
      linarith
  · rw [max_eq_right (by omega)]
    have h2 : (2 : ℚ) ^ ((-1022 : Int) - 52) = 1 / 2 ^ 1074 := by
      rw [show ((-1022 : Int) - 52) = -(1074 : ℕ) by norm_num, zpow_neg, zpow_natCast]
      simp
    rw [h2]
    have : (0 : ℚ) ≤ |q| / 2 ^ 52 := by positivity
    linarith

/-- The rounding error of a result: half a unit in the last place. -/
theorem nearest_error (q : ℚ) : |nearest q - q| ≤ |q| / 2 ^ 53 + 1 / 2 ^ 1075 := by
  by_cases hq : q = 0
  · subst hq
    rw [nearest_zero]
    norm_num
  have h1 := nearest_sub_le q
  have h2 := spacing_le q hq
  have e1 : |q| / 2 ^ 53 = |q| / 2 ^ 52 / 2 := by ring
  have e2 : (1 : ℚ) / 2 ^ 1075 = 1 / 2 ^ 1074 / 2 := by ring
  rw [e1, e2]
  linarith

theorem nearest_nonneg (q : ℚ) (h : 0 ≤ q) : 0 ≤ nearest q := by
  unfold nearest
  have hs := spacing_pos q
  have : (0 : Int) ≤ nearestEven (q / spacing q) :=
    le_nearestEven _ 0 (by simpa using div_nonneg h (le_of_lt hs))
  have : (0 : ℚ) ≤ nearestEven (q / spacing q) := by exact_mod_cast this
  positivity

theorem log_le_of_abs_le (q : ℚ) (k : Int) (hq : q ≠ 0) (h : |q| ≤ (2 : ℚ) ^ k) :
    Int.log 2 |q| ≤ k := by
  have hpos : (0 : ℚ) < |q| := abs_pos.2 hq
  have h1 : Int.log 2 |q| ≤ Int.log 2 (((2 : ℕ) : ℚ) ^ k) :=
    Int.log_mono_right hpos (by simpa using h)
  rwa [Int.log_zpow (by norm_num)] at h1

/-- Rounding does not take a result past a power of two. -/
theorem nearest_abs_le (q : ℚ) (k : Int) (hk : -1022 ≤ k) (h : |q| ≤ (2 : ℚ) ^ k) :
    |nearest q| ≤ (2 : ℚ) ^ k := by
  by_cases hq : q = 0
  · subst hq
    rw [nearest_zero]
    simp only [abs_zero]
    positivity
  have hE : max (Int.log 2 |q|) (-1022) ≤ k := max_le (log_le_of_abs_le q k hq h) hk
  have hs : spacing q = (2 : ℚ) ^ (max (Int.log 2 |q|) (-1022) - 52) := rfl
  generalize max (Int.log 2 |q|) (-1022) = E at hE hs
  have hspos := spacing_pos q
  obtain ⟨d, hd⟩ : ∃ d : ℕ, (d : Int) = k - E + 52 := ⟨(k - E + 52).toNat, by omega⟩
  have hN : (((2 : Int) ^ d : Int) : ℚ) * spacing q = (2 : ℚ) ^ k := by
    rw [hs]
    push_cast
    rw [← zpow_natCast (2 : ℚ) d, hd, ← zpow_add₀ (by norm_num)]
    congr 1
    ring
  have hdiv : |q / spacing q| ≤ (((2 : Int) ^ d : Int) : ℚ) := by
    rw [abs_div, abs_of_pos hspos, div_le_iff₀ hspos, hN]
    exact h
  rw [abs_le] at hdiv
  have h1 : nearestEven (q / spacing q) ≤ (2 : Int) ^ d := nearestEven_le _ _ hdiv.2
  have h2 : -((2 : Int) ^ d) ≤ nearestEven (q / spacing q) :=
    le_nearestEven _ _ (by push_cast; push_cast at hdiv; exact hdiv.1)
  have h1' : (nearestEven (q / spacing q) : ℚ) ≤ (((2 : Int) ^ d : Int) : ℚ) := by
    exact_mod_cast h1
  have h2' : -(((2 : Int) ^ d : Int) : ℚ) ≤ (nearestEven (q / spacing q) : ℚ) := by
    exact_mod_cast h2
  unfold nearest
  rw [abs_mul, abs_of_pos hspos, ← hN]
  exact mul_le_mul_of_nonneg_right (abs_le.2 ⟨h2', h1'⟩) (le_of_lt hspos)

/-- Rounding does not take a result below a power of two that it reaches. -/
theorem le_nearest (q : ℚ) (k : Int) (hk : -1022 ≤ k) (h : (2 : ℚ) ^ k ≤ q) :
    (2 : ℚ) ^ k ≤ nearest q := by
  have hqpos : (0 : ℚ) < q := lt_of_lt_of_le (by positivity) h
  have habs : |q| = q := abs_of_pos hqpos
  have hke : k ≤ Int.log 2 |q| := by
    apply (Int.zpow_le_iff_le_log (by norm_num) (by rw [habs]; exact hqpos)).1
    rw [habs]
    simpa using h
  have hlog : ((2 : ℕ) : ℚ) ^ Int.log 2 |q| ≤ |q| :=
    Int.zpow_log_le_self (by norm_num) (by rw [habs]; exact hqpos)
  have hs : spacing q = (2 : ℚ) ^ (Int.log 2 |q| - 52) := by
    unfold spacing
    rw [max_eq_left (by omega)]
  generalize Int.log 2 |q| = e at hke hlog hs
  rw [habs] at hlog
  have hspos := spacing_pos q
  have hN : (((2 : Int) ^ 52 : Int) : ℚ) * spacing q = (2 : ℚ) ^ e := by
    have hc : (((2 : Int) ^ 52 : Int) : ℚ) = (2 : ℚ) ^ (52 : Int) := by norm_num
    rw [hs, hc, ← zpow_add₀ (by norm_num)]
    congr 1
    ring
  have hdiv : (((2 : Int) ^ 52 : Int) : ℚ) ≤ q / spacing q := by
    rw [le_div_iff₀ hspos, hN]
    simpa using hlog
  have h1 : (2 : Int) ^ 52 ≤ nearestEven (q / spacing q) := le_nearestEven _ _ hdiv
  have h1' : (((2 : Int) ^ 52 : Int) : ℚ) ≤ (nearestEven (q / spacing q) : ℚ) := by
    exact_mod_cast h1
  unfold nearest
  calc (2 : ℚ) ^ k ≤ (2 : ℚ) ^ e := zpow_le_zpow_right₀ (by norm_num) hke
    _ = (((2 : Int) ^ 52 : Int) : ℚ) * spacing q := hN.symm
    _ ≤ (nearestEven (q / spacing q) : ℚ) * spacing q :=
      mul_le_mul_of_nonneg_right h1' (le_of_lt hspos)

/-- A result of magnitude at most `2 ^ 1023` is rounded to a finite value. -/
theorem rnd_of_abs_le (q : ℚ) (h : |q| ≤ 2 ^ 1023) : rnd q = finite (nearest q) := by
  have h1 : |nearest q| ≤ (2 : ℚ) ^ (1023 : Int) :=
    nearest_abs_le q 1023 (by norm_num) (by rw [zpow_ofNat]; exact h)
  rw [zpow_ofNat, abs_le] at h1
  unfold rnd
  rw [if_neg (by linarith [show (2 : ℚ) ^ 1023 < 2 ^ 1024 by norm_num]),
    if_neg (by linarith [show (2 : ℚ) ^ 1023 < 2 ^ 1024 by norm_num])]

theorem rnd_zero : rnd 0 = finite 0 := by
  rw [rnd_of_abs_le 0 (by norm_num), nearest_zero]

/-- Rounding never yields a NaN. -/
theorem rnd_ne_nan (q : ℚ) : rnd q ≠ nan := by
  unfold rnd
  split_ifs <;> simp

theorem sqrtNearest_cases (q : ℚ) :
    sqrtNearest q = (Nat.sqrt (Nat.floor (q / ((2 : ℚ) ^ (Int.log 2 q / 2 - 52) *
        (2 : ℚ) ^ (Int.log 2 q / 2 - 52)))) : ℕ) * (2 : ℚ) ^ (Int.log 2 q / 2 - 52) ∨
    sqrtNearest q = ((Nat.sqrt (Nat.floor (q / ((2 : ℚ) ^ (Int.log 2 q / 2 - 52) *
        (2 : ℚ) ^ (Int.log 2 q / 2 - 52)))) : ℕ) + 1) * (2 : ℚ) ^ (Int.log 2 q / 2 - 52) := by
  unfold sqrtNearest
  simp only
  split_ifs
  · exact Or.inl rfl
  · exact Or.inr rfl
  · exact Or.inl rfl
  · exact Or.inr rfl

/-- The square root of a value up to `2 ^ 1023` is below the largest finite value. -/
theorem sqrtNearest_lt (q : ℚ) (h0 : 0 ≤ q) (h : q ≤ 2 ^ 1023) : sqrtNearest q < dblMax := by
  have hes : Int.log 2 q / 2 - 52 ≤ 459 := by
    by_cases hq : q = 0
    · subst hq
      simp
    · have := log_le_of_abs_le q 1023 hq (by rw [abs_of_nonneg h0, zpow_ofNat]; exact h)
      rw [abs_of_nonneg h0] at this
      omega
  have hs : (2 : ℚ) ^ (Int.log 2 q / 2 - 52) ≤ (2 : ℚ) ^ (459 : Int) :=
    zpow_le_zpow_right₀ (by norm_num) hes
  rw [zpow_ofNat] at hs
  have hspos : (0 : ℚ) < (2 : ℚ) ^ (Int.log 2 q / 2 - 52) := by positivity
  have hval := sqrtNearest_cases q
  generalize (2 : ℚ) ^ (Int.log 2 q / 2 - 52) = s at hs hspos hval
  have ht0 : 0 ≤ q / (s * s) := div_nonneg h0 (le_of_lt (mul_pos hspos hspos))
  have hn : ((Nat.sqrt (Nat.floor (q / (s * s))) : ℕ) : ℚ) *
      (Nat.sqrt (Nat.floor (q / (s * s))) : ℕ) ≤ q / (s * s) := by
    have h1 : Nat.sqrt (Nat.floor (q / (s * s))) * Nat.sqrt (Nat.floor (q / (s * s))) ≤
        Nat.floor (q / (s * s)) := Nat.sqrt_le _
    have h2 : ((Nat.floor (q / (s * s)) : ℕ) : ℚ) ≤ q / (s * s) := Nat.floor_le ht0
    have h3 : ((Nat.sqrt (Nat.floor (q / (s * s))) * Nat.sqrt (Nat.floor (q / (s * s))) : ℕ) : ℚ)
        ≤ ((Nat.floor (q / (s * s)) : ℕ) : ℚ) := by exact_mod_cast h1
    push_cast at h3
    linarith
  have hn0 : (0 : ℚ) ≤ ((Nat.sqrt (Nat.floor (q / (s * s))) : ℕ) : ℚ) := Nat.cast_nonneg _
  generalize ((Nat.sqrt (Nat.floor (q / (s * s))) : ℕ) : ℚ) = n at hn hval hn0
  have hsq : (n * s) * (n * s) ≤ 2 ^ 1023 := by
    have : n * n * (s * s) ≤ q := by
      rw [le_div_iff₀ (mul_pos hspos hspos)] at hn
      exact hn
    calc (n * s) * (n * s) = n * n * (s * s) := by ring
      _ ≤ q := this
      _ ≤ 2 ^ 1023 := h
  have hns : n * s < 2 ^ 512 := by
    by_contra hc
    push_neg at hc
    have : (2 : ℚ) ^ 512 * 2 ^ 512 ≤ (n * s) * (n * s) :=
      mul_le_mul hc hc (le_of_lt (pow_pos (by norm_num) 512)) (le_trans (le_of_lt (pow_pos (by norm_num) 512)) hc)
    have e : (2 : ℚ) ^ 512 * 2 ^ 512 = 2 * 2 ^ 1023 := by norm_num
    have p : (0 : ℚ) < 2 ^ 1023 := by positivity
    linarith
  have hbig : (2 : ℚ) ^ 512 + 2 ^ 459 < dblMax := by
    unfold dblMax
    norm_num
  rcases hval with e | e
  · rw [e]; linarith [show (0 : ℚ) < 2 ^ 459 by positivity]
  · rw [e]
    have : (n + 1) * s = n * s + s := by ring
    rw [this]
    linarith

theorem sqrtNearest_nonneg (q : ℚ) : 0 ≤ sqrtNearest q := by
  rcases sqrtNearest_cases q with e | e <;> rw [e] <;> positivity

theorem lt_of_lt_of_lt (a b c : Double) (h1 : lt a b = true) (h2 : lt b c = true) :
    lt a c = true := by
  cases a <;> cases b <;> cases c <;> simp_all [lt]
  exact lt_trans h1 h2

theorem le_of_lt_eq_false (a b : Double) (ha : a ≠ nan) (hb : b ≠ nan) (h : lt a b = false) :
    le b a = true := by
  cases a <;> cases b <;> simp_all [lt, le]

theorem lt_le_trans (a b c : Double) (h1 : lt a b = true) (h2 : le b c = true) :
    lt a c = true := by
  cases a <;> cases b <;> cases c <;> simp_all [lt, le]
  exact lt_of_lt_of_le h1 h2

theorem le_of_lt_eq_true (a b : Double) (h : lt a b = true) : le a b = true := by
  cases a <;> cases b <;> simp_all [lt, le]
  exact le_of_lt h

theorem le_self (a : Double) (ha : a ≠ nan) : le a a = true := by
  cases a <;> simp_all [le]

theorem NonNeg.ne_nan {x : Double} (h : NonNeg x) : x ≠ nan := by
  rcases h with h | ⟨v, h, _⟩ <;> rw [h] <;> simp

theorem nonNeg_rnd (q : ℚ) (h : 0 ≤ q) : NonNeg (rnd q) := by
  have h0 := nearest_nonneg q h
  unfold rnd
  split_ifs with h1 h2
  · exact Or.inl rfl
  · exfalso
    have : (0 : ℚ) < 2 ^ 1024 := pow_pos (by norm_num) 1024
    linarith
  · exact Or.inr ⟨_, rfl, h0⟩

theorem nonNeg_mul_self (x : Double) (hx : x ≠ nan) : NonNeg (mul x x) := by
  cases x with
  | nan => exact absurd rfl hx
  | negInf => exact Or.inl rfl
  | posInf => exact Or.inl rfl
  | finite a => exact nonNeg_rnd _ (mul_self_nonneg a)

theorem nonNeg_add (x y : Double) (hx : NonNeg x) (hy : NonNeg y) : NonNeg (add x y) := by
  rcases hx with hx | ⟨a, hx, ha⟩ <;> rcases hy with hy | ⟨b, hy, hb⟩ <;> subst hx <;> subst hy
  · exact Or.inl rfl
  · exact Or.inl rfl
  · exact Or.inl rfl
  · exact nonNeg_rnd _ (add_nonneg ha hb)

theorem nonNeg_sqrt (x : Double) (hx : NonNeg x) : NonNeg (sqrt x) := by
  rcases hx with hx | ⟨a, hx, ha⟩ <;> subst hx
  · exact Or.inl rfl
  · refine Or.inr ⟨sqrtNearest a, ?_, sqrtNearest_nonneg a⟩
    simp [sqrt, not_lt.2 ha]

theorem add_finite (a b : ℚ) : add (finite a) (finite b) = rnd (a + b) := rfl

theorem sub_finite (a b : ℚ) : sub (finite a) (finite b) = rnd (a - b) := rfl

theorem mul_finite (a b : ℚ) : mul (finite a) (finite b) = rnd (a * b) := rfl

theorem sqrt_finite (q : ℚ) (h : 0 ≤ q) : sqrt (finite q) = finite (sqrtNearest q) := by
  simp [sqrt, not_lt.2 h]

theorem lt_finite (a b : ℚ) : lt (finite a) (finite b) = decide (a < b) := rfl

theorem rnd_eq_finite (q : ℚ) (e n : Int) (v : ℚ) (hlo : (2 : ℚ) ^ e ≤ |q|)
    (hhi : |q| < (2 : ℚ) ^ (e + 1)) (he : -1022 ≤ e)
    (hn : |q / 2 ^ (e - 52) - n| < 1 / 2) (hv : (n : ℚ) * 2 ^ (e - 52) = v)
    (h1 : v < 2 ^ 1024) (h2 : -2 ^ 1024 < v) : rnd q = finite v := by
  unfold rnd
  rw [nearest_eq q e n hlo hhi he hn, hv, if_neg (not_le.2 h1), if_neg (not_le.2 h2)]

theorem rnd_eq_finite_of_pos (q : ℚ) (e n : Int) (v : ℚ) (hlo : (2 : ℚ) ^ e ≤ q)
    (hhi : q < (2 : ℚ) ^ (e + 1)) (he : -1022 ≤ e)
    (hn1 : (n : ℚ) - 1 / 2 < q / 2 ^ (e - 52)) (hn2 : q / 2 ^ (e - 52) < n + 1 / 2)
    (hv : (n : ℚ) * 2 ^ (e - 52) = v) (h1 : v < 2 ^ 1024) (h2 : -2 ^ 1024 < v) :
    rnd q = finite v := by
  have hq : 0 < q := lt_of_lt_of_le (by positivity) hlo
  exact rnd_eq_finite q e n v (by rw [abs_of_pos hq]; exact hlo)
    (by rw [abs_of_pos hq]; exact hhi) he (by rw [abs_lt]; constructor <;> linarith) hv h1 h2

theorem rnd_eq_posInf (q : ℚ) (e n : Int) (hlo : (2 : ℚ) ^ e ≤ |q|)
    (hhi : |q| < (2 : ℚ) ^ (e + 1)) (he : -1022 ≤ e)
    (hn : |q / 2 ^ (e - 52) - n| < 1 / 2) (h1 : 2 ^ 1024 ≤ (n : ℚ) * 2 ^ (e - 52)) :
    rnd q = posInf := by
  unfold rnd
  rw [nearest_eq q e n hlo hhi he hn, if_pos h1]

theorem sqrtNearest_eq_floor (q : ℚ) (e : Int) (n : ℕ) (hlo : (2 : ℚ) ^ e ≤ q)
    (hhi : q < (2 : ℚ) ^ (e + 1))
    (h1 : (n : ℚ) * n ≤ q / (2 ^ (e / 2 - 52) * 2 ^ (e / 2 - 52)))
    (h2 : q / (2 ^ (e / 2 - 52) * 2 ^ (e / 2 - 52)) < (n + 1 / 2) * (n + 1 / 2)) :
    sqrtNearest q = n * 2 ^ (e / 2 - 52) := by
  have hq : 0 < q := lt_of_lt_of_le (by positivity) hlo
  have hlog : Int.log 2 q = e := by
    have := log_eq_of_bounds q e (by rw [abs_of_pos hq]; exact hlo)
      (by rw [abs_of_pos hq]; exact hhi)
    rwa [abs_of_pos hq] at this
  unfold sqrtNearest
  simp only [hlog]
  have ht0 : 0 ≤ q / ((2 : ℚ) ^ (e / 2 - 52) * 2 ^ (e / 2 - 52)) := by positivity
  have hs : Nat.sqrt (Nat.floor (q / ((2 : ℚ) ^ (e / 2 - 52) * 2 ^ (e / 2 - 52)))) = n := by
    symm
    apply Nat.eq_sqrt.2
    constructor
    · apply Nat.le_floor
      push_cast
      exact h1
    · apply (Nat.floor_lt ht0).2
      push_cast
      have : ((n : ℚ) + 1 / 2) * (n + 1 / 2) ≤ (n + 1) * (n + 1) := by
        have : (0 : ℚ) ≤ n := Nat.cast_nonneg n
        nlinarith
      linarith
  rw [hs, if_pos h2]

end Double

/-! ## The nearest server in `double` arithmetic -/

namespace Binary64

theorem euclideanDistance_nonNeg (a b : Vector2D Double) (ha : IsPoint a) (hb : IsPoint b) :
    Double.NonNeg (euclideanDistance a b) := by
  obtain ⟨ax, ay, rfl⟩ := ha
  obtain ⟨bx, by', rfl⟩ := hb
  unfold euclideanDistance
  apply Double.nonNeg_sqrt
  apply Double.nonNeg_add
  · exact Double.nonNeg_mul_self _ (Double.rnd_ne_nan _)
  · exact Double.nonNeg_mul_self _ (Double.rnd_ne_nan _)

theorem getCurrentServerForDrone_of_no_polygon
    (containsPoint : List (Vector2D Double) → Vector2D Double → Bool)
    (servers : List (Server Double)) (position : Vector2D Double)
    (hpoly : ∀ s ∈ servers, containsPoint s.polygon position = false) :
    getCurrentServerForDrone containsPoint servers position =
      (nearestScan position servers (Double.finite dblMax, "")).2 := by
  simp [getCurrentServerForDrone, polygonScan_none containsPoint position servers hpoly]

theorem nearestScan_nil (position : Vector2D Double) (acc : Double × String) :
    nearestScan position [] acc = acc := rfl

theorem nearestScan_cons_of_lt (position p : Vector2D Double) (name : String)
    (polygon : List (Vector2D Double)) (rest : List (Server Double)) (d : Double) (n : String)
    (h : Double.lt (euclideanDistance position p) d = true) :
    nearestScan position (⟨name, p, polygon⟩ :: rest) (d, n) =
      nearestScan position rest (euclideanDistance position p, name) := by
  simp [nearestScan, h]

theorem nearestScan_cons_of_not_lt (position p : Vector2D Double) (name : String)
    (polygon : List (Vector2D Double)) (rest : List (Server Double)) (d : Double) (n : String)
    (h : Double.lt (euclideanDistance position p) d = false) :
    nearestScan position (⟨name, p, polygon⟩ :: rest) (d, n) =
      nearestScan position rest (d, n) := by
  simp [nearestScan, h]

/-- The scan either keeps what it was started with, when no server has a computed distance
below the bound it was started with, or ends on the first server of least computed
distance. -/
theorem nearestScan_first_minimum (position : Vector2D Double) :
    ∀ (servers : List (Server Double)) (acc : Double × String), acc.1 ≠ Double.nan →
      (∀ t ∈ servers, euclideanDistance position t.position ≠ Double.nan) →
      ((∀ t ∈ servers, Double.lt (euclideanDistance position t.position) acc.1 = false) ∧
          nearestScan position servers acc = acc) ∨
      (∃ l1 s l2, servers = l1 ++ s :: l2 ∧
          nearestScan position servers acc =
            (euclideanDistance position s.position, s.name) ∧
          Double.lt (euclideanDistance position s.position) acc.1 = true ∧
          (∀ t ∈ l1, Double.lt (euclideanDistance position s.position)
            (euclideanDistance position t.position) = true) ∧
          (∀ t ∈ l2, Double.le (euclideanDistance position s.position)
            (euclideanDistance position t.position) = true)) := by
  intro servers
  induction servers with
  | nil =>
    intro acc _ _
    exact Or.inl ⟨by simp, rfl⟩
  | cons s rest ih =>
    intro acc hacc hnan
    have hs := hnan s (List.mem_cons_self _ _)
    have hrest : ∀ t ∈ rest, euclideanDistance position t.position ≠ Double.nan :=
      fun t ht => hnan t (List.mem_cons_of_mem _ ht)
    by_cases hlt : Double.lt (euclideanDistance position s.position) acc.1 = true
    · have hstep : nearestScan position (s :: rest) acc =
          nearestScan position rest (euclideanDistance position s.position, s.name) := by
        simp [nearestScan, hlt]
      rw [hstep]
      right
      rcases ih (euclideanDistance position s.position, s.name) hs hrest with
        ⟨hall, he⟩ | ⟨l1, s', l2, hl, he, hlt', hbefore, hafter⟩
      · refine ⟨[], s, rest, rfl, he, hlt, by simp, ?_⟩
        intro t ht
        exact Double.le_of_lt_eq_false _ _ (hrest t ht) hs (hall t ht)
      · refine ⟨s :: l1, s', l2, by rw [hl]; rfl, he, Double.lt_of_lt_of_lt _ _ _ hlt' hlt, ?_,
          hafter⟩
        intro t ht
        rcases List.mem_cons.1 ht with rfl | ht'
        · exact hlt'
        · exact hbefore t ht'
    · have hlt' : Double.lt (euclideanDistance position s.position) acc.1 = false := by
        simpa using hlt
      have hstep : nearestScan position (s :: rest) acc = nearestScan position rest acc := by
        simp [nearestScan, hlt']
      rw [hstep]
      have hge : Double.le acc.1 (euclideanDistance position s.position) = true :=
        Double.le_of_lt_eq_false _ _ hs hacc hlt'
      rcases ih acc hacc hrest with ⟨hall, he⟩ | ⟨l1, s', l2, hl, he, hlt2, hbefore, hafter⟩
      · left
        refine ⟨?_, he⟩
        intro t ht
        rcases List.mem_cons.1 ht with rfl | ht'
        · exact hlt'
        · exact hall t ht'
      · right
        refine ⟨s :: l1, s', l2, by rw [hl]; rfl, he, hlt2, ?_, hafter⟩
        intro t ht
        rcases List.mem_cons.1 ht with rfl | ht'
        · exact Double.lt_le_trans _ _ _ hlt2 hge
        · exact hbefore t ht'

/-- Between two points with coordinates up to `2 ^ 500` in absolute value no operation of
`euclideanDistance` overflows: the computed distance is below the largest finite value. -/
theorem euclideanDistance_lt_max (a b : Vector2D Double) (ha : Within (2 ^ 500) a)
    (hb : Within (2 ^ 500) b) :
    Double.lt (euclideanDistance a b) (Double.finite dblMax) = true := by
  obtain ⟨ax, ay, rfl, hax, hay⟩ := ha
  obtain ⟨bx, by', rfl, hbx, hby⟩ := hb
  have hsq : ∀ u v : ℚ, |u| ≤ 2 ^ 500 → |v| ≤ 2 ^ 500 →
      ∃ p : ℚ, Double.mul (Double.sub (Double.finite u) (Double.finite v))
          (Double.sub (Double.finite u) (Double.finite v)) = Double.finite p ∧
        0 ≤ p ∧ p ≤ 2 ^ 1002 := by
    intro u v hu hv
    have h1 : |u - v| ≤ (2 : ℚ) ^ (501 : Int) := by
      rw [zpow_ofNat]
      have := abs_sub u v
      have e : (2 : ℚ) ^ 501 = 2 ^ 500 + 2 ^ 500 := by norm_num
      linarith
    have h2 := Double.nearest_abs_le (u - v) 501 (by norm_num) h1
    have h3 : Double.sub (Double.finite u) (Double.finite v) =
        Double.finite (Double.nearest (u - v)) := by
      apply Double.rnd_of_abs_le
      rw [zpow_ofNat] at h1
      exact le_trans h1 (by norm_num)
    rw [h3]
    have h4 : |Double.nearest (u - v) * Double.nearest (u - v)| ≤ (2 : ℚ) ^ (1002 : Int) := by
      rw [abs_mul, zpow_ofNat]
      rw [zpow_ofNat] at h2
      have := mul_le_mul h2 h2 (abs_nonneg _) (by positivity)
      have e : (2 : ℚ) ^ 501 * 2 ^ 501 = 2 ^ 1002 := by norm_num
      linarith
    have h5 := Double.nearest_abs_le _ 1002 (by norm_num) h4
    refine ⟨Double.nearest (Double.nearest (u - v) * Double.nearest (u - v)), ?_,
      Double.nearest_nonneg _ (mul_self_nonneg _), ?_⟩
    · apply Double.rnd_of_abs_le
      rw [zpow_ofNat] at h4
      exact le_trans h4 (by norm_num)
    · rw [zpow_ofNat] at h5
      exact le_trans (le_abs_self _) h5
  obtain ⟨p, hp, hp0, hp1⟩ := hsq ax bx hax hbx
  obtain ⟨r, hr, hr0, hr1⟩ := hsq ay by' hay hby
  unfold euclideanDistance
  simp only
  rw [hp, hr]
  have h6 : |p + r| ≤ (2 : ℚ) ^ (1003 : Int) := by
    rw [zpow_ofNat, abs_of_nonneg (add_nonneg hp0 hr0)]
    have e : (2 : ℚ) ^ 1003 = 2 ^ 1002 + 2 ^ 1002 := by norm_num
    linarith
  have h7 := Double.nearest_abs_le _ 1003 (by norm_num) h6
  have h8 : Double.add (Double.finite p) (Double.finite r) =
      Double.finite (Double.nearest (p + r)) := by
    apply Double.rnd_of_abs_le
    rw [zpow_ofNat] at h6
    exact le_trans h6 (by norm_num)
  rw [h8]
  have h9 : 0 ≤ Double.nearest (p + r) := Double.nearest_nonneg _ (add_nonneg hp0 hr0)
  have h10 : Double.nearest (p + r) ≤ 2 ^ 1023 := by
    rw [zpow_ofNat] at h7
    exact le_trans (le_trans (le_abs_self _) h7) (by norm_num)
  simp only [Double.sqrt, not_lt.2 h9, if_false, Double.lt, decide_eq_true_eq]
  exact Double.sqrtNearest_lt _ h9 h10

end Binary64

/-- C8, amended: for every server list and query point with finite coordinates, none of the
stored polygons holding the point: when the distance that `euclideanDistance` computes in
`double` arithmetic is below `std::numeric_limits<double>::max()` for some server,
`getCurrentServerForDrone` returns the name of a server whose computed distance is less than
or equal to the computed distance of every server, and every server before it in the list has
a strictly greater computed distance (it is the first of least computed distance); when no
computed distance is below that bound, it returns the empty string; and for a non-empty list
the first case is at hand whenever all coordinates are at most `2 ^ 500` in absolute
value. -/
theorem nearest_server_least_computed_distance
    (containsPoint : List (Vector2D Double) → Vector2D Double → Bool)
    (servers : List (Server Double)) (position : Vector2D Double)
    (hpos : Binary64.IsPoint position) (hsrv : ∀ s ∈ servers, Binary64.IsPoint s.position)
    (hpoly : ∀ s ∈ servers, containsPoint s.polygon position = false) :
    ((∃ s ∈ servers, Double.lt (Binary64.euclideanDistance position s.position)
          (Double.finite dblMax) = true) →
      ∃ l1 s l2, servers = l1 ++ s :: l2 ∧
        Binary64.getCurrentServerForDrone containsPoint servers position = s.name ∧
        (∀ t ∈ servers, Double.le (Binary64.euclideanDistance position s.position)
          (Binary64.euclideanDistance position t.position) = true) ∧
        (∀ t ∈ l1, Double.lt (Binary64.euclideanDistance position s.position)
          (Binary64.euclideanDistance position t.position) = true)) ∧
    ((∀ s ∈ servers, Double.lt (Binary64.euclideanDistance position s.position)
          (Double.finite dblMax) = false) →
      Binary64.getCurrentServerForDrone containsPoint servers position = "") ∧
    (servers ≠ [] → Binary64.Within (2 ^ 500) position →
      (∀ s ∈ servers, Binary64.Within (2 ^ 500) s.position) →
      ∃ s ∈ servers, Double.lt (Binary64.euclideanDistance position s.position)
        (Double.finite dblMax) = true) := by
  have hres := Binary64.getCurrentServerForDrone_of_no_polygon containsPoint servers position
    hpoly
  have hnan : ∀ t ∈ servers, Binary64.euclideanDistance position t.position ≠ Double.nan :=
    fun t ht => (Binary64.euclideanDistance_nonNeg position t.position hpos (hsrv t ht)).ne_nan
  have hspec := Binary64.nearestScan_first_minimum position servers (Double.finite dblMax, "")
    (by simp) hnan
  refine ⟨?_, ?_, ?_⟩
  · intro hbound
    rcases hspec with ⟨hall, _⟩ | ⟨l1, s, l2, hl, he, _, hbefore, hafter⟩
    · obtain ⟨s, hs, hlt⟩ := hbound
      rw [hall s hs] at hlt
      exact absurd hlt (by simp)
    · refine ⟨l1, s, l2, hl, ?_, ?_, hbefore⟩
      · rw [hres, he]
      · intro t ht
        rw [hl] at ht
        have hs : s ∈ servers := by rw [hl]; simp
        rcases List.mem_append.1 ht with h | h
        · exact Double.le_of_lt_eq_true _ _ (hbefore t h)
        · rcases List.mem_cons.1 h with rfl | h'
          · exact Double.le_self _ (hnan _ hs)
          · exact hafter t h'
  · intro hnone
    rcases hspec with ⟨_, he⟩ | ⟨l1, s, l2, hl, _, hlt, _, _⟩
    · rw [hres, he]
    · have hs : s ∈ servers := by rw [hl]; simp
      rw [hnone s hs] at hlt
      exact absurd hlt (by simp)
  · intro hne hp hs
    cases servers with
    | nil => exact absurd rfl hne
    | cons s rest =>
      exact ⟨s, List.mem_cons_self _ _,
        Binary64.euclideanDistance_lt_max position s.position hp (hs s (List.mem_cons_self _ _))⟩

theorem nearest_server_least_computed_distance_witness :
    ∃ l1 s l2, sampleServers = l1 ++ s :: l2 ∧
      Binary64.getCurrentServerForDrone (fun _ _ => false) sampleServers
        ⟨Double.finite 5, Double.finite 5⟩ = s.name ∧
      (∀ t ∈ sampleServers,
        Double.le (Binary64.euclideanDistance ⟨Double.finite 5, Double.finite 5⟩ s.position)
          (Binary64.euclideanDistance ⟨Double.finite 5, Double.finite 5⟩ t.position) = true) ∧
      (∀ t ∈ l1,
        Double.lt (Binary64.euclideanDistance ⟨Double.finite 5, Double.finite 5⟩ s.position)
          (Binary64.euclideanDistance ⟨Double.finite 5, Double.finite 5⟩ t.position) = true) := by
  have hw : ∀ s ∈ sampleServers, Binary64.Within (2 ^ 500) s.position := by
    intro s hs
    simp only [sampleServers, List.mem_cons, List.mem_singleton, List.not_mem_nil,
      or_false] at hs
    rcases hs with rfl | rfl | rfl
    · exact ⟨0, 0, rfl, by norm_num, by norm_num⟩
    · exact ⟨10, 0, rfl, by norm_num, by norm_num⟩
    · exact ⟨10, 10, rfl, by norm_num, by norm_num⟩
  have h := nearest_server_least_computed_distance (fun _ _ => false) sampleServers
    ⟨Double.finite 5, Double.finite 5⟩ ⟨5, 5, rfl⟩
    (fun s hs => by obtain ⟨x, y, e, _, _⟩ := hw s hs; exact ⟨x, y, e⟩) (fun _ _ => rfl)
  exact h.1 (h.2.2 (by simp [sampleServers]) ⟨5, 5, rfl, by norm_num, by norm_num⟩ hw)

/-- C8, as stated, fails. With the single server `s` at the origin and the query point
`(2 ^ 600, 0)` the square of the difference overflows, the computed distance is infinite and
the scan returns the empty string, the name of no server. With the servers `a` at
`(2 ^ 27, 1)` and `b` at `(2 ^ 27, 0)` and the query point at the origin both computed
distances are `2 ^ 27` and the scan returns `a`, although `b` is strictly nearer. -/
theorem nearest_server_overflow_and_rounding :
    Binary64.getCurrentServerForDrone (fun _ _ => false)
        [⟨"s", ⟨Double.finite 0, Double.finite 0⟩, []⟩]
        ⟨Double.finite (2 ^ 600), Double.finite 0⟩ = "" ∧
    Binary64.getCurrentServerForDrone (fun _ _ => false)
        [⟨"a", ⟨Double.finite (2 ^ 27), Double.finite 1⟩, []⟩,
          ⟨"b", ⟨Double.finite (2 ^ 27), Double.finite 0⟩, []⟩]
        ⟨Double.finite 0, Double.finite 0⟩ = "a" ∧
    ((0 : ℚ) - 2 ^ 27) * (0 - 2 ^ 27) + (0 - 0) * (0 - 0) <
      (0 - 2 ^ 27) * (0 - 2 ^ 27) + (0 - 1) * (0 - 1) := by
  have e0 : Double.rnd (0 - 0) = Double.finite 0 := by
    rw [sub_zero, Double.rnd_zero]
  have e1 : Double.rnd (2 ^ 600 - 0) = Double.finite (2 ^ 600) := by
    apply Double.rnd_eq_finite _ 600 (2 ^ 52) <;> norm_num
  have e2 : Double.rnd (2 ^ 600 * 2 ^ 600) = Double.posInf := by
    apply Double.rnd_eq_posInf _ 1200 (2 ^ 52) <;> norm_num
  have e3 : Double.rnd (0 - 2 ^ 27) = Double.finite (-2 ^ 27) := by
    apply Double.rnd_eq_finite _ 27 (-2 ^ 52) <;> norm_num
  have e4 : Double.rnd (-2 ^ 27 * -2 ^ 27) = Double.finite (2 ^ 54) := by
    apply Double.rnd_eq_finite _ 54 (2 ^ 52) <;> norm_num
  have e5 : Double.rnd (0 - 1) = Double.finite (-1) := by
    apply Double.rnd_eq_finite _ 0 (-2 ^ 52) <;> norm_num
  have e6 : Double.rnd (-1 * -1) = Double.finite 1 := by
    apply Double.rnd_eq_finite _ 0 (2 ^ 52) <;> norm_num
  have e7 : Double.rnd (2 ^ 54 + 1) = Double.finite (2 ^ 54) := by
    apply Double.rnd_eq_finite _ 54 (2 ^ 52) <;> norm_num [abs_lt]
  have e8 : Double.rnd (2 ^ 54 + 0) = Double.finite (2 ^ 54) := by
    apply Double.rnd_eq_finite _ 54 (2 ^ 52) <;> norm_num
  have e9 : Double.rnd (0 * 0) = Double.finite 0 := by
    rw [mul_zero, Double.rnd_zero]
  have e10 : Double.sqrtNearest (2 ^ 54) = 2 ^ 27 := by
    rw [Double.sqrtNearest_eq_floor _ 54 (2 ^ 52) (by norm_num) (by norm_num) (by norm_num)
      (by norm_num)]
    norm_num
  have e11 : Double.add Double.posInf (Double.finite 0) = Double.posInf := rfl
  have e12 : Double.sqrt Double.posInf = Double.posInf := rfl
  have e13 : Double.lt Double.posInf (Double.finite dblMax) = false := rfl
  have d1 : Binary64.euclideanDistance ⟨Double.finite (2 ^ 600), Double.finite 0⟩
      ⟨Double.finite 0, Double.finite 0⟩ = Double.posInf := by
    simp only [Binary64.euclideanDistance, Double.sub_finite, Double.mul_finite, e0, e1, e2,
      e9, e11, e12]
  have d2 : Binary64.euclideanDistance ⟨Double.finite 0, Double.finite 0⟩
      ⟨Double.finite (2 ^ 27), Double.finite 1⟩ = Double.finite (2 ^ 27) := by
    simp only [Binary64.euclideanDistance, Double.sub_finite, Double.mul_finite,
      Double.add_finite, e3, e4, e5, e6, e7]
    rw [Double.sqrt_finite _ (by norm_num), e10]
  have d3 : Binary64.euclideanDistance ⟨Double.finite 0, Double.finite 0⟩
      ⟨Double.finite (2 ^ 27), Double.finite 0⟩ = Double.finite (2 ^ 27) := by
    simp only [Binary64.euclideanDistance, Double.sub_finite, Double.mul_finite,
      Double.add_finite, e0, e3, e4, e8, e9]
    rw [Double.sqrt_finite _ (by norm_num), e10]
  have hlt : Double.lt (Double.finite (2 ^ 27)) (Double.finite dblMax) = true := by
    rw [Double.lt_finite, decide_eq_true_eq]
    norm_num [dblMax]
  have hnlt : Double.lt (Double.finite (2 ^ 27)) (Double.finite (2 ^ 27)) = false := by
    rw [Double.lt_finite, decide_eq_false_iff_not]
    norm_num
  refine ⟨?_, ?_, by norm_num⟩
  · rw [Binary64.getCurrentServerForDrone_of_no_polygon _ _ _ (by simp),
      Binary64.nearestScan_cons_of_not_lt _ _ _ _ _ _ _ (by rw [d1]; rfl),
      Binary64.nearestScan_nil]
  · rw [Binary64.getCurrentServerForDrone_of_no_polygon _ _ _ (by simp),
      Binary64.nearestScan_cons_of_lt _ _ _ _ _ _ _ (by rw [d2]; exact hlt),
      Binary64.nearestScan_cons_of_not_lt _ _ _ _ _ _ _ (by rw [d2, d3]; exact hnlt),
      Binary64.nearestScan_nil]

/-! ## The landing spot in `double` arithmetic -/

namespace Double

theorem toInt_finite (q : ℚ) (m : Int) (h0 : 0 ≤ q) (hm : Int.floor q = m)
    (h1 : m ≤ 2147483647) : toInt (finite q) = some m := by
  have hm0 : 0 ≤ m := by rw [← hm]; exact Int.floor_nonneg.2 h0
  simp only [toInt, if_pos h0, hm]
  rw [if_pos ⟨by omega, h1⟩]

end Double

namespace Binary64

theorem degree_eq : degree = Double.finite (5030569068109113 / 2 ^ 58) := by
  unfold degree
  apply Double.rnd_eq_finite_of_pos _ (-6) 5030569068109113 <;> norm_num

theorem landingCandidate_eq (L : Libm) (sx sy radius : Double) (a b : Nat) (m : Int)
    (hm : Double.toInt (Double.sub radius (Double.finite 50)) = some m) (h0 : m ≠ 0) :
    landingCandidate L ⟨sx, sy⟩ radius a b =
      some ⟨Double.add sx
          (Double.mul (Double.finite ((wrapInt32 (Int.tmod (b : Int) m + 50) : Int) : ℚ))
            (L.cos (Double.mul (Double.finite ((a % 360 : Nat) : ℚ)) degree))),
        Double.add sy
          (Double.mul (Double.finite ((wrapInt32 (Int.tmod (b : Int) m + 50) : Int) : ℚ))
            (L.sin (Double.mul (Double.finite ((a % 360 : Nat) : ℚ)) degree)))⟩ := by
  unfold landingCandidate
  rw [hm]
  simp only [if_neg h0, add]

theorem findLandingSpotLoop_succ_of_free (L : Libm) (serverPos : Vector2D Double)
    (radius : Double) (rounds : Nat) (used : List (Vector2D Double)) (rng : RandState)
    (v : Vector2D Double)
    (hv : landingCandidate L serverPos radius (rand rng).1 (rand (rand rng).2).1 = some v)
    (hfree : occupied v used = false) :
    findLandingSpotLoop L serverPos radius (rounds + 1) used rng =
      some ⟨v, used ++ [v], (rand (rand rng).2).2⟩ := by
  simp only [findLandingSpotLoop, hv, hfree]
  simp

theorem findLandingSpotLoop_succ_of_occupied (L : Libm) (serverPos : Vector2D Double)
    (radius : Double) (rounds : Nat) (used : List (Vector2D Double)) (rng : RandState)
    (v : Vector2D Double)
    (hv : landingCandidate L serverPos radius (rand rng).1 (rand (rand rng).2).1 = some v)
    (hocc : occupied v used = true) :
    findLandingSpotLoop L serverPos radius (rounds + 1) used rng =
      findLandingSpotLoop L serverPos radius rounds used (rand (rand rng).2).2 := by
  simp only [findLandingSpotLoop, hv, hocc]
  simp

/-- When every pair of results of `rand()` yields a candidate, the loop returns the server
position or one of the candidates. -/
theorem findLandingSpotLoop_spot (L : Libm) (serverPos : Vector2D Double) (radius : Double)
    (used : List (Vector2D Double))
    (hcand : ∀ a b, ∃ v, landingCandidate L serverPos radius a b = some v) :
    ∀ (rounds : Nat) (rng : RandState), ∃ res,
      findLandingSpotLoop L serverPos radius rounds used rng = some res ∧
      (res.spot = serverPos ∨ ∃ a b, landingCandidate L serverPos radius a b = some res.spot) := by
  intro rounds
  induction rounds with
  | zero =>
    intro rng
    exact ⟨⟨serverPos, used, rng⟩, rfl, Or.inl rfl⟩
  | succ rounds ih =>
    intro rng
    obtain ⟨v, hv⟩ := hcand (rand rng).1 (rand (rand rng).2).1
    by_cases hocc : occupied v used = true
    · rw [findLandingSpotLoop_succ_of_occupied L serverPos radius rounds used rng v hv hocc]
      exact ih _
    · have hfree : occupied v used = false := by simpa using hocc
      rw [findLandingSpotLoop_succ_of_free L serverPos radius rounds used rng v hv hfree]
      exact ⟨_, rfl, Or.inr ⟨_, _, hv⟩⟩

end Binary64

theorem abs_le_of_mul_self_le (c k : ℚ) (hk : 0 ≤ k) (h : c * c ≤ k * k) : |c| ≤ k := by
  by_contra hc
  push_neg at hc
  have h1 : k * k < |c| * |c| := mul_self_lt_mul_self hk hc
  rw [abs_mul_abs_self] at h1
  linarith

/-- The accumulated rounding error of one coordinate of a landing spot. -/
theorem coordinate_error (M sx r c xo px : ℚ) (hM : 50 ≤ M) (hsx : |sx| ≤ M) (hr0 : 0 ≤ r)
    (hrM : r ≤ M) (hc : |c| ≤ 1 + 1 / 2 ^ 50)
    (hxo : |xo - r * c| ≤ |r * c| / 2 ^ 53 + 1 / 2 ^ 1075)
    (hpx : |px - (sx + xo)| ≤ |sx + xo| / 2 ^ 53 + 1 / 2 ^ 1075) :
    |px - sx - r * c| ≤ M * 13 / 2 ^ 55 := by
  have hrc : |r * c| ≤ M * (1 + 1 / 2 ^ 50) := by
    rw [abs_mul, abs_of_nonneg hr0]
    exact mul_le_mul hrM hc (abs_nonneg c) (by linarith)
  have hxo' : |xo| ≤ |r * c| + |xo - r * c| := by
    have := abs_add (r * c) (xo - r * c)
    rwa [show r * c + (xo - r * c) = xo by ring] at this
  have hsxo : |sx + xo| ≤ |sx| + |xo| := abs_add sx xo
  have htri : |px - sx - r * c| ≤ |px - (sx + xo)| + |xo - r * c| := by
    have := abs_add (px - (sx + xo)) (xo - r * c)
    rwa [show px - (sx + xo) + (xo - r * c) = px - sx - r * c by ring] at this
  have e1 : (1 : ℚ) / 2 ^ 1075 ≤ 1 / 2 ^ 100 := by norm_num
  have e2 : |sx + xo| / 2 ^ 53 ≤ (|sx| + |xo|) / 2 ^ 53 :=
    div_le_div_of_nonneg_right hsxo (by positivity)
  norm_num at hrc hxo hpx e1 e2 ⊢
  linarith

/-- The squared distance of a point `(r * c + ex, r * s + ey)` from the origin, for `(c, s)`
near the unit circle and small `ex` and `ey`. -/
theorem annulus_of_errors (M r c s ex ey : ℚ) (hM : M ≤ 2 ^ 31) (hr50 : 50 ≤ r)
    (hrM : r ≤ M) (hcs : |c * c + s * s - 1| ≤ 1 / 2 ^ 50)
    (hex : |ex| ≤ M * 13 / 2 ^ 55) (hey : |ey| ≤ M * 13 / 2 ^ 55) :
    (r - M / 2 ^ 49) ^ 2 ≤ (r * c + ex) ^ 2 + (r * s + ey) ^ 2 ∧
      (r * c + ex) ^ 2 + (r * s + ey) ^ 2 ≤ (r + M / 2 ^ 49) ^ 2 := by
  have hM0 : 0 ≤ M := by linarith
  have hr0 : 0 ≤ r := by linarith
  rw [abs_le] at hcs
  have hk0 : (0 : ℚ) ≤ 1 + 1 / 2 ^ 50 := by norm_num
  have hck : c * c ≤ (1 + 1 / 2 ^ 50) * (1 + 1 / 2 ^ 50) := by
    have : 0 ≤ s * s := mul_self_nonneg s
    have e : (1 : ℚ) + 1 / 2 ^ 50 ≤ (1 + 1 / 2 ^ 50) * (1 + 1 / 2 ^ 50) := by norm_num
    linarith
  have hsk : s * s ≤ (1 + 1 / 2 ^ 50) * (1 + 1 / 2 ^ 50) := by
    have : 0 ≤ c * c := mul_self_nonneg c
    have e : (1 : ℚ) + 1 / 2 ^ 50 ≤ (1 + 1 / 2 ^ 50) * (1 + 1 / 2 ^ 50) := by norm_num
    linarith
  have hc := abs_le_of_mul_self_le c _ hk0 hck
  have hs := abs_le_of_mul_self_le s _ hk0 hsk
  have hd0 : (0 : ℚ) ≤ M * 13 / 2 ^ 55 := by positivity
  -- the cross terms
  have hcx : |c * ex| ≤ (1 + 1 / 2 ^ 50) * (M * 13 / 2 ^ 55) := by
    rw [abs_mul]
    exact mul_le_mul hc hex (abs_nonneg ex) hk0
  have hsy : |s * ey| ≤ (1 + 1 / 2 ^ 50) * (M * 13 / 2 ^ 55) := by
    rw [abs_mul]
    exact mul_le_mul hs hey (abs_nonneg ey) hk0
  rw [abs_le] at hcx hsy
  have hxx : ex * ex ≤ (M * 13 / 2 ^ 55) * (M * 13 / 2 ^ 55) := by
    rw [← abs_mul_abs_self ex]
    exact mul_le_mul hex hex (abs_nonneg ex) hd0
  have hyy : ey * ey ≤ (M * 13 / 2 ^ 55) * (M * 13 / 2 ^ 55) := by
    rw [← abs_mul_abs_self ey]
    exact mul_le_mul hey hey (abs_nonneg ey) hd0
  have hxx0 : 0 ≤ ex * ex := mul_self_nonneg ex
  have hyy0 : 0 ≤ ey * ey := mul_self_nonneg ey
  -- products of r and M
  have hrr : r * r ≤ r * M := mul_le_mul_of_nonneg_left hrM hr0
  have hrM50 : 50 * M ≤ r * M := mul_le_mul_of_nonneg_right hr50 hM0
  have hMM : M * M ≤ 2 ^ 31 * M := mul_le_mul_of_nonneg_right hM hM0
  have hrr0 : 0 ≤ r * r := mul_self_nonneg r
  -- the three parts of the squared distance
  have hmain : (r * c + ex) ^ 2 + (r * s + ey) ^ 2 =
      r * r * (c * c + s * s) + 2 * (r * (c * ex)) + 2 * (r * (s * ey)) + ex * ex + ey * ey := by
    ring
  have h1 : r * r * (1 - 1 / 2 ^ 50) ≤ r * r * (c * c + s * s) :=
    mul_le_mul_of_nonneg_left (by linarith) hrr0
  have h2 : r * r * (c * c + s * s) ≤ r * r * (1 + 1 / 2 ^ 50) :=
    mul_le_mul_of_nonneg_left (by linarith) hrr0
  have h3 : -(r * ((1 + 1 / 2 ^ 50) * (M * 13 / 2 ^ 55))) ≤ r * (c * ex) := by
    have := mul_le_mul_of_nonneg_left hcx.1 hr0
    linarith
  have h4 : r * (c * ex) ≤ r * ((1 + 1 / 2 ^ 50) * (M * 13 / 2 ^ 55)) :=
    mul_le_mul_of_nonneg_left hcx.2 hr0
  have h5 : -(r * ((1 + 1 / 2 ^ 50) * (M * 13 / 2 ^ 55))) ≤ r * (s * ey) := by
    have := mul_le_mul_of_nonneg_left hsy.1 hr0
    linarith
  have h6 : r * (s * ey) ≤ r * ((1 + 1 / 2 ^ 50) * (M * 13 / 2 ^ 55)) :=
    mul_le_mul_of_nonneg_left hsy.2 hr0
  have e3 : r * ((1 + 1 / 2 ^ 50) * (M * 13 / 2 ^ 55)) = (r * M) * ((1 + 1 / 2 ^ 50) * 13 / 2 ^ 55) := by
    ring
  have e4 : (M * 13 / 2 ^ 55) * (M * 13 / 2 ^ 55) = (M * M) * (169 / 2 ^ 110) := by ring
  have e5 : (r - M / 2 ^ 49) ^ 2 = r * r - (r * M) * (2 / 2 ^ 49) + (M * M) * (1 / 2 ^ 98) := by
    ring
  have e6 : (r + M / 2 ^ 49) ^ 2 = r * r + (r * M) * (2 / 2 ^ 49) + (M * M) * (1 / 2 ^ 98) := by
    ring
  have e7 : r * r * (1 - 1 / 2 ^ 50) = r * r - (r * r) * (1 / 2 ^ 50) := by ring
  have e8 : r * r * (1 + 1 / 2 ^ 50) = r * r + (r * r) * (1 / 2 ^ 50) := by ring
  have hMM0 : 0 ≤ M * M := mul_self_nonneg M
  rw [hmain, e5, e6]
  rw [e3] at h3 h4 h5 h6
  rw [e4] at hxx hyy
  rw [e7] at h1
  rw [e8] at h2
  generalize r * M = P at *
  generalize M * M = Q at *
  generalize r * r = S at *
  generalize r * (c * ex) = X at *
  generalize r * (s * ey) = Y at *
  generalize S * (c * c + s * s) = Z at *
  norm_num at h1 h2 h3 h4 h5 h6 hxx hyy ⊢
  constructor <;> linarith

theorem abs_le_of_near_circle (c s : ℚ) (hcs : |c * c + s * s - 1| ≤ 1 / 2 ^ 50) :
    |c| ≤ 1 + 1 / 2 ^ 50 ∧ |s| ≤ 1 + 1 / 2 ^ 50 := by
  rw [abs_le] at hcs
  have hk0 : (0 : ℚ) ≤ 1 + 1 / 2 ^ 50 := by norm_num
  have e : (1 : ℚ) + 1 / 2 ^ 50 ≤ (1 + 1 / 2 ^ 50) * (1 + 1 / 2 ^ 50) := by norm_num
  have h1 : 0 ≤ s * s := mul_self_nonneg s
  have h2 : 0 ≤ c * c := mul_self_nonneg c
  exact ⟨abs_le_of_mul_self_le c _ hk0 (by linarith), abs_le_of_mul_self_le s _ hk0 (by linarith)⟩

namespace Binary64

/-- The divisor `int(radius - 50)` for a radius between 51 and `2 ^ 31`: it is at least 1 and
at most `radius - 50` up to the rounding of the difference. -/
theorem toInt_radius (R : ℚ) (hR : 51 ≤ R) (hR31 : R ≤ 2 ^ 31) :
    ∃ m : Int, Double.toInt (Double.sub (Double.finite R) (Double.finite 50)) = some m ∧
      1 ≤ m ∧ (m : ℚ) ≤ R - 50 + (R - 50) / 2 ^ 53 + 1 / 2 ^ 1075 ∧ m ≤ 2147483598 := by
  have habs : |R - 50| = R - 50 := abs_of_nonneg (by linarith)
  have hfin : Double.sub (Double.finite R) (Double.finite 50) =
      Double.finite (Double.nearest (R - 50)) := by
    rw [Double.sub_finite]
    apply Double.rnd_of_abs_le
    rw [habs]
    have : (2 : ℚ) ^ 31 ≤ 2 ^ 1023 := by norm_num
    linarith
  have h1 : (1 : ℚ) ≤ Double.nearest (R - 50) := by
    have := Double.le_nearest (R - 50) 0 (by norm_num) (by rw [zpow_zero]; linarith)
    rwa [zpow_zero] at this
  have herr := Double.nearest_error (R - 50)
  rw [habs, abs_le] at herr
  have hfl : (Int.floor (Double.nearest (R - 50)) : ℚ) ≤ Double.nearest (R - 50) :=
    Int.floor_le _
  have hup : Double.nearest (R - 50) ≤ R - 50 + (R - 50) / 2 ^ 53 + 1 / 2 ^ 1075 := by
    linarith [herr.2]
  have hm1 : (1 : Int) ≤ Int.floor (Double.nearest (R - 50)) := Int.le_floor.2 (by simpa using h1)
  have hlt : (Int.floor (Double.nearest (R - 50)) : ℚ) < ((2147483599 : Int) : ℚ) := by
    have e1 : (R - 50) / 2 ^ 53 ≤ (2 ^ 31 - 50) / 2 ^ 53 :=
      div_le_div_of_nonneg_right (by linarith) (by positivity)
    have e2 : ((2 : ℚ) ^ 31 - 50) / 2 ^ 53 + 1 / 2 ^ 1075 < 1 := by norm_num
    have e3 : (((2147483599 : Int) : ℚ)) = 2 ^ 31 - 49 := by norm_num
    rw [e3]
    linarith
  have hm2 : Int.floor (Double.nearest (R - 50)) < 2147483599 := by exact_mod_cast hlt
  refine ⟨Int.floor (Double.nearest (R - 50)), ?_, hm1, le_trans hfl hup, by omega⟩
  rw [hfin]
  exact Double.toInt_finite _ _ (by linarith) rfl (by omega)

/-- The angle of a candidate is finite. -/
theorem angle_finite (a : Nat) :
    ∃ t : ℚ, Double.mul (Double.finite ((a % 360 : Nat) : ℚ)) degree = Double.finite t := by
  rw [degree_eq, Double.mul_finite]
  refine ⟨_, Double.rnd_of_abs_le _ ?_⟩
  have h1 : ((a % 360 : Nat) : ℚ) ≤ 360 := by
    have : a % 360 < 360 := Nat.mod_lt _ (by norm_num)
    exact_mod_cast le_of_lt this
  have h0 : (0 : ℚ) ≤ ((a % 360 : Nat) : ℚ) := Nat.cast_nonneg _
  rw [abs_of_nonneg (by positivity)]
  have e : (360 : ℚ) * (5030569068109113 / 2 ^ 58) ≤ 2 ^ 1023 := by norm_num
  have : ((a % 360 : Nat) : ℚ) * (5030569068109113 / 2 ^ 58) ≤
      360 * (5030569068109113 / 2 ^ 58) :=
    mul_le_mul_of_nonneg_right h1 (by positivity)
  linarith

/-- One coordinate of a candidate: the sum and the product are finite, and the result is the
exact sum up to the error of `coordinate_error`. -/
theorem coordinate_finite (M sx r c : ℚ) (hM50 : 50 ≤ M) (hM : M ≤ 2 ^ 31) (hsx : |sx| ≤ M)
    (hr0 : 0 ≤ r) (hrM : r ≤ M) (hc : |c| ≤ 1 + 1 / 2 ^ 50) :
    ∃ px : ℚ, Double.add (Double.finite sx) (Double.mul (Double.finite r) (Double.finite c)) =
        Double.finite px ∧ |px - sx - r * c| ≤ M * 13 / 2 ^ 55 := by
  have hrc : |r * c| ≤ 2 ^ 32 := by
    rw [abs_mul, abs_of_nonneg hr0]
    have := mul_le_mul hrM hc (abs_nonneg c) (by linarith)
    have e : M * (1 + 1 / 2 ^ 50) ≤ 2 ^ 31 * (1 + 1 / 2 ^ 50) :=
      mul_le_mul_of_nonneg_right hM (by norm_num)
    have e2 : (2 : ℚ) ^ 31 * (1 + 1 / 2 ^ 50) ≤ 2 ^ 32 := by norm_num
    linarith
  have hmul : Double.mul (Double.finite r) (Double.finite c) =
      Double.finite (Double.nearest (r * c)) := by
    rw [Double.mul_finite]
    exact Double.rnd_of_abs_le _ (le_trans hrc (by norm_num))
  have hxo := Double.nearest_error (r * c)
  have hxo32 : |Double.nearest (r * c)| ≤ 2 ^ 32 := by
    have := Double.nearest_abs_le (r * c) 32 (by norm_num) (by rw [zpow_ofNat]; exact hrc)
    rwa [zpow_ofNat] at this
  have hsum : |sx + Double.nearest (r * c)| ≤ 2 ^ 1023 := by
    have := abs_add sx (Double.nearest (r * c))
    have e : (2 : ℚ) ^ 31 + 2 ^ 32 ≤ 2 ^ 1023 := by norm_num
    linarith
  have hadd : Double.add (Double.finite sx) (Double.finite (Double.nearest (r * c))) =
      Double.finite (Double.nearest (sx + Double.nearest (r * c))) := by
    rw [Double.add_finite]
    exact Double.rnd_of_abs_le _ hsum
  have hpx := Double.nearest_error (sx + Double.nearest (r * c))
  refine ⟨Double.nearest (sx + Double.nearest (r * c)), by rw [hmul, hadd], ?_⟩
  exact coordinate_error M sx r c _ _ hM50 hsx hr0 hrM hc hxo hpx

/-- Every candidate has finite coordinates and lies between `50 - M / 2 ^ 49` and `R` from
the server. -/
theorem landingCandidate_in_annulus (L : Libm)
    (hL : ∀ t : ℚ, ∃ c s : ℚ, L.cos (Double.finite t) = Double.finite c ∧
      L.sin (Double.finite t) = Double.finite s ∧ |c * c + s * s - 1| ≤ 1 / 2 ^ 50)
    (sx sy R M : ℚ) (hsx : |sx| ≤ M) (hsy : |sy| ≤ M) (hR : 51 ≤ R) (hRM : R ≤ M)
    (hM : M ≤ 2 ^ 31) (a b : Nat) :
    ∃ px py : ℚ, landingCandidate L ⟨Double.finite sx, Double.finite sy⟩ (Double.finite R) a b =
        some ⟨Double.finite px, Double.finite py⟩ ∧
      (50 - M / 2 ^ 49) ^ 2 ≤ (px - sx) ^ 2 + (py - sy) ^ 2 ∧
      (px - sx) ^ 2 + (py - sy) ^ 2 ≤ R ^ 2 := by
  obtain ⟨m, hm, hm1, hmR, hm31⟩ := toInt_radius R hR (le_trans hRM hM)
  have hmod0 : 0 ≤ Int.tmod (b : Int) m := Int.tmod_nonneg _ (Int.ofNat_nonneg b)
  have hmodlt : Int.tmod (b : Int) m < m := Int.tmod_lt_of_pos _ (by omega)
  have hwrap : wrapInt32 (Int.tmod (b : Int) m + 50) = Int.tmod (b : Int) m + 50 :=
    wrapInt32_of_fits _ (by omega) (by omega)
  have hr50 : (50 : ℚ) ≤ ((Int.tmod (b : Int) m + 50 : Int) : ℚ) := by
    have : (50 : Int) ≤ Int.tmod (b : Int) m + 50 := by omega
    exact_mod_cast this
  have hrm : ((Int.tmod (b : Int) m + 50 : Int) : ℚ) ≤ (m : ℚ) + 49 := by
    have : Int.tmod (b : Int) m + 50 ≤ m + 49 := by omega
    exact_mod_cast this
  have hsmall : (R - 50) / 2 ^ 53 + 1 / 2 ^ 1075 + M / 2 ^ 49 ≤ 1 := by
    have e1 : (R - 50) / 2 ^ 53 ≤ (2 ^ 31 - 50) / 2 ^ 53 :=
      div_le_div_of_nonneg_right (by linarith) (by positivity)
    have e2 : M / 2 ^ 49 ≤ 2 ^ 31 / 2 ^ 49 := div_le_div_of_nonneg_right hM (by positivity)
    have e3 : ((2 : ℚ) ^ 31 - 50) / 2 ^ 53 + 1 / 2 ^ 1075 + 2 ^ 31 / 2 ^ 49 ≤ 1 := by norm_num
    linarith
  have hM0 : 0 ≤ M / 2 ^ 49 := by
    have : (0 : ℚ) ≤ M := by linarith
    positivity
  rw [landingCandidate_eq L _ _ _ a b m hm (by omega), hwrap]
  generalize ((Int.tmod (b : Int) m + 50 : Int) : ℚ) = r at hr50 hrm
  have hrM : r ≤ M := by linarith
  obtain ⟨t, ht⟩ := angle_finite a
  obtain ⟨c, s, hcos, hsin, hcs⟩ := hL t
  obtain ⟨hc, hs⟩ := abs_le_of_near_circle c s hcs
  rw [ht, hcos, hsin]
  obtain ⟨px, hpx, hex⟩ := coordinate_finite M sx r c (by linarith) hM hsx (by linarith) hrM hc
  obtain ⟨py, hpy, hey⟩ := coordinate_finite M sy r s (by linarith) hM hsy (by linarith) hrM hs
  refine ⟨px, py, by rw [hpx, hpy], ?_⟩
  have hann := annulus_of_errors M r c s (px - sx - r * c) (py - sy - r * s) hM hr50 hrM hcs
    hex hey
  rw [show r * c + (px - sx - r * c) = px - sx by ring,
    show r * s + (py - sy - r * s) = py - sy by ring] at hann
  have e31 : M / 2 ^ 49 ≤ 1 := by
    have e1 : (0 : ℚ) ≤ (R - 50) / 2 ^ 53 := div_nonneg (by linarith) (by positivity)
    have e2 : (0 : ℚ) ≤ 1 / 2 ^ 1075 := by positivity
    linarith
  constructor
  · have h1 : (50 - M / 2 ^ 49) ^ 2 ≤ (r - M / 2 ^ 49) ^ 2 :=
      pow_le_pow_left₀ (by linarith) (by linarith) 2
    exact le_trans h1 hann.1
  · have h2 : (r + M / 2 ^ 49) ^ 2 ≤ R ^ 2 :=
      pow_le_pow_left₀ (by linarith) (by linarith) 2
    exact le_trans hann.2 h2

end Binary64

/-- C9, amended: in `double` arithmetic, with `cos` and `sin` returning finite values within
`2 ^ -50` of the unit circle (`|c * c + s * s - 1| ≤ 2 ^ -50`), for every server position
with coordinates of absolute value at most `M`, every radius `R` with `51 ≤ R ≤ M`, where
`M ≤ 2 ^ 31`, every registry and every state of the random source, `findLandingSpot(serverPos,
R)` returns a point with finite coordinates that is either `serverPos` itself or lies at a
distance of at least `50 - M / 2 ^ 49` from `serverPos`, and in either case at a distance of
at most `R`; so within 90 for the landing radius 90. -/
theorem findLandingSpot_near_annulus (L : Binary64.Libm)
    (hL : ∀ t : ℚ, ∃ c s : ℚ, L.cos (Double.finite t) = Double.finite c ∧
      L.sin (Double.finite t) = Double.finite s ∧ |c * c + s * s - 1| ≤ 1 / 2 ^ 50)
    (sx sy R M : ℚ) (hsx : |sx| ≤ M) (hsy : |sy| ≤ M) (hR : 51 ≤ R) (hRM : R ≤ M)
    (hM : M ≤ 2 ^ 31) (used : List (Vector2D Double)) (rng : RandState) :
    ∃ res px py, Binary64.findLandingSpot L ⟨Double.finite sx, Double.finite sy⟩
        (Double.finite R) used rng = some res ∧
      res.spot = ⟨Double.finite px, Double.finite py⟩ ∧
      ((px = sx ∧ py = sy) ∨ (50 - M / 2 ^ 49) ^ 2 ≤ (px - sx) ^ 2 + (py - sy) ^ 2) ∧
      (px - sx) ^ 2 + (py - sy) ^ 2 ≤ R ^ 2 := by
  have hcand : ∀ a b, ∃ v, Binary64.landingCandidate L ⟨Double.finite sx, Double.finite sy⟩
      (Double.finite R) a b = some v := by
    intro a b
    obtain ⟨px, py, h, _⟩ :=
      Binary64.landingCandidate_in_annulus L hL sx sy R M hsx hsy hR hRM hM a b
    exact ⟨_, h⟩
  obtain ⟨res, hres, hspot⟩ := Binary64.findLandingSpotLoop_spot L
    ⟨Double.finite sx, Double.finite sy⟩ (Double.finite R) used hcand 10 rng
  rcases hspot with h | ⟨a, b, h⟩
  · refine ⟨res, sx, sy, hres, h, Or.inl ⟨rfl, rfl⟩, ?_⟩
    have : (0 : ℚ) ≤ R ^ 2 := by positivity
    simpa using this
  · obtain ⟨px, py, h', hlo, hhi⟩ :=
      Binary64.landingCandidate_in_annulus L hL sx sy R M hsx hsy hR hRM hM a b
    rw [h] at h'
    exact ⟨res, px, py, hres, Option.some.inj h', Or.inr hlo, hhi⟩

theorem findLandingSpot_near_annulus_witness :
    ∃ res px py, Binary64.findLandingSpot Binary64.libm ⟨Double.finite 1000, Double.finite 0⟩
        (Double.finite 90) [] (fun n => 1 - n) = some res ∧
      res.spot = ⟨Double.finite px, Double.finite py⟩ ∧
      ((px = 1000 ∧ py = 0) ∨
        (50 - (1000 : ℚ) / 2 ^ 49) ^ 2 ≤ (px - 1000) ^ 2 + (py - 0) ^ 2) ∧
      (px - 1000) ^ 2 + (py - 0) ^ 2 ≤ (90 : ℚ) ^ 2 :=
  findLandingSpot_near_annulus Binary64.libm
    (by
      intro t
      by_cases h : Double.finite t = Double.finite (5030569068109113 / 2 ^ 58)
      · exact ⟨4502913707333573 / 2 ^ 52, 2515156836085391 / 2 ^ 57, by simp [Binary64.libm, h],
          by simp [Binary64.libm, h], by norm_num [abs_le]⟩
      · exact ⟨1, 0, by simp [Binary64.libm, h], by simp [Binary64.libm, h], by norm_num⟩)
    1000 0 90 1000 (by norm_num) (by norm_num) (by norm_num) (by norm_num) (by norm_num) []
    (fun n => 1 - n)

namespace Binary64

theorem occupied_nil (v : Vector2D Double) : occupied v [] = false := rfl

theorem libm_cos_degree : libm.cos (Double.finite (5030569068109113 / 2 ^ 58)) =
    Double.finite (4502913707333573 / 2 ^ 52) := by
  simp [libm]

theorem libm_sin_degree : libm.sin (Double.finite (5030569068109113 / 2 ^ 58)) =
    Double.finite (2515156836085391 / 2 ^ 57) := by
  simp [libm]

end Binary64

/-- C9, as stated, fails. For the server at `(1000, 0)`, the radius 90, the empty registry
and the results 1 and 0 of `rand()` (an angle of one degree and the radius 50), in `double`
arithmetic with the cosine and the sine that the C library returns, `findLandingSpot` returns
the point `(4617915344469897 / 2 ^ 42, 7859865112766847 / 2 ^ 53)`, about
`(1049.9923847578195, 0.8726203218641756)`. It is not the server position, and the square of
its distance from the server is below `50 * 50`. -/
theorem landing_spot_nearer_than_50 :
    ∃ res, Binary64.findLandingSpot Binary64.libm ⟨Double.finite 1000, Double.finite 0⟩
        (Double.finite 90) [] (fun n => 1 - n) = some res ∧
      res.spot = ⟨Double.finite (4617915344469897 / 2 ^ 42),
        Double.finite (7859865112766847 / 2 ^ 53)⟩ ∧
      res.spot ≠ ⟨Double.finite 1000, Double.finite 0⟩ ∧
      ((4617915344469897 : ℚ) / 2 ^ 42 - 1000) * (4617915344469897 / 2 ^ 42 - 1000) +
        (7859865112766847 / 2 ^ 53 - 0) * (7859865112766847 / 2 ^ 53 - 0) < 50 * 50 := by
  have h40 : Double.sub (Double.finite 90) (Double.finite 50) = Double.finite 40 := by
    rw [Double.sub_finite]
    apply Double.rnd_eq_finite_of_pos _ 5 5629499534213120 <;> norm_num
  have hint : Double.toInt (Double.sub (Double.finite 90) (Double.finite 50)) = some 40 := by
    rw [h40]
    exact Double.toInt_finite 40 40 (by norm_num)
      (by rw [show (40 : ℚ) = ((40 : Int) : ℚ) by norm_num, Int.floor_intCast]) (by norm_num)
  have hr : ((wrapInt32 (Int.tmod ((0 : Nat) : Int) 40 + 50) : Int) : ℚ) = 50 := by
    have : wrapInt32 (Int.tmod ((0 : Nat) : Int) 40 + 50) = 50 := by decide
    rw [this]
    norm_num
  have ha : (((1 % 360 : Nat) : Nat) : ℚ) = 1 := by norm_num
  have hangle : Double.rnd (1 * (5030569068109113 / 2 ^ 58)) =
      Double.finite (5030569068109113 / 2 ^ 58) := by
    apply Double.rnd_eq_finite_of_pos _ (-6) 5030569068109113 <;> norm_num
  have hxo : Double.rnd (50 * (4502913707333573 / 2 ^ 52)) =
      Double.finite (1758950666927177 / 2 ^ 45) := by
    apply Double.rnd_eq_finite_of_pos _ 5 7035802667708708 <;> norm_num
  have hyo : Double.rnd (50 * (2515156836085391 / 2 ^ 57)) =
      Double.finite (7859865112766847 / 2 ^ 53) := by
    apply Double.rnd_eq_finite_of_pos _ (-1) 7859865112766847 <;> norm_num
  have hX : Double.rnd (1000 + 1758950666927177 / 2 ^ 45) =
      Double.finite (4617915344469897 / 2 ^ 42) := by
    apply Double.rnd_eq_finite_of_pos _ 10 4617915344469897 <;> norm_num
  have hY : Double.rnd (0 + 7859865112766847 / 2 ^ 53) =
      Double.finite (7859865112766847 / 2 ^ 53) := by
    apply Double.rnd_eq_finite_of_pos _ (-1) 7859865112766847 <;> norm_num
  have hcand : Binary64.landingCandidate Binary64.libm ⟨Double.finite 1000, Double.finite 0⟩
      (Double.finite 90) 1 0 = some ⟨Double.finite (4617915344469897 / 2 ^ 42),
        Double.finite (7859865112766847 / 2 ^ 53)⟩ := by
    rw [Binary64.landingCandidate_eq Binary64.libm _ _ _ 1 0 40 hint (by norm_num), hr, ha,
      Binary64.degree_eq, Double.mul_finite, hangle, Binary64.libm_cos_degree,
      Binary64.libm_sin_degree, Double.mul_finite, Double.mul_finite, hxo, hyo,
      Double.add_finite, Double.add_finite, hX, hY]
  refine ⟨_, Binary64.findLandingSpotLoop_succ_of_free Binary64.libm _ _ 9 [] _ _ hcand
    (Binary64.occupied_nil _), rfl, ?_, by norm_num⟩
  intro h
  have hx := congrArg Vector2D.x h
  simp only [Double.finite.injEq] at hx
  norm_num at hx

end ProjectDrone
